import Mathlib

/-! # `swaggerize.js`: the resource / reference extractor of generator-swiftserver

A shallow embedding of src/refresh/fromswagger/swaggerize.js: the extractor `parseSwagger`
(lines 79-183), the loaders `loadHttpAsync`, `loadFileAsync` and `loadAsync` (lines 27-68),
`ensureValidAsync` (lines 70-77) and the entry point `parse` (lines 185-200), with the
properties of their results.

Modelling conventions.

* A document is a JavaScript value as produced by `JSON.parse`. An object is the list of its
  own enumerable properties in `Object.keys` order (the keys of a parsed object are pairwise
  distinct; no theorem below relies on it). The values of the program are those of a
  document, `undefined`, and the built-in functions and prototype objects that a property
  read can bring in (`Val.builtin`); the statements hold for every value.
* Property reads. The module reads a value under a fixed name (`paths`, `basePath`,
  `definitions`, `parameters`, `responses`, `schema`, `$ref`, `items`, `type`, `properties`,
  `200`, `default`), under a key listed by `Object.keys`, or under a key computed at run
  time: a verb, a resource name, a definition name. No built-in prototype carries one of
  the fixed names, and a listed key is an own property, so these two kinds of read are own
  property reads (`get`). A read under a computed key goes on through the prototype chain
  (`readProp`, `readRefs`, `pushRoute`): which names the built-in prototypes answer is the
  business of the engine (`Engine.member`).
* `resources` is a plain object and `refs` is an array object (lines 82, 83): `refs` has a
  `length` that follows the array-index keys and that an assignment to `length` sets
  (raising `RangeError` for a value that is no array length), its keys are listed with the
  array indices first, and an assignment to `__proto__` that reaches the accessor of
  `Object.prototype` replaces the prototype instead of creating a key (`RefsArray`,
  `writeRefs`).
* Numbers are tested for truthiness, copied, and read as an array length when assigned to
  `refs.length`; they are integers here.
* A statement that can raise returns `Except Err`; the `do ... while` loop takes a fuel
  argument bounding the number of passes and `none` means that the passes allowed by the fuel
  did not reach the exit of the loop.
* `genUtils` (./generatorUtils) and `builderUtils.verbs` (swaggerize-routes) are not part of
  the sources; the extractor is parameterised by them and by the engine (`GenUtils`).
-/

namespace Swaggerize

/-! ## JavaScript values -/

/-- JavaScript values: those of a parsed JSON document, `undefined`, and the built-in
objects of the engine (functions such as `Object.prototype.toString`, prototype objects such
as `Object.prototype`), each known by its name only. -/
inductive Val where
  | undefined : Val
  | null : Val
  | bool (b : Bool) : Val
  | num (n : Int) : Val
  | str (s : String) : Val
  | arr (items : List Val) : Val
  | obj (fields : List (String × Val)) : Val
  | builtin (name : String) : Val

/-- Exceptions: a `TypeError` of the language (property read on `undefined`/`null`, call of a
value that is not a function, conversion of an object that has no usable `toString`), a
`RangeError` (assignment of a value that is no array length to the `length` of an array), or
an exception raised inside a collaborator. -/
inductive Err where
  | typeError : Err
  | rangeError : Err
  | collaborator : Err
  deriving DecidableEq, Repr

/-- The boolean coercion `ToBoolean` used by `if (...)`, `!`, `&&` and `||`. -/
def truthy : Val → Bool
  | .undefined => false
  | .null => false
  | .bool b => b
  | .num n => n != 0
  | .str s => s != ""
  | .arr _ => true
  | .obj _ => true
  | .builtin _ => true

/-- Own-property lookup in an insertion-ordered property list; `undefined` when absent. -/
def lookup (k : String) : List (String × Val) → Val
  | [] => .undefined
  | (k', v) :: rest => if k' = k then v else lookup k rest

/-- Whether a property list has an own property under the key. -/
def hasOwn {α : Type} (k : String) : List (String × α) → Bool
  | [] => false
  | (k', _) :: rest => if k' = k then true else hasOwn k rest

/-- The index keys `"0"`, ..., `"n-1"` of an array-like value of length `n`. -/
def indexKeys (n : Nat) : List String := (List.range n).map toString

/-- One-code-unit strings of a string (characters of the basic plane; a character outside it
occupies two code units, shown here as two copies of the character). -/
def codeUnits (s : String) : List Val :=
  s.data.flatMap (fun c =>
    if c.val < 0x10000 then [Val.str (String.singleton c)]
    else [Val.str (String.singleton c), Val.str (String.singleton c)])

/-- The own properties of an array-like value with the given elements: `length` and the
index keys. -/
def arrayLike (items : List Val) (k : String) : Val :=
  if k = "length" then .num items.length else lookup k ((indexKeys items.length).zip items)

/-- Own property read: `v.name` for one of the fixed names of the module, which no built-in
object carries, and `v[k]` for a key `k` that `Object.keys(v)` listed. The value of the own
property, `undefined` when there is none; a read on `undefined` or `null` raises. -/
def get (v : Val) (k : String) : Except Err Val :=
  match v with
  | .undefined => .error .typeError
  | .null => .error .typeError
  | .obj fields => .ok (lookup k fields)
  | .arr items => .ok (arrayLike items k)
  | .str s => .ok (arrayLike (codeUnits s) k)
  | .bool _ => .ok .undefined
  | .num _ => .ok .undefined
  | .builtin _ => .ok .undefined

/-- The list `Object.keys(v)`. -/
def keys (v : Val) : Except Err (List String) :=
  match v with
  | .undefined => .error .typeError
  | .null => .error .typeError
  | .obj fields => .ok (fields.map Prod.fst)
  | .arr items => .ok (indexKeys items.length)
  | .str s => .ok (indexKeys (codeUnits s).length)
  | .bool _ => .ok []
  | .num _ => .ok []
  | .builtin _ => .ok []

/-- Strict equality `v === 'lit'` against a string literal. -/
def isStr (v : Val) (lit : String) : Bool :=
  match v with
  | .str s => s == lit
  | _ => false

/-! ## Property keys and their order -/

/-- The value of a decimal digit. -/
def digitOf (c : Char) : Option Nat :=
  if 48 ≤ c.toNat ∧ c.toNat ≤ 57 then some (c.toNat - 48) else none

/-- The number that a list of decimal digits denotes, continuing from `acc`. -/
def decimalFrom : List Char → Nat → Option Nat
  | [], acc => some acc
  | c :: cs, acc =>
    match digitOf c with
    | some d => decimalFrom cs (10 * acc + d)
    | none => none

/-- The array index that a property key denotes, if any: the key is the canonical decimal
text (no sign, no leading zero) of a number below `2^32 - 1`. -/
def arrayIndex (k : String) : Option Nat :=
  match k.data with
  | [] => none
  | c :: cs =>
    if c = '0' ∧ cs ≠ [] then none
    else
      match decimalFrom (c :: cs) 0 with
      | some n => if n < 4294967295 then some n else none
      | none => none

/-- Whether a new key `k` is listed before the existing key `k'` by `Object.keys`: array
indices come first, in ascending order; the other keys follow in the order of creation. -/
def precedes (k k' : String) : Bool :=
  match arrayIndex k, arrayIndex k' with
  | some n, some n' => decide (n < n')
  | some _, none => true
  | none, _ => false

/-- A new own property `k` with value `v`, at its place in the order of `Object.keys`. -/
def insertKey {α : Type} (k : String) (v : α) : List (String × α) → List (String × α)
  | [] => [(k, v)]
  | (k', v') :: rest =>
    if precedes k k' then (k, v) :: (k', v') :: rest else (k', v') :: insertKey k v rest

/-- A new value for the own property `k`, which keeps its place. -/
def replaceKey {α : Type} (k : String) (v : α) : List (String × α) → List (String × α)
  | [] => []
  | (k', v') :: rest => if k' = k then (k, v) :: rest else (k', v') :: replaceKey k v rest

/-- The own data property `k` set to `v`: an existing key keeps its place, a new one is
created. -/
def setProp {α : Type} (m : List (String × α)) (k : String) (v : α) : List (String × α) :=
  if hasOwn k m then replaceKey k v m else insertKey k v m

/-! ## The engine: built-in prototypes -/

/-- What the program needs to know of the engine that runs it.

`member name k` tells whether a property lookup that starts at the built-in object `name`
(`Object.prototype`, `Array.prototype`, `String.prototype`, `Number.prototype`,
`Boolean.prototype`) finds a property under the key `k`, on that object or further up its
prototype chain. Apart from the accessor `__proto__` of `Object.prototype` and from the
`length` of `Array.prototype` and `String.prototype`, which an own `length` always shadows,
these properties are built-in functions.

`toArrayLength v` is the array length that a string, an array or a built-in object denotes
when it is assigned to the `length` of an array (the conversions `ToUint32` and `ToNumber` of
the language agree on it), or the exception that the assignment raises. -/
structure Engine where
  member : String → String → Bool
  toArrayLength : Val → Except Err Nat

/-- Whether a value has an own property under the key: a field of an object, the `length`
or an index of an array or of a string. -/
def hasOwnProperty (v : Val) (k : String) : Bool :=
  match v with
  | .obj fields => hasOwn k fields
  | .arr items => k == "length" || (indexKeys items.length).contains k
  | .str s => k == "length" || (indexKeys (codeUnits s).length).contains k
  | _ => false

/-- The name of the built-in object at which the lookup of a property goes on when the value
has no own property under the key: the prototype of the value, and for a built-in object
that object itself. -/
def prototypeName : Val → String
  | .obj _ => "Object.prototype"
  | .arr _ => "Array.prototype"
  | .str _ => "String.prototype"
  | .num _ => "Number.prototype"
  | .bool _ => "Boolean.prototype"
  | .builtin name => name
  | .undefined => ""
  | .null => ""

/-- The prototype of a value, as the accessor `__proto__` returns it. -/
def prototypeOf : Val → Val
  | .builtin name => .builtin (name ++ ".__proto__")
  | v => .builtin (prototypeName v)

/-- What the lookup of a property finds: nothing, a data property with its value, or the
accessor `__proto__` of `Object.prototype`. -/
inductive Found where
  | nothing : Found
  | data (v : Val) : Found
  | protoAccessor : Found

/-- The lookup of `k` from the built-in object `name`. -/
def findBuiltin (e : Engine) (name k : String) : Found :=
  if e.member name k then
    if k = "__proto__" then .protoAccessor else .data (.builtin (name ++ "." ++ k))
  else .nothing

/-- The lookup of `k` from the object `o`: its own property, or else what its prototype
chain holds. -/
def find (e : Engine) (o : Val) (k : String) : Found :=
  match get o k with
  | .error _ => .nothing
  | .ok own => if hasOwnProperty o k then .data own else findBuiltin e (prototypeName o) k

/-- Property read `v[k]` under a key computed at run time: the own property, or else what
the prototype chain of `v` holds under `k`. -/
def readProp (e : Engine) (v : Val) (k : String) : Except Err Val := do
  let own ← get v k
  if hasOwnProperty v k then pure own
  else
    match findBuiltin e (prototypeName v) k with
    | .nothing => pure .undefined
    | .data x => pure x
    | .protoAccessor => pure (prototypeOf v)

/-- The loop `xs.forEach(function (x) { ... })` over a callback that updates a state and may
raise. -/
def forEach {α σ : Type} (xs : List α) (f : σ → α → Except Err σ) (s : σ) : Except Err σ :=
  match xs with
  | [] => .ok s
  | x :: rest =>
    match f s x with
    | .ok s' => forEach rest f s'
    | .error e => .error e

/-! ## The result of the extractor -/

/-- A route entry: the object with fields method and route pushed at line 99. -/
structure Route where
  method : String
  route : String
  deriving DecidableEq, Repr

/-- The `resources` object: resource name to its routes. -/
abbrev Resources := List (String × List Route)

/-- The own enumerable properties of `refs`, in the order of `Object.keys`: definition name
to the value read from `api.definitions`. -/
abbrev Refs := List (String × Val)

/-- The array object `refs` (line 83): its own enumerable properties, its `length` and its
prototype. -/
structure RefsArray where
  entries : Refs
  length : Nat
  proto : Val

/-- The value of `[]`: no property, length 0, prototype `Array.prototype`. -/
def emptyRefs : RefsArray := ⟨[], 0, .builtin "Array.prototype"⟩

/-- The object returned by `parseSwagger` (line 181). The array object under `refs` is given
by its own enumerable properties (`refs`), its `length` (`refsLength`) and its prototype
(`refsProto`). -/
structure Parsed where
  basepath : Val
  resources : Resources
  refs : Refs
  refsLength : Nat
  refsProto : Val

/-- The surroundings of the extractor: its collaborators and the engine.
`resourceNameFromPath` and `convertToSwiftParameterFormat` are string-to-string functions;
`getRefName` receives whatever value the document holds under `$ref` and gives the property
key that its result denotes, or raises. -/
structure GenUtils where
  resourceNameFromPath : String → String
  convertToSwiftParameterFormat : String → String
  getRefName : Val → Except Err String
  verbs : List String
  engine : Engine

/-- The routes recorded for a resource name: `resources[resource]`, with `none` for
`undefined`. -/
def routesOf (resource : String) : Resources → Option (List Route)
  | [] => none
  | (k, rs) :: rest => if k = resource then some rs else routesOf resource rest

/-- Lines 93-99: create `resources[resource]` when it is falsy, then push the entry. The read
`resources[resource]` gives the own array, which is truthy and takes the entry, or else
what `Object.prototype` holds under the name: a built-in function, or for `__proto__` the
prototype itself. Such a value is truthy, so no array is created, and it has no `push`: the
call of line 99 raises a `TypeError`. Only when the read finds nothing is the array
created. -/
def pushRoute (g : GenUtils) (resources : Resources) (resource : String) (entry : Route) :
    Except Err Resources :=
  match routesOf resource resources with
  | some rs => .ok (replaceKey resource (rs ++ [entry]) resources)
  | none =>
    match findBuiltin g.engine "Object.prototype" resource with
    | .nothing => .ok (insertKey resource [entry] resources)
    | _ => .error .typeError

/-! ## The array object `refs` -/

/-- The read `refs[k]`: the `length`, an own property, or what the prototype chain of `refs`
holds under `k`; the accessor `__proto__` gives the prototype of `refs`. -/
def readRefs (e : Engine) (refs : RefsArray) (k : String) : Val :=
  if k = "length" then .num (Int.ofNat refs.length)
  else if hasOwn k refs.entries then lookup k refs.entries
  else
    match find e refs.proto k with
    | .nothing => .undefined
    | .data v => v
    | .protoAccessor => refs.proto

/-- The array length that a value denotes when it is assigned to `refs.length`, or the
exception raised: `undefined` reads as `NaN`, an object as the text of
`Object.prototype.toString` unless an own `toString`, which a document cannot make callable,
leaves it without a primitive value. -/
def arrayLength (e : Engine) (v : Val) : Except Err Nat :=
  match v with
  | .undefined => .error .rangeError
  | .null => .ok 0
  | .bool b => .ok (if b then 1 else 0)
  | .num n => if 0 ≤ n ∧ n < 4294967296 then .ok n.toNat else .error .rangeError
  | .obj fields => if hasOwn "toString" fields then .error .typeError else .error .rangeError
  | .str s => e.toArrayLength (.str s)
  | .arr items => e.toArrayLength (.arr items)
  | .builtin name => e.toArrayLength (.builtin name)

/-- The properties that remain when the `length` is set to `n`: the array indices from `n`
on are deleted. -/
def truncate (n : Nat) (entries : Refs) : Refs :=
  entries.filter (fun kv =>
    match arrayIndex kv.1 with
    | some i => decide (i < n)
    | none => true)

/-- The values that the setter of `__proto__` accepts as a prototype: objects and `null`. -/
def isObjectOrNull : Val → Bool
  | .null => true
  | .obj _ => true
  | .arr _ => true
  | .builtin _ => true
  | _ => false

/-- The assignment `refs[k] = v`. The key `length` sets the length, deleting the indices
from it on. An own property takes the value. Otherwise the prototype chain is consulted: if
it answers with the accessor `__proto__`, the setter makes of an object or `null` the new
prototype of `refs`, ignores every other value, and no property is created; if not, the
property is created, and an array index at or beyond the length moves the length past
it. -/
def writeRefs (e : Engine) (refs : RefsArray) (k : String) (v : Val) : Except Err RefsArray :=
  if k = "length" then do
    let n ← arrayLength e v
    pure { refs with
      entries := if n < refs.length then truncate n refs.entries else refs.entries
      length := n }
  else if hasOwn k refs.entries then
    pure { refs with entries := replaceKey k v refs.entries }
  else
    match find e refs.proto k with
    | .protoAccessor => pure (if isObjectOrNull v then { refs with proto := v } else refs)
    | _ =>
      pure { refs with
        entries := insertKey k v refs.entries
        length :=
          match arrayIndex k with
          | some i => max refs.length (i + 1)
          | none => refs.length }

/-! ## `parseSwagger` -/

/-- The statement `refs[ref] = api.definitions[ref]` (lines 109, 114, 130, 134, 140): the
right-hand side is read first, then assigned. -/
def record (g : GenUtils) (api : Val) (refs : RefsArray) (ref : String) :
    Except Err RefsArray := do
  let definitions ← get api "definitions"
  let d ← readProp g.engine definitions ref
  writeRefs g.engine refs ref d

/-- Lines 104-118, the callback of `parameters.forEach`. The variable `ref` is declared with
`var` inside this callback, so it is hoisted to the callback: every call starts with
`ref === undefined`, and the array branch (line 114), which never assigns it, uses the
property key `"undefined"`. -/
def scanParameter (g : GenUtils) (api : Val) (refs : RefsArray) (parameter : Val) :
    Except Err RefsArray := do
  let schema ← get parameter "schema"
  if truthy schema then
    let r ← get schema "$ref"
    if truthy r then
      let ref ← g.getRefName r
      record g api refs ref
    else
      let items ← get schema "items"
      if truthy items then
        let ir ← get items "$ref"
        if truthy ir then
          record g api refs "undefined"
        else pure refs
      else pure refs
  else pure refs

/-- Lines 122-147, the callback over the response types `'200'` and `'default'`, for the
operation `op = api.paths[path][verb]`. -/
def scanResponse (g : GenUtils) (api : Val) (op : Val) (refs : RefsArray)
    (responseType : String) : Except Err RefsArray := do
  let responses ← get op "responses"
  if truthy responses then
    let response ← get responses responseType
    if truthy response then
      let schema ← get response "schema"
      if truthy schema then
        let r ← get schema "$ref"
        if truthy r then
          let ref ← g.getRefName r
          record g api refs ref
        else
          let ty ← get schema "type"
          if truthy ty && isStr ty "array" then
            let items ← get schema "items"
            if truthy items then
              let ir ← get items "$ref"
              if truthy ir then
                let ref ← g.getRefName ir
                let refs1 ← record g api refs ref
                -- lines 135-141 repeat the test and the assignment
                let ref2 ← g.getRefName ir
                record g api refs1 ref2
              else pure refs
            else pure refs
          else pure refs
      else pure refs
    else pure refs
  else pure refs

/-- Lines 101-119: `parameters.forEach(...)` when `parameters` is truthy; only an array has
a `forEach` to call. -/
def scanParameters (g : GenUtils) (api : Val) (op : Val) (refs : RefsArray) :
    Except Err RefsArray := do
  let parameters ← get op "parameters"
  if truthy parameters then
    match parameters with
    | .arr ps => forEach ps (scanParameter g api) refs
    | _ => .error .typeError
  else pure refs

/-- Lines 91-149, the callback of `builderUtils.verbs.forEach` for one path. The path is a
key of `api.paths`; the verb is any member of the verb list. -/
def scanVerb (g : GenUtils) (api : Val) (path resource : String) (st : Resources × RefsArray)
    (verb : String) : Except Err (Resources × RefsArray) := do
  let paths ← get api "paths"
  let item ← get paths path
  let op ← readProp g.engine item verb
  if truthy op then
    let resources ←
      pushRoute g st.1 resource ⟨verb, g.convertToSwiftParameterFormat path⟩
    let refs1 ← scanParameters g api op st.2
    let refs2 ← forEach ["200", "default"] (scanResponse g api op) refs1
    pure (resources, refs2)
  else pure st

/-- Lines 86-150, the callback of `Object.keys(api.paths).forEach`. -/
def scanPath (g : GenUtils) (api : Val) (st : Resources × RefsArray) (path : String) :
    Except Err (Resources × RefsArray) :=
  forEach g.verbs (scanVerb g api path (g.resourceNameFromPath path)) st

/-- Line 84: `api.basePath || undefined`. -/
def basePathOf (api : Val) : Except Err Val := do
  let b ← get api "basePath"
  pure (if truthy b then b else .undefined)

/-- Lines 82-150: the walk over paths and verbs. -/
def walkPaths (g : GenUtils) (api : Val) : Except Err (Resources × RefsArray) := do
  let paths ← get api "paths"
  let ks ← keys paths
  forEach ks (scanPath g api) ([], emptyRefs)

/-- Lines 164-167 and 171-174: `if (!refs[name]) { refs[name] = api.definitions[name];
foundNewRef = true }`. The state is `refs` with the flag `foundNewRef`. -/
def addIfMissing (g : GenUtils) (api : Val) (st : RefsArray × Bool) (name : String) :
    Except Err (RefsArray × Bool) :=
  if truthy (readRefs g.engine st.1 name) then pure st
  else do
    let refs ← record g api st.1 name
    pure (refs, true)

/-- Lines 159-176, the callback of `Object.keys(properties).forEach`. -/
def scanProperty (g : GenUtils) (api : Val) (properties : Val) (st : RefsArray × Bool)
    (property : String) : Except Err (RefsArray × Bool) := do
  let p ← get properties property
  let r ← get p "$ref"
  if truthy r then
    let name ← g.getRefName r
    addIfMissing g api st name
  else
    let items ← get p "items"
    if truthy items then
      let ir ← get items "$ref"
      if truthy ir then
        let name ← g.getRefName ir
        addIfMissing g api st name
      else pure st
    else pure st

/-- Lines 156-178, the callback of `Object.keys(refs).forEach`; `refs[schema]` is read when
the callback runs. -/
def scanSchema (g : GenUtils) (api : Val) (st : RefsArray × Bool) (schema : String) :
    Except Err (RefsArray × Bool) := do
  let d := readRefs g.engine st.1 schema
  if truthy d then
    let properties ← get d "properties"
    if truthy properties then
      let ks ← keys properties
      forEach ks (scanProperty g api properties) st
    else pure st
  else pure st

/-- One execution of the body of the `do ... while` loop (lines 154-178): `foundNewRef`
starts `false` and the keys of `refs` are listed once, before the callbacks run. -/
def closurePass (g : GenUtils) (api : Val) (refs : RefsArray) :
    Except Err (RefsArray × Bool) :=
  forEach (refs.entries.map Prod.fst) (scanSchema g api) (refs, false)

/-- Lines 152-179: the loop `do { ... } while (foundNewRef)`, with at most `fuel` passes. -/
def closure (g : GenUtils) (api : Val) : Nat → RefsArray → Option (Except Err RefsArray)
  | 0, _ => none
  | fuel + 1, refs =>
    match closurePass g api refs with
    | .error e => some (.error e)
    | .ok (refs', foundNewRef) =>
      if foundNewRef then closure g api fuel refs' else some (.ok refs')

/-- The function `parseSwagger(api)` (lines 79-183). -/
def parseSwagger (g : GenUtils) (fuel : Nat) (api : Val) : Option (Except Err Parsed) :=
  match basePathOf api with
  | .error e => some (.error e)
  | .ok basePath =>
    match walkPaths g api with
    | .error e => some (.error e)
    | .ok (resources, refs) =>
      match closure g api fuel refs with
      | none => none
      | some (.error e) => some (.error e)
      | some (.ok refs') =>
        some (.ok ⟨basePath, resources, refs'.entries, refs'.length, refs'.proto⟩)


/-- White space and line terminators: the class `\s` of a regular expression, and what the
conversion of a string to a number trims. -/
def isWhiteSpace (c : Char) : Bool :=
  let n := c.toNat
  n = 0x9 || n = 0xA || n = 0xB || n = 0xC || n = 0xD || n = 0x20 || n = 0xA0 ||
    n = 0x1680 || (0x2000 ≤ n && n ≤ 0x200A) || n = 0x2028 || n = 0x2029 || n = 0x202F ||
    n = 0x205F || n = 0x3000 || n = 0xFEFF

/-! ## An instance of the engine

The built-in prototypes as ECMAScript 2023 has them, and the reading of a value as an array
length (`ToNumber`, with the grammar of numeric strings and the rounding to a double). -/

/-- The functions of `Object.prototype`, and its accessor `__proto__`. -/
def objectMembers : List String :=
  ["constructor", "__defineGetter__", "__defineSetter__", "hasOwnProperty",
    "__lookupGetter__", "__lookupSetter__", "isPrototypeOf", "propertyIsEnumerable",
    "toString", "valueOf", "__proto__", "toLocaleString"]

/-- The functions of `Array.prototype`. -/
def arrayMembers : List String :=
  ["constructor", "at", "concat", "copyWithin", "fill", "find", "findIndex", "findLast",
    "findLastIndex", "lastIndexOf", "pop", "push", "reverse", "shift", "unshift", "slice",
    "sort", "splice", "includes", "indexOf", "join", "keys", "entries", "values", "forEach",
    "filter", "flat", "flatMap", "map", "every", "some", "reduce", "reduceRight",
    "toLocaleString", "toString", "toReversed", "toSorted", "toSpliced", "with"]

/-- The functions of `String.prototype`. -/
def stringMembers : List String :=
  ["constructor", "anchor", "at", "big", "blink", "bold", "charAt", "charCodeAt",
    "codePointAt", "concat", "endsWith", "fontcolor", "fontsize", "fixed", "includes",
    "indexOf", "isWellFormed", "italics", "lastIndexOf", "link", "localeCompare", "match",
    "matchAll", "normalize", "padEnd", "padStart", "repeat", "replace", "replaceAll",
    "search", "slice", "small", "split", "strike", "sub", "substr", "substring", "sup",
    "startsWith", "toString", "toWellFormed", "trim", "trimStart", "trimLeft", "trimEnd",
    "trimRight", "toLocaleLowerCase", "toLocaleUpperCase", "toLowerCase", "toUpperCase",
    "valueOf"]

/-- The functions of `Number.prototype`. -/
def numberMembers : List String :=
  ["constructor", "toExponential", "toFixed", "toLocaleString", "toPrecision", "toString",
    "valueOf"]

/-- The functions of `Boolean.prototype`. -/
def booleanMembers : List String := ["constructor", "toString", "valueOf"]

/-- The lookup from a built-in prototype: its own properties, then those of
`Object.prototype`. The prototypes of JSON values are the only built-in objects that the
extractor looks into. -/
def member (name k : String) : Bool :=
  if name = "Object.prototype" then objectMembers.contains k
  else if name = "Array.prototype" then arrayMembers.contains k || objectMembers.contains k
  else if name = "String.prototype" then stringMembers.contains k || objectMembers.contains k
  else if name = "Number.prototype" then numberMembers.contains k || objectMembers.contains k
  else if name = "Boolean.prototype" then
    booleanMembers.contains k || objectMembers.contains k
  else false

/-- The value of a digit in a base up to 16, if the character is one. -/
def digitIn (base : Nat) (c : Char) : Option Nat :=
  let n := c.toNat
  let d :=
    if 48 ≤ n ∧ n ≤ 57 then some (n - 48)
    else if 97 ≤ n ∧ n ≤ 102 then some (n - 87)
    else if 65 ≤ n ∧ n ≤ 70 then some (n - 55)
    else none
  match d with
  | some x => if x < base then some x else none
  | none => none

/-- The number that a list of digits denotes in a base, continuing from `acc`. -/
def digitsFrom (base : Nat) : List Char → Nat → Option Nat
  | [], acc => some acc
  | c :: cs, acc =>
    match digitIn base c with
    | some d => digitsFrom base cs (base * acc + d)
    | none => none

/-- The number that a non-empty list of digits denotes. -/
def natural (base : Nat) (cs : List Char) : Option Nat :=
  if cs = [] then none else digitsFrom base cs 0

/-- An exponent: digits with an optional sign. -/
def signedInt : List Char → Option Int
  | '+' :: ds => (natural 10 ds).map Int.ofNat
  | '-' :: ds => (natural 10 ds).map (fun n => - Int.ofNat n)
  | ds => (natural 10 ds).map Int.ofNat

/-- An unsigned decimal literal other than `Infinity`: digits with an optional fraction and
an optional exponent, read as a mantissa `m` and an exponent `x` for the value `m * 10 ^ x`. -/
def unsignedDecimal (cs : List Char) : Option (Nat × Int) :=
  let (body, ex) := cs.span (fun c => c != 'e' && c != 'E')
  let exponent : Option Int :=
    match ex with
    | [] => some 0
    | _ :: rest => signedInt rest
  let (whole, fraction) := body.span (fun c => c != '.')
  let digits : Option (List Char × Nat) :=
    match fraction with
    | [] => if whole = [] then none else some (whole, 0)
    | _ :: fs => if whole = [] ∧ fs = [] then none else some (whole ++ fs, fs.length)
  match digits, exponent with
  | some (ds, shift), some x =>
    match digitsFrom 10 ds 0 with
    | some m => some (m, x - Int.ofNat shift)
    | none => none
  | _, _ => none

/-- The array length that the number `a / b`, taken with its sign, rounds to as a double: an
integer below `2^32` whose distance to `a / b` is at most half the gap between the doubles
around it (a tie goes to the integer, whose significand is even). -/
def nearestLength (negative : Bool) (a b : Nat) : Option Nat :=
  if a = 0 then some 0
  else if negative then (if a * 2 ^ 1075 ≤ b then some 0 else none)
  else
    let n := (2 * a + b) / (2 * b)
    if n = 0 then (if a * 2 ^ 1075 ≤ b then some 0 else none)
    else if 4294967296 ≤ n then none
    else
      let e := Nat.log2 n
      if n * b ≤ a then (if (a - n * b) * 2 ^ 53 ≤ 2 ^ e * b then some n else none)
      else if (n * b - a) * 2 ^ (if n = 2 ^ e then 54 else 53) ≤ 2 ^ e * b then some n
      else none

/-- The array length that a decimal literal with an optional sign denotes. -/
def decimalLength (negative : Bool) (cs : List Char) : Option Nat :=
  match unsignedDecimal cs with
  | some (m, x) =>
    if 0 ≤ x then nearestLength negative (m * 10 ^ x.toNat) 1
    else nearestLength negative m (10 ^ (-x).toNat)
  | none => none

/-- An integer below `2^32`. -/
def inRange (n : Nat) : Option Nat :=
  if n < 4294967296 then some n else none

/-- The array length that a text denotes, if it denotes one: the text is trimmed; the empty
text reads as 0; an integer in base 16, 8 or 2 has a prefix and no sign; everything else is
a decimal literal with an optional sign (`Infinity` is no length). -/
def lengthOfText (cs : List Char) : Option Nat :=
  match ((cs.dropWhile isWhiteSpace).reverse.dropWhile isWhiteSpace).reverse with
  | [] => some 0
  | '0' :: 'x' :: ds => (natural 16 ds).bind inRange
  | '0' :: 'X' :: ds => (natural 16 ds).bind inRange
  | '0' :: 'o' :: ds => (natural 8 ds).bind inRange
  | '0' :: 'O' :: ds => (natural 8 ds).bind inRange
  | '0' :: 'b' :: ds => (natural 2 ds).bind inRange
  | '0' :: 'B' :: ds => (natural 2 ds).bind inRange
  | '+' :: ds => decimalLength false ds
  | '-' :: ds => decimalLength true ds
  | ds => decimalLength false ds

mutual

/-- The text of an element of an array in `Array.prototype.join`: `undefined` and `null`
give the empty text, an array is joined in turn, an object gives the text of
`Object.prototype.toString` unless it has an own `toString`, which cannot be called. A number
is written in decimal digits (where the engine uses the exponent form the text denotes the
same number). -/
def elementText : Val → Except Err (List Char)
  | .undefined => .ok []
  | .null => .ok []
  | .bool b => .ok (if b then "true".data else "false".data)
  | .num n => .ok (toString n).data
  | .str s => .ok s.data
  | .arr items => joinText items
  | .obj fields =>
    if hasOwn "toString" fields then .error .typeError else .ok "[object Object]".data
  | .builtin name => .ok ("[object " ++ name ++ "]").data

/-- The text of `Array.prototype.join`: the texts of the elements, separated by commas. -/
def joinText : List Val → Except Err (List Char)
  | [] => .ok []
  | [x] => elementText x
  | x :: y :: rest =>
    match elementText x with
    | .error e => .error e
    | .ok a =>
      match joinText (y :: rest) with
      | .error e => .error e
      | .ok b => .ok (a ++ ',' :: b)

end

/-- The length that a text denotes, or the `RangeError` of the assignment. -/
def lengthOrRangeError (cs : List Char) : Except Err Nat :=
  match lengthOfText cs with
  | some n => .ok n
  | none => .error .rangeError

/-- The reading of a value as an array length. A string is read by `lengthOfText`, an array
through the text of `join`; the prototype objects of arrays, strings, numbers and booleans
hold the values `[]`, `""`, `0` and `false`, which read as 0, and every other built-in
object reads as a text that denotes no number. -/
def toArrayLength : Val → Except Err Nat
  | .undefined => .error .rangeError
  | .null => .ok 0
  | .bool b => .ok (if b then 1 else 0)
  | .num n => if 0 ≤ n ∧ n < 4294967296 then .ok n.toNat else .error .rangeError
  | .str s => lengthOrRangeError s.data
  | .arr items =>
    match joinText items with
    | .error e => .error e
    | .ok text => lengthOrRangeError text
  | .obj fields => if hasOwn "toString" fields then .error .typeError else .error .rangeError
  | .builtin name =>
    if name = "Array.prototype" ∨ name = "String.prototype" ∨ name = "Number.prototype" ∨
        name = "Boolean.prototype" then .ok 0
    else .error .rangeError

/-- The engine as modelled above. -/
def engine : Engine := ⟨member, toArrayLength⟩

/-! ## An instance of the collaborators, and sample documents -/

/-- The text after the last `/` of a reference such as `#/definitions/Item`. -/
def lastSegment (cs : List Char) : List Char :=
  cs.foldl (fun acc c => if c = '/' then [] else acc ++ [c]) []

/-- Modelled from the spec: `genUtils.getRefName` is not among the sources; the spec has it
give the referenced definition name, `Item` for `#/definitions/Item` (§8). A value that is
not a string has no name. -/
def getRefName : Val → Except Err String
  | .str s => .ok (String.mk (lastSegment s.data))
  | _ => .error .typeError

/-- The first segment of a path: the text between the leading slashes and the next one. -/
def firstSegment : List Char → List Char
  | [] => []
  | c :: cs => if c = '/' then firstSegment cs else c :: cs.takeWhile (fun d => d != '/')

/-- Modelled from the spec: `genUtils.resourceNameFromPath` is not among the sources; the
resource name is derived from the first segment of the path (§3). -/
def resourceNameFromPath (path : String) : String :=
  String.mk (firstSegment path.data)

/-- Modelled from the spec: `genUtils.convertToSwiftParameterFormat` is not among the
sources; it rewrites a bracketed path parameter into the token syntax of the target
(§6 b), here a colon followed by the parameter name. -/
def convertToSwiftParameterFormat (path : String) : String :=
  String.mk ((path.data.filter (fun c => c != '}')).map (fun c => if c = '{' then ':' else c))

/-- Modelled from the spec: `builderUtils.verbs` (package swaggerize-routes) is not among
the sources; it is the fixed ordered list of recognised verbs (§6 c). -/
def verbs : List String := ["get", "post", "put", "delete", "head", "options", "patch"]

/-- The collaborators as modelled above. -/
def genUtils : GenUtils :=
  ⟨resourceNameFromPath, convertToSwiftParameterFormat, getRefName, verbs, engine⟩

/-- A reference object: the object whose only field is `$ref`. -/
def refTo (target : String) : Val := .obj [("$ref", .str target)]

/-- The definition `Widget`: one property referring to `Part`. -/
def widgetDef : Val := .obj [("properties", .obj [("part", refTo "#/definitions/Part")])]

/-- The definition `Part`: it refers back to `Widget`, and to itself through an array. -/
def partDef : Val :=
  .obj [("properties", .obj [
    ("owner", refTo "#/definitions/Widget"),
    ("subparts", .obj [("type", .str "array"), ("items", refTo "#/definitions/Part")])])]

/-- The definition `Problem`: no reference. -/
def problemDef : Val := .obj [("properties", .obj [("code", .obj [("type", .str "integer")])])]

/-- The operation `get /widgets`: its `200` response is an array of `Widget`. -/
def listWidgetsOp : Val :=
  .obj [("responses", .obj [
    ("200", .obj [("schema", .obj [("type", .str "array"),
      ("items", refTo "#/definitions/Widget")])])])]

/-- The operation `post /widgets`: a body parameter of schema `Widget`, and a `default`
response of schema `Problem`. -/
def createWidgetOp : Val :=
  .obj [
    ("parameters", .arr [.obj [("name", .str "body"), ("in", .str "body"),
      ("schema", refTo "#/definitions/Widget")]]),
    ("responses", .obj [
      ("201", .obj [("description", .str "created")]),
      ("default", .obj [("schema", refTo "#/definitions/Problem")])])]

/-- The operation `get /widgets/{id}`: a path parameter without schema, and a `200` response
of schema `Widget`. -/
def getWidgetOp : Val :=
  .obj [
    ("parameters", .arr [.obj [("name", .str "id"), ("in", .str "path"),
      ("type", .str "string")]]),
    ("responses", .obj [("200", .obj [("schema", refTo "#/definitions/Widget")])])]

/-- The paths of `widgetDoc`: two paths of one resource. -/
def widgetPaths : Val :=
  .obj [
    ("/widgets", .obj [("get", listWidgetsOp), ("post", createWidgetOp)]),
    ("/widgets/{id}", .obj [("get", getWidgetOp)])]

/-- The definitions of `widgetDoc`: the cycle `Widget -> Part -> Widget`, and a definition
that nothing refers to. -/
def widgetDefs : List (String × Val) :=
  [("Widget", widgetDef), ("Part", partDef), ("Problem", problemDef), ("Unused", .obj [])]

/-- The `definitions` object of `widgetDoc`. -/
def widgetDefinitions : Val := .obj widgetDefs

/-- A document with two paths of one resource, a cycle between two definitions and a
definition that nothing refers to. -/
def widgetDoc : Val :=
  .obj [("swagger", .str "2.0"), ("basePath", .str "/api"), ("paths", widgetPaths),
    ("definitions", widgetDefinitions)]

/-- The result of the extractor on `widgetDoc`. -/
def widgetParsed : Parsed :=
  { basepath := .str "/api"
    resources := [("widgets",
      [⟨"get", "/widgets"⟩, ⟨"post", "/widgets"⟩, ⟨"get", "/widgets/:id"⟩])]
    refs := [("Widget", widgetDef), ("Problem", problemDef), ("Part", partDef)]
    refsLength := 0
    refsProto := .builtin "Array.prototype" }

/-! ## Specification vocabulary -/

/-- Each key of `refs` holds what the read `api.definitions[k]` gives. -/
def FromDefinitions (g : GenUtils) (api : Val) (refs : Refs) : Prop :=
  ∀ k ∈ refs.map Prod.fst,
    ∃ defs, get api "definitions" = .ok defs ∧ readProp g.engine defs k = .ok (lookup k refs)

/-- Every key of the first map is a key of the second. -/
def KeysSubset (a b : Refs) : Prop :=
  ∀ k ∈ a.map Prod.fst, k ∈ b.map Prod.fst

/-- An operation of the document: the truthy value that a path key of `api.paths` holds
under one of the supported verbs (line 92). -/
def IsOperation (g : GenUtils) (api op : Val) : Prop :=
  ∃ paths ks path item verb,
    get api "paths" = .ok paths ∧ keys paths = .ok ks ∧ path ∈ ks ∧
    get paths path = .ok item ∧ verb ∈ g.verbs ∧ readProp g.engine item verb = .ok op ∧
    truthy op = true

/-- The definition names that an operation uses directly: the name of the `$ref` of a
parameter schema, of the `$ref` of the schema of the response `200` or `default`, and of the
`items.$ref` of such a response schema when it has no `$ref` and its type is `array`. -/
inductive DirectlyUsed (g : GenUtils) (op : Val) : String → Prop where
  | parameterRef (ps : List Val) (parameter schema rv : Val) (name : String) :
      get op "parameters" = .ok (.arr ps) → parameter ∈ ps →
      get parameter "schema" = .ok schema → get schema "$ref" = .ok rv →
      truthy rv = true → g.getRefName rv = .ok name → DirectlyUsed g op name
  | responseRef (responseType : String) (responses response schema rv : Val) (name : String) :
      responseType = "200" ∨ responseType = "default" →
      get op "responses" = .ok responses → get responses responseType = .ok response →
      get response "schema" = .ok schema → get schema "$ref" = .ok rv →
      truthy rv = true → g.getRefName rv = .ok name → DirectlyUsed g op name
  | responseItemsRef (responseType : String) (responses response schema rv items ir : Val)
      (name : String) :
      responseType = "200" ∨ responseType = "default" →
      get op "responses" = .ok responses → get responses responseType = .ok response →
      get response "schema" = .ok schema → get schema "$ref" = .ok rv →
      truthy rv = false → get schema "type" = .ok (.str "array") →
      get schema "items" = .ok items → get items "$ref" = .ok ir →
      truthy ir = true → g.getRefName ir = .ok name → DirectlyUsed g op name

/-- The definition names that a property value refers to: the name of its `$ref`, or, when it
has none, the name of its `items.$ref` (lines 161-175). -/
inductive PropertyRef (g : GenUtils) (p : Val) : String → Prop where
  | direct (rv : Val) (name : String) :
      get p "$ref" = .ok rv → truthy rv = true → g.getRefName rv = .ok name →
      PropertyRef g p name
  | items (rv items ir : Val) (name : String) :
      get p "$ref" = .ok rv → truthy rv = false → get p "items" = .ok items →
      get items "$ref" = .ok ir → truthy ir = true → g.getRefName ir = .ok name →
      PropertyRef g p name

/-- The definition names that a definition refers to through one of its `properties`. -/
def RefersTo (g : GenUtils) (d : Val) (name : String) : Prop :=
  ∃ properties ks property p,
    get d "properties" = .ok properties ∧ truthy properties = true ∧
    keys properties = .ok ks ∧ property ∈ ks ∧ get properties property = .ok p ∧
    PropertyRef g p name

/-- The number of entries of the definitions under whose name the read of `refs` does not
yet give a truthy value: the quantity that every pass of the loop which finds a new
reference decreases. -/
def pending (g : GenUtils) (defs : List (String × Val)) (refs : RefsArray) : Nat :=
  defs.countP (fun kv => !truthy (readRefs g.engine refs kv.1))

/-- The facts about `refs` that every assignment keeps: every own property holds what the
read of the definitions gives under its key, and the prototype of `refs` is an object or
`null`. -/
def Sound (g : GenUtils) (api : Val) (refs : RefsArray) : Prop :=
  FromDefinitions g api refs.entries ∧ isObjectOrNull refs.proto = true

/-- The invariant of a pass of the loop that started in the state `start`: the facts above,
no key of `start` is lost, and `pending` has not grown, and has decreased once the flag
`foundNewRef` is raised. -/
def PassInv (g : GenUtils) (api : Val) (defs : List (String × Val)) (start : RefsArray)
    (s : RefsArray × Bool) : Prop :=
  Sound g api s.1 ∧ KeysSubset start.entries s.1.entries ∧
    pending g defs s.1 ≤ pending g defs start ∧
    (s.2 = true → pending g defs s.1 < pending g defs start)

/-- The definitions of `loopDoc`: a single definition `Node` that refers to itself. -/
def loopDefs : List (String × Val) :=
  [("Node", .obj [("properties", .obj [("next", refTo "#/definitions/Node")])])]

/-- A document whose only definition refers to itself. -/
def loopDoc : Val :=
  .obj [
    ("paths", .obj [("/nodes", .obj [("get", .obj [("responses", .obj [
      ("200", .obj [("schema", refTo "#/definitions/Node")])])])])]),
    ("definitions", .obj loopDefs)]

/-- A definition whose only property refers to a name that the definitions do not have. -/
def orderDef : Val := .obj [("properties", .obj [("buyer", refTo "#/definitions/Missing")])]

/-- A document with a dangling reference in a property of a recorded definition. -/
def danglingDoc : Val :=
  .obj [
    ("paths", .obj [("/orders", .obj [("get", .obj [("responses", .obj [
      ("200", .obj [("schema", refTo "#/definitions/Order")])])])])]),
    ("definitions", .obj [("Order", orderDef)])]

/-- A document with a dangling reference in a parameter schema. -/
def danglingParameterDoc : Val :=
  .obj [
    ("paths", .obj [("/orders", .obj [("post", .obj [("parameters", .arr [
      .obj [("name", .str "body"), ("in", .str "body"),
        ("schema", refTo "#/definitions/Missing")]])])])]),
    ("definitions", .obj [("Order", .obj [])])]

/-- A parameter schema that is an array of `Pet`. -/
def petArraySchema : Val := .obj [("type", .str "array"), ("items", refTo "#/definitions/Pet")]

/-- A body parameter whose schema is an array of `Pet`. -/
def addPetsParameter : Val :=
  .obj [("name", .str "body"), ("in", .str "body"), ("schema", petArraySchema)]

/-- The definitions of `arrayParameterDoc`. -/
def petDefinitions : Val := .obj [("Pet", .obj [("type", .str "object")])]

/-- The operation `post /pets`: a body parameter whose schema is an array of `Pet`. -/
def addPetsOp : Val :=
  .obj [("parameters", .arr [addPetsParameter])]

/-- A document whose only reference is the `items.$ref` of a parameter schema. -/
def arrayParameterDoc : Val :=
  .obj [
    ("paths", .obj [("/pets", .obj [("post", addPetsOp)])]),
    ("definitions", petDefinitions)]

/-- The definition names that the closure is meant to hold: those that an operation uses
directly, in a parameter schema (by `$ref` or by `items.$ref`) or in a `200` or `default`
response, and those that a reachable definition refers to through its `properties`. -/
inductive Reachable (g : GenUtils) (api : Val) : String → Prop where
  | used (op : Val) (name : String) :
      IsOperation g api op → DirectlyUsed g op name → Reachable g api name
  | parameterItems (op : Val) (ps : List Val) (parameter schema rv items ir : Val)
      (name : String) :
      IsOperation g api op → get op "parameters" = .ok (.arr ps) → parameter ∈ ps →
      get parameter "schema" = .ok schema → get schema "$ref" = .ok rv →
      truthy rv = false → get schema "items" = .ok items → get items "$ref" = .ok ir →
      truthy ir = true → g.getRefName ir = .ok name → Reachable g api name
  | property (source name : String) (defs d : Val) :
      Reachable g api source → get api "definitions" = .ok defs → get defs source = .ok d →
      RefersTo g d name → Reachable g api name

/-! ## The reference definition of the resource map (C4) -/

/-- The value of `v[k]` where the read does not raise, `undefined` otherwise. -/
def peek (v : Val) (k : String) : Val :=
  match get v k with
  | .ok x => x
  | .error _ => .undefined

/-- The path keys of the document, in document order. -/
def pathKeys (api : Val) : List String :=
  match keys (peek api "paths") with
  | .ok ks => ks
  | .error _ => []

/-- The value of the read `v[k]` under a computed key where it does not raise, `undefined`
otherwise. -/
def peekProp (g : GenUtils) (v : Val) (k : String) : Val :=
  match readProp g.engine v k with
  | .ok x => x
  | .error _ => .undefined

/-- The supported verbs present under a path item (the read of the item under the verb is
truthy), in the order of the supported-verb list. -/
def presentVerbs (g : GenUtils) (item : Val) : List String :=
  g.verbs.filter (fun verb => truthy (peekProp g item verb))

/-- The route entries of one path: one per present verb. -/
def routesOfPath (g : GenUtils) (api : Val) (path : String) : List Route :=
  (presentVerbs g (peek (peek api "paths") path)).map
    (fun verb => ⟨verb, g.convertToSwiftParameterFormat path⟩)

/-- The reference definition of `resources[resource]`: the route entries of the path keys
whose resource name is `resource`, in document order. -/
def expectedRoutes (g : GenUtils) (api : Val) (resource : String) : List Route :=
  ((pathKeys api).filter (fun path => g.resourceNameFromPath path = resource)).flatMap
    (routesOfPath g api)

/-- A list of routes as the value of a property of `resources`: the property is absent when
there is no route. -/
def listOrAbsent (routes : List Route) : Option (List Route) :=
  if routes = [] then none else some routes

/-! ## The expected shape of a document (C9) -/

/-- A field that may be missing: the value is falsy, or it has the shape `p`. -/
def optional (p : Val → Bool) (v : Val) : Bool :=
  !truthy v || p v

/-- The value is an object. -/
def isObject : Val → Bool
  | .obj _ => true
  | _ => false

/-- The value is a string. -/
def isString : Val → Bool
  | .str _ => true
  | _ => false

/-- A built-in object. -/
def isBuiltin : Val → Bool
  | .builtin _ => true
  | _ => false

/-- A reference that the extractor can record: a string for which `getRefName` gives a name,
other than `length`. -/
def refNamed (g : GenUtils) (r : Val) : Bool :=
  isString r &&
    match g.getRefName r with
    | .ok name => name != "length"
    | .error _ => false

/-- An object whose `$ref`, if it has one, is a reference that can be recorded. -/
def refShaped (g : GenUtils) (v : Val) : Bool :=
  isObject v && optional (refNamed g) (peek v "$ref")

/-- A schema, or a property of a definition: an object whose `$ref`, if any, is a reference
and whose `items`, if any, is an object of the same kind. -/
def schemaShaped (g : GenUtils) (v : Val) : Bool :=
  refShaped g v && optional (refShaped g) (peek v "items")

/-- A schema of a parameter or of a response. When the document has no `definitions` object
(`hasDefs` is false) the schema must not hold a reference, directly or in its `items`. -/
def usedSchemaShaped (g : GenUtils) (hasDefs : Bool) (v : Val) : Bool :=
  schemaShaped g v &&
    (hasDefs || (!truthy (peek v "$ref") && !truthy (peek (peek v "items") "$ref")))

/-- A parameter, or a response: an object whose `schema`, if any, is a schema. -/
def holderShaped (g : GenUtils) (hasDefs : Bool) (v : Val) : Bool :=
  isObject v && optional (usedSchemaShaped g hasDefs) (peek v "schema")

/-- The `parameters` of an operation: an array of parameters. -/
def parametersShaped (g : GenUtils) (hasDefs : Bool) (v : Val) : Bool :=
  match v with
  | .arr ps => ps.all (holderShaped g hasDefs)
  | _ => false

/-- The `responses` of an operation: an object whose `200` and `default` responses, if any,
are responses. -/
def responsesShaped (g : GenUtils) (hasDefs : Bool) (v : Val) : Bool :=
  isObject v && optional (holderShaped g hasDefs) (peek v "200") &&
    optional (holderShaped g hasDefs) (peek v "default")

/-- An operation: an object whose `parameters` and `responses`, if any, are as above. -/
def operationShaped (g : GenUtils) (hasDefs : Bool) (v : Val) : Bool :=
  isObject v && optional (parametersShaped g hasDefs) (peek v "parameters") &&
    optional (responsesShaped g hasDefs) (peek v "responses")

/-- A path item: an object in which what the read under each supported verb gives, if
truthy, is an operation. -/
def pathItemShaped (g : GenUtils) (hasDefs : Bool) (v : Val) : Bool :=
  isObject v &&
    g.verbs.all (fun verb => optional (operationShaped g hasDefs) (peekProp g v verb))

/-- The `paths` mapping: an object of path items. -/
def pathsShaped (g : GenUtils) (hasDefs : Bool) (v : Val) : Bool :=
  match v with
  | .obj fields => fields.all (fun kv => pathItemShaped g hasDefs kv.2)
  | _ => false

/-- The `properties` of a definition: an object of properties. -/
def propertiesShaped (g : GenUtils) (v : Val) : Bool :=
  match v with
  | .obj fields => fields.all (fun kv => schemaShaped g kv.2)
  | _ => false

/-- A definition: an object whose `properties`, if any, are as above. -/
def definitionShaped (g : GenUtils) (v : Val) : Bool :=
  isObject v && optional (propertiesShaped g) (peek v "properties")

/-- The `definitions` section: an object of definitions. -/
def definitionsShaped (g : GenUtils) (v : Val) : Bool :=
  match v with
  | .obj fields => fields.all (fun kv => definitionShaped g kv.2)
  | _ => false

/-- A document of the expected shape: an object with a `paths` mapping of the expected
shape and, if it has a `definitions` section, an object of definitions there; without such
an object no parameter or response schema holds a reference. Every reference is a string
that `getRefName` names, with a name other than `length`. -/
def wellShaped (g : GenUtils) (api : Val) : Bool :=
  isObject api && pathsShaped g (isObject (peek api "definitions")) (peek api "paths") &&
    optional (definitionsShaped g) (peek api "definitions")

/-- No path that declares a supported verb has a resource name that `Object.prototype`
answers (such as `__proto__`, `constructor` or `toString`). -/
def ordinaryResources (g : GenUtils) (api : Val) : Bool :=
  (pathKeys api).all (fun path =>
    (presentVerbs g (peek (peek api "paths") path)).isEmpty ||
      !g.engine.member "Object.prototype" (g.resourceNameFromPath path))

/-- What `refs` holds under a name on a document of the expected shape: a falsy value, a
built-in object, or a definition. -/
def recordedShaped (g : GenUtils) (v : Val) : Bool :=
  !truthy v || isBuiltin v || definitionShaped g v

/-- The state of `refs` that the extractor maintains on a document of the expected shape:
every own property holds a falsy value, a built-in object or a definition, and without a
`definitions` object `refs` is as created. -/
def RefsShaped (g : GenUtils) (hasDefs : Bool) (refs : RefsArray) : Prop :=
  (∀ k, recordedShaped g (lookup k refs.entries) = true) ∧
    (hasDefs = true ∨ refs.entries = [])

/-- A document without `definitions` whose only parameter holds a reference. -/
def noDefinitionsDoc : Val :=
  .obj [("paths", .obj [("/orders", .obj [("post", .obj [("parameters", .arr [
    .obj [("name", .str "body"), ("in", .str "body"),
      ("schema", refTo "#/definitions/Order")]])])])])]

/-! ## Further sample documents -/

/-- A document without any reference and without `definitions`. -/
def plainDoc : Val :=
  .obj [
    ("swagger", .str "2.0"),
    ("paths", .obj [
      ("/health", .obj [("get", .obj [("responses", .obj [
        ("200", .obj [("description", .str "alive")])])])]),
      ("/items/{id}", .obj [("delete", .obj [
        ("parameters", .arr [.obj [("name", .str "id"), ("in", .str "path"),
          ("type", .str "string")]]),
        ("responses", .obj [("default", .obj [("description", .str "done")])])])])])]

/-- The result of the extractor on `plainDoc`. -/
def plainParsed : Parsed :=
  { basepath := .undefined
    resources := [("health", [⟨"get", "/health"⟩]), ("items", [⟨"delete", "/items/:id"⟩])]
    refs := []
    refsLength := 0
    refsProto := .builtin "Array.prototype" }

/-- The definition `Alpha` of `twoParametersDoc`. -/
def alphaDef : Val := .obj [("type", .str "object")]

/-- A parameter whose schema refers to `Alpha` directly. -/
def alphaParameter : Val :=
  .obj [("name", .str "first"), ("in", .str "body"), ("schema", refTo "#/definitions/Alpha")]

/-- A parameter whose schema is an array of `Beta`. -/
def betaArrayParameter : Val :=
  .obj [("name", .str "second"), ("in", .str "body"),
    ("schema", .obj [("type", .str "array"), ("items", refTo "#/definitions/Beta")])]

/-- A document with two parameters: a direct reference to `Alpha`, then an array of
`Beta`. -/
def twoParametersDoc : Val :=
  .obj [
    ("paths", .obj [("/pairs", .obj [("post", .obj [
      ("parameters", .arr [alphaParameter, betaArrayParameter])])])]),
    ("definitions", .obj [("Alpha", alphaDef), ("Beta", .obj [("type", .str "object")])])]

/-! ## What the extractor reads of a document (C17, C18) -/

/-- The path keys that the walk lists: `Object.keys(api.paths)` (line 86). -/
def pathKeysOf (api : Val) : Except Err (List String) := do
  let paths ← get api "paths"
  keys paths

/-- The operation that the walk reads for a path and a verb: `api.paths[path][verb]`
(line 92). -/
def opAt (g : GenUtils) (api : Val) (path verb : String) : Except Err Val := do
  let paths ← get api "paths"
  let item ← get paths path
  readProp g.engine item verb

/-- The response that the walk reads for a response type: `responses[responseType]` when
`responses` is truthy (lines 123-125), `undefined` otherwise. -/
def responseAt (op : Val) (responseType : String) : Except Err Val := do
  let responses ← get op "responses"
  if truthy responses then get responses responseType else pure .undefined

/-- Two reads of an operation agree on everything but the responses under codes other than
`200` and `default`: both raise the same exception, or both give a falsy value, or both give
a truthy operation with the same `parameters`, the same `200` response and the same
`default` response. -/
def SameOperation (a b : Except Err Val) : Prop :=
  match a, b with
  | .ok op, .ok op' =>
    truthy op = truthy op' ∧
      (truthy op = true → get op "parameters" = get op' "parameters" ∧
        responseAt op "200" = responseAt op' "200" ∧
        responseAt op "default" = responseAt op' "default")
  | .error e, .error e' => e = e'
  | _, _ => False

/-- The operation `post /widgets` of `widgetDoc` with other responses under the codes that
the extractor does not read: no `201`, and a `404` that refers to the definition `Unused`. -/
def createWidgetOpAlt : Val :=
  .obj [
    ("parameters", .arr [.obj [("name", .str "body"), ("in", .str "body"),
      ("schema", refTo "#/definitions/Widget")]]),
    ("responses", .obj [
      ("404", .obj [("schema", refTo "#/definitions/Unused")]),
      ("default", .obj [("schema", refTo "#/definitions/Problem")])])]

/-- The document `widgetDoc` with `createWidgetOpAlt` in place of `createWidgetOp`. -/
def widgetDocAlt : Val :=
  .obj [("swagger", .str "2.0"), ("basePath", .str "/api"),
    ("paths", .obj [
      ("/widgets", .obj [("get", listWidgetsOp), ("post", createWidgetOpAlt)]),
      ("/widgets/{id}", .obj [("get", getWidgetOp)])]),
    ("definitions", widgetDefinitions)]

/-- The document `widgetDoc` with more fields under keys of the path items that are not
supported verbs: an unrecognised verb, path-level `parameters` and a vendor extension. -/
def widgetDocExtra : Val :=
  .obj [("swagger", .str "2.0"), ("basePath", .str "/api"),
    ("paths", .obj [
      ("/widgets", .obj [
        ("parameters", .arr [.obj [("name", .str "tenant"), ("in", .str "body"),
          ("schema", refTo "#/definitions/Unused")]]),
        ("get", listWidgetsOp),
        ("trace", .obj [("responses", .obj [
          ("200", .obj [("schema", refTo "#/definitions/Unused")])])]),
        ("post", createWidgetOp)]),
      ("/widgets/{id}", .obj [("x-internal", .bool true), ("get", getWidgetOp)])]),
    ("definitions", widgetDefinitions)]

/-! ## The loader and the entry point `parse`

The promise chains of lines 27-77 and 185-200 are embedded by their settled outcome: a
rejection is `Except.error`, and a `.then` callback runs only on `Except.ok`. The libraries
and built-ins that the module calls (`request`, the file access `memfs.read`, `chalk.red`,
`YAML.load`, `JSON.parse`, `JSON.stringify`, `SwaggerParser.validate`) are the fields of
`World`. The calls of `debug` only log and are left out. -/

/-- An exception that settles a promise of the module. -/
inductive Failure where
  | message (text : String) : Failure
  | format (detail : String) : Failure
  | extractor (e : Err) : Failure
  deriving DecidableEq, Repr

/-- The settled outcome of `requestAsync`: a transport failure `err` with its
`err.message`, or a response with its `statusCode` and `body`. -/
inductive HttpOutcome where
  | failure (message : String) : HttpOutcome
  | response (statusCode : Int) (body : Val) : HttpOutcome

/-- The outcome of `memfs.read(filePath)`: an exception `err` with its `err.message`, or a
returned value. -/
inductive ReadOutcome where
  | thrown (message : String) : ReadOutcome
  | returned (data : Val) : ReadOutcome

/-- The libraries and built-ins around the module. `red` is `chalk.red` applied to its
arguments as strings; `validate` gives the contents of the document after
`SwaggerParser.validate` has worked on it in place, and the diagnostic when it rejects. -/
structure World where
  request : String → HttpOutcome
  read : String → ReadOutcome
  red : List String → String
  yamlLoad : Val → Except Failure Val
  jsonParse : Val → Except Failure Val
  stringify : Val → Val
  validate : Val → Val × Option String

/-- The function `loadHttpAsync(uri)` (lines 27-42): the `.catch` rethrows a transport
failure, and the `.then`, which that rethrow skips, accepts the status 200 only. -/
def loadHttpAsync (w : World) (uri : String) : Except Failure Val :=
  match w.request uri with
  | .failure message =>
    .error (.message (w.red ["failed to load swagger from:", uri, "err:", message]))
  | .response statusCode body =>
    if statusCode ≠ 200 then
      .error (.message
        (w.red ["failed to load swagger from:", uri, "status:", toString statusCode]))
    else .ok body

/-- The test `data === undefined` of line 54. -/
def isUndefined : Val → Bool
  | .undefined => true
  | _ => false

/-- The function `loadFileAsync(memfs, filePath)` (lines 44-61). -/
def loadFileAsync (w : World) (filePath : String) : Except Failure Val :=
  match w.read filePath with
  | .thrown message =>
    .error (.message (w.red ["failed to load swagger from:", filePath, message]))
  | .returned data =>
    if isUndefined data then
      .error (.message (w.red ["failed to load swagger from:", filePath]))
    else .ok data

/-- A match of `\S+` at the start of the text: one character outside `\s` is enough. -/
def startsWithNonSpace : List Char → Bool
  | [] => false
  | c :: _ => !isWhiteSpace c

/-- Line 64: the test of the regular expression `^https?:\/\/\S+`, with its two ways
through `s?`. -/
def isHttp (path : String) : Bool :=
  ("https://".data.isPrefixOf path.data && startsWithNonSpace (path.data.drop 8)) ||
    ("http://".data.isPrefixOf path.data && startsWithNonSpace (path.data.drop 7))

/-- The method `path.endsWith(ending)`. -/
def endsWith (path ending : String) : Bool :=
  ending.data.isSuffixOf path.data

/-- Line 65: `path.endsWith('.yaml') || path.endsWith('.yml')`. -/
def isYaml (path : String) : Bool :=
  endsWith path ".yaml" || endsWith path ".yml"

/-- Line 66: `isHttp ? loadHttpAsync(path) : loadFileAsync(memfs, path)`. -/
def loadSource (w : World) (path : String) : Except Failure Val :=
  if isHttp path then loadHttpAsync w path else loadFileAsync w path

/-- The function `loadAsync(memfs, path)` (lines 63-68). -/
def loadAsync (w : World) (path : String) : Except Failure Val :=
  match loadSource w path with
  | .error e => .error e
  | .ok data => if isYaml path then w.yamlLoad data else w.jsonParse data

/-- The function `ensureValidAsync(api, apiPath)` (lines 70-77), with the contents of `api`
after the validator has worked on it. -/
def ensureValidAsync (w : World) (api : Val) (apiPath : String) : Val × Except Failure Unit :=
  match w.validate api with
  | (after, none) => (after, .ok ())
  | (after, some _) =>
    (after, .error (.message (w.red [apiPath, "does not conform to swagger specification"])))

/-- The stages of `parse`, for the record of which ones ran. -/
inductive Stage where
  | load : Stage
  | validate : Stage
  | extract : Stage
  deriving DecidableEq, Repr

/-- The object that `parse` resolves to (line 197). -/
structure LoadResult where
  loaded : Val
  parsed : Parsed

/-- A run of `parse`: the stages that were called, in order, and the settled outcome
(`none` when the extractor does not return within the fuel). -/
structure Run where
  stages : List Stage
  outcome : Option (Except Failure LoadResult)

/-- The function `exports.parse(memfs, swaggerPath)` (lines 185-200). The text
`loadedAsJSONString` is taken before the validator is called; the `loaded` of line 196
shadows the outer one, which the validator has worked on. -/
def parse (w : World) (g : GenUtils) (fuel : Nat) (swaggerPath : String) : Run :=
  match loadAsync w swaggerPath with
  | .error e => ⟨[.load], some (.error e)⟩
  | .ok loaded =>
    let loadedAsJSONString := w.stringify loaded
    match ensureValidAsync w loaded swaggerPath with
    | (_, .error e) => ⟨[.load, .validate], some (.error e)⟩
    | (_, .ok _) =>
      match w.jsonParse loadedAsJSONString with
      | .error e => ⟨[.load, .validate], some (.error e)⟩
      | .ok restored =>
        match parseSwagger g fuel restored with
        | none => ⟨[.load, .validate, .extract], none⟩
        | some (.error e) => ⟨[.load, .validate, .extract], some (.error (.extractor e))⟩
        | some (.ok parsed) => ⟨[.load, .validate, .extract], some (.ok ⟨restored, parsed⟩)⟩

/-- The text of a list of words separated by single spaces. -/
def joinWords : List (List Char) → List Char
  | [] => []
  | [a] => a
  | a :: rest => a ++ ' ' :: joinWords rest

/-- An instance of `chalk.red` for a terminal without colours: the arguments joined by
spaces. -/
def plainRed (args : List String) : String :=
  String.mk (joinWords (args.map String.data))

/-- The colouring keeps the text of each of its arguments. -/
def KeepsText (red : List String → String) : Prop :=
  ∀ args a, a ∈ args → a.data <:+: (red args).data

/-- A document that conforms to Swagger 2.0 and keeps its model under a vendor extension:
it has no `definitions` section. -/
def vendorModelsDoc : Val :=
  .obj [
    ("swagger", .str "2.0"),
    ("info", .obj [("title", .str "orders"), ("version", .str "1.0")]),
    ("paths", .obj [("/orders", .obj [("post", .obj [
      ("parameters", .arr [.obj [("name", .str "body"), ("in", .str "body"),
        ("schema", refTo "#/x-models/Order")]]),
      ("responses", .obj [("200", .obj [("description", .str "created")])])])])]),
    ("x-models", .obj [("Order", .obj [("type", .str "object")])])]

/-- A world with one file, `orders.json`, and one URL. The two built-ins of JSON are given
on the text of that file only: `JSON.parse` of it is `doc`. Everything else fails. The
validator accepts every document and leaves `null` in place of its contents. -/
def sampleWorld (doc : Val) : World :=
  { request := fun uri =>
      if uri = "http://example.test/orders.json" then .response 200 (.str "orders.json text")
      else if uri = "http://example.test/gone.json" then .response 404 (.str "not found")
      else .failure "getaddrinfo ENOTFOUND"
    read := fun filePath =>
      if filePath = "orders.json" then .returned (.str "orders.json text")
      else if filePath = "empty.json" then .returned (.str "")
      else if filePath = "unreadable.json" then .returned .undefined
      else .thrown "ENOENT: no such file"
    red := plainRed
    yamlLoad := fun _ => .error (.format "bad indentation")
    jsonParse := fun text =>
      if isStr text "orders.json text" then .ok doc else .error (.format "Unexpected token")
    stringify := fun _ => .str "orders.json text"
    validate := fun _ => (.null, none) }

/-! ## A path without supported verbs (C21) -/

/-- A document whose path `/ping` declares no supported verb (only an unrecognised verb and
path-level `parameters`), next to a path `/pets` that declares `get`. -/
def verblessDoc : Val :=
  .obj [
    ("paths", .obj [
      ("/ping", .obj [
        ("parameters", .arr []),
        ("trace", .obj [("responses", .obj [("200", .obj [("description", .str "pong")])])])]),
      ("/pets", .obj [("get", .obj [("responses", .obj [
        ("200", .obj [("description", .str "all pets")])])])])])]

/-- The result of the extractor on `verblessDoc`. -/
def verblessParsed : Parsed :=
  { basepath := .undefined
    resources := [("pets", [⟨"get", "/pets"⟩])]
    refs := []
    refsLength := 0
    refsProto := .builtin "Array.prototype" }

/-! ## Names that the array `refs` and the object `resources` answer themselves -/

/-- A definition whose only property refers to the definition named `constructor`. -/
def makerDef : Val :=
  .obj [("properties", .obj [("maker", refTo "#/definitions/constructor")])]

/-- A document in which the recorded definition `Order` refers, through a property, to a
definition named `constructor`. -/
def inheritedNameDoc : Val :=
  .obj [
    ("paths", .obj [("/orders", .obj [("get", .obj [("responses", .obj [
      ("200", .obj [("schema", refTo "#/definitions/Order")])])])])]),
    ("definitions", .obj [("Order", makerDef),
      ("constructor", .obj [("type", .str "object")])])]

/-- The operation `post /things`: a body parameter whose schema refers to the definition
named `__proto__`. -/
def protoNameOp : Val :=
  .obj [("parameters", .arr [.obj [("name", .str "body"), ("in", .str "body"),
    ("schema", refTo "#/definitions/__proto__")]])]

/-- A document with a definition named `__proto__`, which a parameter schema refers to. -/
def protoNameDoc : Val :=
  .obj [
    ("paths", .obj [("/things", .obj [("post", protoNameOp)])]),
    ("definitions", .obj [("__proto__", .obj [("type", .str "object")])])]

/-- A document with a dangling reference to the name `constructor` in a parameter schema. -/
def danglingConstructorDoc : Val :=
  .obj [
    ("paths", .obj [("/orders", .obj [("post", .obj [("parameters", .arr [
      .obj [("name", .str "body"), ("in", .str "body"),
        ("schema", refTo "#/definitions/constructor")]])])])]),
    ("definitions", .obj [("Order", .obj [])])]

/-- A document without `definitions` and without references, whose only path is
`/__proto__`. -/
def protoPathDoc : Val :=
  .obj [
    ("paths", .obj [("/__proto__", .obj [("get", .obj [("responses", .obj [
      ("200", .obj [("description", .str "ok")])])])])])]

/-- The operation `post /pets` with an array parameter of `Pet` and a `404` response that
refers to the definition named `undefined`. -/
def otherCodeOp : Val :=
  .obj [
    ("parameters", .arr [addPetsParameter]),
    ("responses", .obj [("404", .obj [("schema", refTo "#/definitions/undefined")])])]

/-- The definitions of `otherCodeDoc`: `Pet`, and a definition named `undefined`. -/
def otherCodeDefinitions : Val :=
  .obj [("Pet", .obj [("type", .str "object")]), ("undefined", .obj [("type", .str "string")])]

/-- A document in which only a `404` response refers to the definition named `undefined`,
next to a parameter whose schema is an array of `Pet`. -/
def otherCodeDoc : Val :=
  .obj [
    ("paths", .obj [("/pets", .obj [("post", otherCodeOp)])]),
    ("definitions", otherCodeDefinitions)]

/-- The definitions of `lengthDoc`: `List` refers to the name `length`, under which the
definitions hold a string. -/
def lengthDefs : List (String × Val) :=
  [("List", .obj [("properties", .obj [("size", refTo "#/definitions/length")])]),
    ("length", .str "0")]

/-- A document in which a recorded definition refers to the name `length`, which the
definitions hold as a truthy value that is not an object. -/
def lengthDoc : Val :=
  .obj [
    ("paths", .obj [("/lists", .obj [("get", .obj [("responses", .obj [
      ("200", .obj [("schema", refTo "#/definitions/List")])])])])]),
    ("definitions", .obj lengthDefs)]

/-- A document whose `200` response refers to a definition named `length`. -/
def lengthNameDoc : Val :=
  .obj [
    ("paths", .obj [("/sizes", .obj [("get", .obj [("responses", .obj [
      ("200", .obj [("schema", refTo "#/definitions/length")])])])])]),
    ("definitions", .obj [("length", .obj [("type", .str "integer")])])]

/-! ## Maps -/

theorem hasOwn_iff {α : Type} (k : String) (m : List (String × α)) :
    hasOwn k m = true ↔ k ∈ m.map Prod.fst := by
  induction m with
  | nil => simp [hasOwn]
  | cons hd tl ih =>
    obtain ⟨k', v⟩ := hd
    by_cases hk : k' = k
    · simp [hasOwn, hk]
    · simp only [hasOwn, hk, if_false, ih, List.map_cons, List.mem_cons]
      exact ⟨Or.inr, fun h => h.resolve_left (fun h' => hk h'.symm)⟩

theorem hasOwn_eq_false_iff {α : Type} (k : String) (m : List (String × α)) :
    hasOwn k m = false ↔ k ∉ m.map Prod.fst := by
  rw [← hasOwn_iff, Bool.not_eq_true]

theorem lookup_of_not_mem (m : Refs) (k : String) (h : k ∉ m.map Prod.fst) :
    lookup k m = .undefined := by
  induction m with
  | nil => rfl
  | cons hd tl ih =>
    obtain ⟨k₁, v₁⟩ := hd
    simp only [List.map_cons, List.mem_cons, not_or] at h
    simp [lookup, Ne.symm h.1, ih h.2]

theorem mem_keys_of_truthy (m : Refs) (k : String) (h : truthy (lookup k m) = true) :
    k ∈ m.map Prod.fst := by
  by_contra hk
  rw [lookup_of_not_mem m k hk] at h
  simp [truthy] at h

theorem keys_replaceKey {α : Type} (m : List (String × α)) (k : String) (v : α) :
    (replaceKey k v m).map Prod.fst = m.map Prod.fst := by
  induction m with
  | nil => rfl
  | cons hd tl ih =>
    obtain ⟨k', v'⟩ := hd
    by_cases hk : k' = k
    · simp [replaceKey, hk]
    · simp [replaceKey, hk, ih]

theorem lookup_replaceKey_same (m : Refs) (k : String) (v : Val)
    (h : k ∈ m.map Prod.fst) : lookup k (replaceKey k v m) = v := by
  induction m with
  | nil => simp at h
  | cons hd tl ih =>
    obtain ⟨k', v'⟩ := hd
    by_cases hk : k' = k
    · simp [replaceKey, lookup, hk]
    · simp only [List.map_cons, List.mem_cons] at h
      simp only [replaceKey, hk, if_false, lookup]
      exact ih (h.resolve_left (fun h' => hk h'.symm))

theorem lookup_replaceKey_ne (m : Refs) (k k' : String) (v : Val) (h : k' ≠ k) :
    lookup k' (replaceKey k v m) = lookup k' m := by
  induction m with
  | nil => rfl
  | cons hd tl ih =>
    obtain ⟨k₁, v₁⟩ := hd
    by_cases hk : k₁ = k
    · subst hk
      simp [replaceKey, lookup, Ne.symm h]
    · by_cases hk' : k₁ = k'
      · subst hk'
        simp [replaceKey, lookup, hk]
      · simp [replaceKey, lookup, hk, hk', ih]

theorem mem_keys_insertKey {α : Type} (m : List (String × α)) (k k' : String) (v : α) :
    k' ∈ (insertKey k v m).map Prod.fst ↔ k' = k ∨ k' ∈ m.map Prod.fst := by
  induction m with
  | nil => simp [insertKey]
  | cons hd tl ih =>
    obtain ⟨k₁, v₁⟩ := hd
    by_cases hp : precedes k k₁ = true
    · simp [insertKey, hp]
    · simp only [insertKey, hp, Bool.false_eq_true, if_false, List.map_cons, List.mem_cons, ih]
      tauto

theorem lookup_insertKey_same (m : Refs) (k : String) (v : Val)
    (h : k ∉ m.map Prod.fst) : lookup k (insertKey k v m) = v := by
  induction m with
  | nil => simp [insertKey, lookup]
  | cons hd tl ih =>
    obtain ⟨k₁, v₁⟩ := hd
    simp only [List.map_cons, List.mem_cons, not_or] at h
    by_cases hp : precedes k k₁ = true
    · simp [insertKey, hp, lookup]
    · simp only [insertKey, hp, Bool.false_eq_true, if_false, lookup, Ne.symm h.1]
      exact ih h.2

theorem lookup_insertKey_ne (m : Refs) (k k' : String) (v : Val) (h : k' ≠ k) :
    lookup k' (insertKey k v m) = lookup k' m := by
  induction m with
  | nil => simp [insertKey, lookup, Ne.symm h]
  | cons hd tl ih =>
    obtain ⟨k₁, v₁⟩ := hd
    by_cases hp : precedes k k₁ = true
    · simp [insertKey, hp, lookup, Ne.symm h]
    · by_cases hk' : k₁ = k'
      · subst hk'
        simp [insertKey, hp, lookup]
      · simp [insertKey, hp, lookup, hk', ih]

theorem mem_keys_truncate (n : Nat) (m : Refs) (k : String)
    (h : k ∈ (truncate n m).map Prod.fst) : k ∈ m.map Prod.fst := by
  simp only [truncate, List.mem_map, List.mem_filter] at h ⊢
  obtain ⟨kv, ⟨hmem, _⟩, hk⟩ := h
  exact ⟨kv, hmem, hk⟩

theorem lookup_truncate (n : Nat) (m : Refs) (k : String)
    (h : k ∈ (truncate n m).map Prod.fst) : lookup k (truncate n m) = lookup k m := by
  induction m with
  | nil => rfl
  | cons hd tl ih =>
    obtain ⟨k₁, v₁⟩ := hd
    by_cases hkeep : (match arrayIndex k₁ with
        | some i => decide (i < n)
        | none => true) = true
    · have e : truncate n ((k₁, v₁) :: tl) = (k₁, v₁) :: truncate n tl := by
        simp only [truncate, List.filter_cons, hkeep, if_true]
      rw [e] at h ⊢
      by_cases hk : k₁ = k
      · simp [lookup, hk]
      · simp only [List.map_cons, List.mem_cons] at h
        simp only [lookup, hk, if_false]
        exact ih (h.resolve_left (fun h' => hk h'.symm))
    · have e : truncate n ((k₁, v₁) :: tl) = truncate n tl := by
        simp only [truncate, List.filter_cons, hkeep, Bool.false_eq_true, if_false]
      rw [e] at h ⊢
      have hk : k₁ ≠ k := by
        intro hk
        subst hk
        simp only [truncate, List.mem_map, List.mem_filter] at h
        obtain ⟨kv, ⟨_, hkv⟩, hk⟩ := h
        rw [hk] at hkv
        exact hkeep hkv
      simp only [lookup, hk, if_false]
      exact ih h
/-! ## Loops -/

theorem forEach_nil {α σ : Type} (f : σ → α → Except Err σ) (s : σ) :
    forEach [] f s = .ok s := rfl

theorem forEach_cons_ok {α σ : Type} (f : σ → α → Except Err σ) (x : α) (xs : List α)
    (s s' : σ) (h : f s x = .ok s') : forEach (x :: xs) f s = forEach xs f s' := by
  simp [forEach, h]

theorem forEach_cons_eq_ok {α σ : Type} (f : σ → α → Except Err σ) (x : α) (xs : List α)
    (s t : σ) (h : forEach (x :: xs) f s = .ok t) :
    ∃ s', f s x = .ok s' ∧ forEach xs f s' = .ok t := by
  unfold forEach at h
  cases hf : f s x with
  | error e => simp [hf] at h
  | ok s' => exact ⟨s', rfl, by simpa [hf] using h⟩

/-- An invariant kept by every callback that returns holds when the loop returns. -/
theorem forEach_invariant {α σ : Type} (P : σ → Prop) (f : σ → α → Except Err σ)
    (xs : List α) (hstep : ∀ s x s', x ∈ xs → P s → f s x = .ok s' → P s') :
    ∀ s t, P s → forEach xs f s = .ok t → P t := by
  induction xs with
  | nil =>
    intro s t hs h
    simp only [forEach, Except.ok.injEq] at h
    exact h ▸ hs
  | cons x xs ih =>
    intro s t hs h
    obtain ⟨s', h1, h2⟩ := forEach_cons_eq_ok f x xs s t h
    exact ih (fun a y b hy => hstep a y b (List.mem_cons_of_mem _ hy)) s' t
      (hstep s x s' (List.mem_cons_self _ _) hs h1) h2

/-- When the loop returns, the callback ran on every element; the states around that call
are related to the first and the last state by any preorder the callbacks respect. -/
theorem forEach_visits {α σ : Type} (R : σ → σ → Prop) (hrefl : ∀ s, R s s)
    (htrans : ∀ a b c, R a b → R b c → R a c) (f : σ → α → Except Err σ) (xs : List α)
    (hstep : ∀ s x s', x ∈ xs → f s x = .ok s' → R s s') :
    ∀ s t, forEach xs f s = .ok t → ∀ x ∈ xs, ∃ a b, R s a ∧ f a x = .ok b ∧ R b t := by
  induction xs with
  | nil => intro s t _ x hx; simp at hx
  | cons y ys ih =>
    intro s t h x hx
    obtain ⟨s', h1, h2⟩ := forEach_cons_eq_ok f y ys s t h
    have hstep' : ∀ s x s', x ∈ ys → f s x = .ok s' → R s s' :=
      fun a z b hz => hstep a z b (List.mem_cons_of_mem _ hz)
    have hR : R s' t :=
      forEach_invariant (fun u => R s' u) f ys
        (fun a z b hz ha hf => htrans _ _ _ ha (hstep' a z b hz hf)) s' t (hrefl s') h2
    rcases List.mem_cons.mp hx with rfl | hx'
    · exact ⟨s, s', hrefl s, h1, hR⟩
    · obtain ⟨a, b, hsa, hf, hbt⟩ := ih hstep' s' t h2 x hx'
      exact ⟨a, b, htrans _ _ _ (hstep s y s' (List.mem_cons_self _ _) h1) hsa, hf, hbt⟩

/-- When the loop returns in a state that its callbacks can only reach from an equal state,
no callback changed the state, and each of them established its postcondition. -/
theorem forEach_unchanged {α σ : Type} (stable : σ → Prop) (Q : α → σ → Prop)
    (f : σ → α → Except Err σ) (xs : List α)
    (hstep : ∀ s x s', f s x = .ok s' → stable s' → stable s ∧ s' = s ∧ Q x s) :
    ∀ s t, forEach xs f s = .ok t → stable t → stable s ∧ t = s ∧ ∀ x ∈ xs, Q x s := by
  induction xs with
  | nil =>
    intro s t h ht
    simp only [forEach, Except.ok.injEq] at h
    subst h
    exact ⟨ht, rfl, by simp⟩
  | cons y ys ih =>
    intro s t h ht
    obtain ⟨s1, h1, h2⟩ := forEach_cons_eq_ok f y ys s t h
    obtain ⟨hs1, rfl, hq⟩ := ih s1 t h2 ht
    obtain ⟨hs, rfl, hy⟩ := hstep s y t h1 hs1
    refine ⟨hs, rfl, ?_⟩
    intro x hx
    rcases List.mem_cons.mp hx with rfl | hx'
    · exact hy
    · exact hq x hx'


/-- The loop returns when every callback returns on the states that satisfy an invariant. -/
theorem forEach_ok {α σ : Type} (P : σ → Prop) (f : σ → α → Except Err σ) (xs : List α)
    (hstep : ∀ s x, x ∈ xs → P s → ∃ s', f s x = .ok s' ∧ P s') :
    ∀ s, P s → ∃ t, forEach xs f s = .ok t ∧ P t := by
  induction xs with
  | nil => intro s hs; exact ⟨s, rfl, hs⟩
  | cons x xs ih =>
    intro s hs
    obtain ⟨s1, h1, hs1⟩ := hstep s x (List.mem_cons_self _ _) hs
    obtain ⟨t, h2, ht⟩ := ih (fun a y hy => hstep a y (List.mem_cons_of_mem _ hy)) s1 hs1
    exact ⟨t, by rw [forEach_cons_ok f x xs s s1 h1]; exact h2, ht⟩


theorem forEach_fixed {α σ : Type} (f : σ → α → Except Err σ) (xs : List α) (s : σ)
    (h : ∀ x ∈ xs, f s x = .ok s) : forEach xs f s = .ok s := by
  induction xs with
  | nil => rfl
  | cons x xs ih =>
    rw [forEach_cons_ok f x xs s s (h x (List.mem_cons_self _ _))]
    exact ih (fun y hy => h y (List.mem_cons_of_mem _ hy))


theorem forEach_congr {α σ : Type} (f f' : σ → α → Except Err σ) (xs : List α)
    (h : ∀ x ∈ xs, ∀ s, f s x = f' s x) : ∀ s, forEach xs f s = forEach xs f' s := by
  induction xs with
  | nil => intro s; rfl
  | cons x xs ih =>
    intro s
    simp only [forEach, h x (List.mem_cons_self _ _) s]
    cases f' s x with
    | error e => rfl
    | ok s' => exact ih (fun y hy => h y (List.mem_cons_of_mem _ hy)) s'


/-! ## The assignments to `refs` -/

theorem record_ok (g : GenUtils) (api : Val) (refs refs' : RefsArray) (ref : String)
    (h : record g api refs ref = .ok refs') :
    ∃ defs d, get api "definitions" = .ok defs ∧ readProp g.engine defs ref = .ok d ∧
      writeRefs g.engine refs ref d = .ok refs' := by
  simp only [record, bind, Except.bind] at h
  cases hd : get api "definitions" with
  | error e => simp [hd] at h
  | ok defs =>
    cases hr : readProp g.engine defs ref with
    | error e => simp [hd, hr] at h
    | ok d => exact ⟨defs, d, rfl, hr, by simpa [hd, hr] using h⟩

/-- The four ways in which an assignment to `refs` returns. -/
theorem writeRefs_cases (e : Engine) (refs refs' : RefsArray) (k : String) (v : Val)
    (h : writeRefs e refs k v = .ok refs') :
    (k = "length" ∧ ∃ n, arrayLength e v = .ok n ∧ refs'.length = n ∧
      refs'.proto = refs.proto ∧
      refs'.entries = if n < refs.length then truncate n refs.entries else refs.entries) ∨
    (k ≠ "length" ∧ k ∈ refs.entries.map Prod.fst ∧
      refs' = { refs with entries := replaceKey k v refs.entries }) ∨
    (k ≠ "length" ∧ k ∉ refs.entries.map Prod.fst ∧ find e refs.proto k = .protoAccessor ∧
      refs' = if isObjectOrNull v then { refs with proto := v } else refs) ∨
    (k ≠ "length" ∧ k ∉ refs.entries.map Prod.fst ∧ find e refs.proto k ≠ .protoAccessor ∧
      refs'.entries = insertKey k v refs.entries ∧ refs'.proto = refs.proto ∧
      refs.length ≤ refs'.length) := by
  unfold writeRefs at h
  by_cases hlen : k = "length"
  · left
    simp only [hlen, if_true, bind, Except.bind, pure, Except.pure] at h
    cases hn : arrayLength e v with
    | error err => simp [hn] at h
    | ok n =>
      simp only [hn, Except.ok.injEq] at h
      subst h
      exact ⟨hlen, n, rfl, rfl, rfl, rfl⟩
  · right
    simp only [hlen, if_false] at h
    by_cases hown : hasOwn k refs.entries = true
    · left
      simp only [hown, if_true, pure, Except.pure, Except.ok.injEq] at h
      exact ⟨hlen, (hasOwn_iff k _).mp hown, h.symm⟩
    · right
      have hnot : k ∉ refs.entries.map Prod.fst := fun hm => hown ((hasOwn_iff k _).mpr hm)
      simp only [hown, Bool.false_eq_true, if_false] at h
      cases hf : find e refs.proto k with
      | protoAccessor =>
        left
        simp only [hf, pure, Except.pure, Except.ok.injEq] at h
        exact ⟨hlen, hnot, rfl, h.symm⟩
      | nothing =>
        right
        simp only [hf, pure, Except.pure, Except.ok.injEq] at h
        subst h
        refine ⟨hlen, hnot, by simp, rfl, rfl, ?_⟩
        simp only
        split
        · exact Nat.le_max_left _ _
        · exact Nat.le_refl _
      | data x =>
        right
        simp only [hf, pure, Except.pure, Except.ok.injEq] at h
        subst h
        refine ⟨hlen, hnot, by simp, rfl, rfl, ?_⟩
        simp only
        split
        · exact Nat.le_max_left _ _
        · exact Nat.le_refl _

/-- Every key of `refs` after an assignment is the key assigned to, or was a key before. -/
theorem writeRefs_keys (e : Engine) (refs refs' : RefsArray) (k : String) (v : Val)
    (h : writeRefs e refs k v = .ok refs') :
    ∀ k' ∈ refs'.entries.map Prod.fst, k' = k ∨ k' ∈ refs.entries.map Prod.fst := by
  intro k' hk'
  rcases writeRefs_cases e refs refs' k v h with
    ⟨_, n, _, _, _, he⟩ | ⟨_, _, rfl⟩ | ⟨_, _, _, rfl⟩ | ⟨_, _, _, he, _, _⟩
  · rw [he] at hk'
    split at hk'
    · exact Or.inr (mem_keys_truncate n _ k' hk')
    · exact Or.inr hk'
  · rw [keys_replaceKey] at hk'
    exact Or.inr hk'
  · split at hk' <;> exact Or.inr hk'
  · rw [he] at hk'
    exact (mem_keys_insertKey _ k k' v).mp hk'

/-- Every own property of `refs` after an assignment holds the value assigned, under the key
assigned to, or the value that it held before. -/
theorem writeRefs_lookup (e : Engine) (refs refs' : RefsArray) (k : String) (v : Val)
    (h : writeRefs e refs k v = .ok refs') :
    ∀ k' ∈ refs'.entries.map Prod.fst,
      (k' = k ∧ lookup k' refs'.entries = v) ∨
      (k' ∈ refs.entries.map Prod.fst ∧ lookup k' refs'.entries = lookup k' refs.entries) := by
  intro k' hk'
  rcases writeRefs_cases e refs refs' k v h with
    ⟨_, n, _, _, _, he⟩ | ⟨_, hown, rfl⟩ | ⟨_, _, _, rfl⟩ | ⟨_, hnot, _, he, _, _⟩
  · rw [he] at hk' ⊢
    split at hk'
    · rename_i hlt
      simp only [hlt, if_true]
      exact Or.inr ⟨mem_keys_truncate n _ k' hk', lookup_truncate n _ k' hk'⟩
    · rename_i hlt
      exact Or.inr ⟨hk', by simp only [hlt, if_false]⟩
  · rw [keys_replaceKey] at hk'
    by_cases hkk : k' = k
    · subst hkk
      exact Or.inl ⟨rfl, lookup_replaceKey_same _ _ v hown⟩
    · exact Or.inr ⟨hk', lookup_replaceKey_ne _ _ _ v hkk⟩
  · split at hk' <;> rename_i hv
    · exact Or.inr ⟨hk', by simp only [hv, if_true]⟩
    · exact Or.inr ⟨hk', by simp only [hv, Bool.false_eq_true, if_false]⟩
  · rw [he] at hk' ⊢
    by_cases hkk : k' = k
    · subst hkk
      exact Or.inl ⟨rfl, lookup_insertKey_same _ _ v hnot⟩
    · rcases (mem_keys_insertKey _ k k' v).mp hk' with h1 | h1
      · exact absurd h1 hkk
      · exact Or.inr ⟨h1, lookup_insertKey_ne _ _ _ v hkk⟩

/-- An assignment under a key other than `length` keeps every key. -/
theorem writeRefs_keeps_keys (e : Engine) (refs refs' : RefsArray) (k : String) (v : Val)
    (hk : k ≠ "length") (h : writeRefs e refs k v = .ok refs') :
    ∀ k' ∈ refs.entries.map Prod.fst, k' ∈ refs'.entries.map Prod.fst := by
  intro k' hk'
  rcases writeRefs_cases e refs refs' k v h with
    ⟨hl, _⟩ | ⟨_, _, rfl⟩ | ⟨_, _, _, rfl⟩ | ⟨_, _, _, he, _, _⟩
  · exact absurd hl hk
  · rw [keys_replaceKey]
    exact hk'
  · split <;> exact hk'
  · rw [he]
    exact (mem_keys_insertKey _ k k' v).mpr (Or.inr hk')

/-! ## Every change of `refs` is a `record` -/

section RecordInvariant

variable (g : GenUtils) (api : Val) (P : RefsArray → Prop)

theorem scanParameter_invariant
    (hrec : ∀ refs ref refs', P refs → record g api refs ref = .ok refs' → P refs')
    (refs refs' : RefsArray) (parameter : Val) (hP : P refs)
    (h : scanParameter g api refs parameter = .ok refs') : P refs' := by
  simp only [scanParameter, bind, Except.bind, pure, Except.pure] at h
  repeat' split at h
  all_goals first
    | exact hrec _ _ _ hP h
    | (simp only [Except.ok.injEq] at h; exact h ▸ hP)
    | contradiction

theorem scanResponse_invariant
    (hrec : ∀ refs ref refs', P refs → record g api refs ref = .ok refs' → P refs')
    (op : Val) (refs refs' : RefsArray) (responseType : String) (hP : P refs)
    (h : scanResponse g api op refs responseType = .ok refs') : P refs' := by
  simp only [scanResponse, bind, Except.bind, pure, Except.pure] at h
  repeat' split at h
  all_goals first
    | exact hrec _ _ _ hP h
    | (simp only [Except.ok.injEq] at h; exact h ▸ hP)
    | contradiction
    | exact hrec _ _ _ (hrec _ _ _ hP (by assumption)) h

theorem scanParameters_invariant
    (hrec : ∀ refs ref refs', P refs → record g api refs ref = .ok refs' → P refs')
    (op : Val) (refs refs' : RefsArray) (hP : P refs)
    (h : scanParameters g api op refs = .ok refs') : P refs' := by
  simp only [scanParameters, bind, Except.bind, pure, Except.pure] at h
  repeat' split at h
  all_goals first
    | exact forEach_invariant P _ _
        (fun s x s' _ hs hf => scanParameter_invariant g api P hrec s s' x hs hf) _ _ hP h
    | (simp only [Except.ok.injEq] at h; exact h ▸ hP)
    | contradiction

/-- The parts of a run of the verb callback: the operation read, and on a truthy operation
the push of the route, the scan of the parameters and the scan of the two responses. -/
theorem scanVerb_parts (path resource verb : String) (st st' : Resources × RefsArray)
    (h : scanVerb g api path resource st verb = .ok st') :
    ∃ paths item op, get api "paths" = .ok paths ∧ get paths path = .ok item ∧
      readProp g.engine item verb = .ok op ∧
      ((truthy op = false ∧ st' = st) ∨
        (truthy op = true ∧ ∃ refs1,
          pushRoute g st.1 resource ⟨verb, g.convertToSwiftParameterFormat path⟩ = .ok st'.1 ∧
          scanParameters g api op st.2 = .ok refs1 ∧
          forEach ["200", "default"] (scanResponse g api op) refs1 = .ok st'.2)) := by
  simp only [scanVerb, bind, Except.bind, pure, Except.pure] at h
  cases hp : get api "paths" with
  | error e => simp [hp] at h
  | ok paths =>
    cases hi : get paths path with
    | error e => simp [hp, hi] at h
    | ok item =>
      cases ho : readProp g.engine item verb with
      | error e => simp [hp, hi, ho] at h
      | ok op =>
        refine ⟨paths, item, op, rfl, hi, ho, ?_⟩
        simp only [hp, hi, ho] at h
        cases ht : truthy op with
        | false =>
          simp only [ht, Bool.false_eq_true, if_false, Except.ok.injEq] at h
          exact Or.inl ⟨rfl, h.symm⟩
        | true =>
          simp only [ht, if_true] at h
          cases hpush : pushRoute g st.1 resource
              ⟨verb, g.convertToSwiftParameterFormat path⟩ with
          | error e => simp [hpush] at h
          | ok resources =>
            simp only [hpush] at h
            cases hpar : scanParameters g api op st.2 with
            | error e => simp [hpar] at h
            | ok refs1 =>
              simp only [hpar] at h
              cases hresp : forEach ["200", "default"] (scanResponse g api op) refs1 with
              | error e => simp [hresp] at h
              | ok refs2 =>
                simp only [hresp, Except.ok.injEq] at h
                subst h
                exact Or.inr ⟨rfl, refs1, rfl, rfl, hresp⟩

theorem scanVerb_invariant
    (hrec : ∀ refs ref refs', P refs → record g api refs ref = .ok refs' → P refs')
    (path resource verb : String) (st st' : Resources × RefsArray) (hP : P st.2)
    (h : scanVerb g api path resource st verb = .ok st') : P st'.2 := by
  obtain ⟨_, _, op, _, _, _, hcase⟩ := scanVerb_parts g api path resource verb st st' h
  rcases hcase with ⟨_, rfl⟩ | ⟨_, refs1, _, hpar, hresp⟩
  · exact hP
  · exact forEach_invariant P _ _
      (fun s x s' _ hs hf => scanResponse_invariant g api P hrec _ s s' x hs hf) _ _
      (scanParameters_invariant g api P hrec _ _ _ hP hpar) hresp

theorem walkPaths_invariant
    (hrec : ∀ refs ref refs', P refs → record g api refs ref = .ok refs' → P refs')
    (hnil : P emptyRefs) (st : Resources × RefsArray) (h : walkPaths g api = .ok st) :
    P st.2 := by
  simp only [walkPaths, bind, Except.bind] at h
  repeat' split at h
  all_goals first
    | contradiction
    | skip
  exact forEach_invariant (fun s => P s.2) _ _
    (fun s path s' _ hs hf =>
      forEach_invariant (fun s => P s.2) _ _
        (fun a verb b _ ha hv => scanVerb_invariant g api P hrec path _ verb a b ha hv)
        s s' hs hf) _ _ hnil h

end RecordInvariant

section ClosureInvariant

variable (g : GenUtils) (api : Val) (P : RefsArray → Prop)

/-- The callback `if (!refs[name]) { ... }` either leaves the state alone, the read of
`refs[name]` being truthy, or finds the read falsy, assigns and raises the flag. -/
theorem addIfMissing_cases (st st' : RefsArray × Bool) (name : String)
    (h : addIfMissing g api st name = .ok st') :
    (truthy (readRefs g.engine st.1 name) = true ∧ st' = st) ∨
    (truthy (readRefs g.engine st.1 name) = false ∧
      ∃ refs', record g api st.1 name = .ok refs' ∧ st' = (refs', true)) := by
  simp only [addIfMissing, bind, Except.bind, pure, Except.pure] at h
  split at h
  · rename_i ht
    simp only [Except.ok.injEq] at h
    exact Or.inl ⟨ht, h.symm⟩
  · rename_i hnot
    split at h
    · contradiction
    · rename_i refs' hrec
      simp only [Except.ok.injEq] at h
      exact Or.inr ⟨by simpa using hnot, refs', hrec, h.symm⟩

theorem addIfMissing_invariant
    (hrec : ∀ refs ref refs', P refs → record g api refs ref = .ok refs' → P refs')
    (st st' : RefsArray × Bool) (name : String) (hP : P st.1)
    (h : addIfMissing g api st name = .ok st') : P st'.1 := by
  rcases addIfMissing_cases g api st st' name h with ⟨_, rfl⟩ | ⟨_, refs', hr, rfl⟩
  · exact hP
  · exact hrec _ _ _ hP hr

theorem scanProperty_invariant
    (hrec : ∀ refs ref refs', P refs → record g api refs ref = .ok refs' → P refs')
    (properties : Val) (st st' : RefsArray × Bool) (property : String) (hP : P st.1)
    (h : scanProperty g api properties st property = .ok st') : P st'.1 := by
  simp only [scanProperty, bind, Except.bind, pure, Except.pure] at h
  repeat' split at h
  all_goals first
    | exact addIfMissing_invariant g api P hrec _ _ _ hP h
    | (simp only [Except.ok.injEq] at h; exact h ▸ hP)
    | contradiction

theorem scanSchema_invariant
    (hrec : ∀ refs ref refs', P refs → record g api refs ref = .ok refs' → P refs')
    (st st' : RefsArray × Bool) (schema : String) (hP : P st.1)
    (h : scanSchema g api st schema = .ok st') : P st'.1 := by
  simp only [scanSchema, bind, Except.bind, pure, Except.pure] at h
  repeat' split at h
  all_goals first
    | exact forEach_invariant (fun s => P s.1) _ _
        (fun s x s' _ hs hf => scanProperty_invariant g api P hrec _ s s' x hs hf) _ _ hP h
    | (simp only [Except.ok.injEq] at h; exact h ▸ hP)
    | contradiction

theorem closurePass_invariant
    (hrec : ∀ refs ref refs', P refs → record g api refs ref = .ok refs' → P refs')
    (refs : RefsArray) (st' : RefsArray × Bool) (hP : P refs)
    (h : closurePass g api refs = .ok st') : P st'.1 :=
  forEach_invariant (fun s => P s.1) _ _
    (fun s x s' _ hs hf => scanSchema_invariant g api P hrec s s' x hs hf) (refs, false) st' hP h

theorem closure_invariant
    (hrec : ∀ refs ref refs', P refs → record g api refs ref = .ok refs' → P refs')
    (fuel : Nat) : ∀ (refs refs' : RefsArray), P refs →
      closure g api fuel refs = some (.ok refs') → P refs' := by
  induction fuel with
  | zero => intro refs refs' _ h; simp [closure] at h
  | succ n ih =>
    intro refs refs' hP h
    unfold closure at h
    split at h
    · simp at h
    · rename_i refs1 found hpass
      have hP1 : P refs1 := closurePass_invariant g api P hrec refs (refs1, found) hP hpass
      split at h
      · exact ih refs1 refs' hP1 h
      · simp only [Option.some.injEq, Except.ok.injEq] at h
        exact h ▸ hP1

/-- The shape of a returning run: the base path, the walk over the paths, then the loop,
whose last state is the array object returned under `refs`. -/
theorem parseSwagger_ok (fuel : Nat) (r : Parsed)
    (h : parseSwagger g fuel api = some (.ok r)) :
    ∃ refs0, basePathOf api = .ok r.basepath ∧ walkPaths g api = .ok (r.resources, refs0) ∧
      closure g api fuel refs0 = some (.ok ⟨r.refs, r.refsLength, r.refsProto⟩) := by
  unfold parseSwagger at h
  split at h
  · simp at h
  · rename_i b hb
    split at h
    · simp at h
    · rename_i res refs0 hw
      split at h
      · simp at h
      · simp at h
      · rename_i refs' hc
        simp only [Option.some.injEq, Except.ok.injEq] at h
        subst h
        exact ⟨refs0, hb, hw, hc⟩

/-- A property of `refs` that holds of the empty array and is kept by every assignment
`refs[ref] = api.definitions[ref]` holds of the returned `refs`. -/
theorem parseSwagger_invariant
    (hrec : ∀ refs ref refs', P refs → record g api refs ref = .ok refs' → P refs')
    (hnil : P emptyRefs) (fuel : Nat) (r : Parsed)
    (h : parseSwagger g fuel api = some (.ok r)) : P ⟨r.refs, r.refsLength, r.refsProto⟩ := by
  obtain ⟨refs0, _, hw, hc⟩ := parseSwagger_ok g api fuel r h
  exact closure_invariant g api P hrec fuel refs0 _
    (walkPaths_invariant g api P hrec hnil _ hw) hc

end ClosureInvariant

/-! ## Evaluation on the sample document -/

/-- Two passes of the loop are enough for `widgetDoc`: the cycle between `Widget` and `Part`
is closed and the unreferenced definition is not recorded. -/
theorem parseSwagger_widgetDoc :
    parseSwagger genUtils 2 widgetDoc = some (.ok widgetParsed) := by
  rfl

/-! ## C7: the values of `refs` -/

theorem fromDefinitions_record (g : GenUtils) (api : Val) (refs : RefsArray) (ref : String)
    (refs' : RefsArray) (hP : FromDefinitions g api refs.entries)
    (h : record g api refs ref = .ok refs') : FromDefinitions g api refs'.entries := by
  obtain ⟨defs, d, hd, hr, hw⟩ := record_ok g api refs refs' ref h
  intro k hk
  rcases writeRefs_lookup g.engine refs refs' ref d hw k hk with ⟨rfl, hv⟩ | ⟨hmem, hv⟩
  · exact ⟨defs, hd, by rw [hv]; exact hr⟩
  · rw [hv]
    exact hP k hmem

/-- Whenever `parseSwagger` returns, every key `k` of the returned `refs` holds what the read
`api.definitions[k]` gives: the definition under `k`, or, when the definitions have no such
entry, what the prototype of the definitions holds under `k`, if anything. -/
theorem refs_values_read_from_definitions (g : GenUtils) (fuel : Nat) (api : Val)
    (r : Parsed) (h : parseSwagger g fuel api = some (.ok r)) :
    ∀ k ∈ r.refs.map Prod.fst,
      ∃ defs, get api "definitions" = .ok defs ∧
        readProp g.engine defs k = .ok (lookup k r.refs) :=
  parseSwagger_invariant g api (fun refs => FromDefinitions g api refs.entries)
    (fun refs ref refs' hP hr => fromDefinitions_record g api refs ref refs' hP hr)
    (by intro k hk; simp [emptyRefs] at hk) fuel r h

/-- C7, the failing case. On `danglingConstructorDoc` a parameter schema refers to the name
`constructor`, for which the definitions have no entry. The read
`api.definitions['constructor']` is answered by `Object.prototype`, so the returned `refs`
holds a built-in function under the key `constructor`: a value that is neither a definition
of the document nor `undefined`. -/
theorem inherited_value_recorded :
    ∃ r defs, parseSwagger genUtils 1 danglingConstructorDoc = some (.ok r) ∧
      get danglingConstructorDoc "definitions" = .ok (.obj defs) ∧
      "constructor" ∉ defs.map Prod.fst ∧
      "constructor" ∈ r.refs.map Prod.fst ∧
      lookup "constructor" r.refs = .builtin "Object.prototype.constructor" ∧
      lookup "constructor" r.refs ≠ .undefined :=
  ⟨⟨.undefined, [("orders", [⟨"post", "/orders"⟩])],
      [("constructor", .builtin "Object.prototype.constructor")], 0,
      .builtin "Array.prototype"⟩,
    [("Order", .obj [])], by rfl, by rfl, by decide, by decide, by rfl,
    (by intro h; cases h)⟩

/-! ## C10: the base path -/

/-- C10, as the code has it. Whenever `parseSwagger` returns on an object, the returned
`basepath` is the `basePath` string of the document when that string is not empty, and it is
`undefined` both when the document has no `basePath` field and when the field is the empty
string. -/
theorem basepath_of_document (g : GenUtils) (fuel : Nat) (fields : List (String × Val))
    (r : Parsed) (h : parseSwagger g fuel (.obj fields) = some (.ok r)) :
    (∀ s, lookup "basePath" fields = .str s → s ≠ "" → r.basepath = .str s) ∧
    (lookup "basePath" fields = .str "" → r.basepath = .undefined) ∧
    ("basePath" ∉ fields.map Prod.fst → r.basepath = .undefined) := by
  obtain ⟨_, hb, _, _⟩ := parseSwagger_ok g (.obj fields) fuel r h
  simp only [basePathOf, get, bind, Except.bind, pure, Except.pure, Except.ok.injEq] at hb
  refine ⟨?_, ?_, ?_⟩
  · intro s hs hne
    rw [hs] at hb
    simpa [truthy, hne] using hb.symm
  · intro hs
    rw [hs] at hb
    simpa [truthy] using hb.symm
  · intro hno
    rw [lookup_of_not_mem fields "basePath" hno] at hb
    simpa [truthy] using hb.symm

theorem basepath_of_document_witness :
    (∀ s, lookup "basePath" [("basePath", Val.str "/api"), ("paths", Val.obj [])] = .str s →
      s ≠ "" →
      (Parsed.mk (.str "/api") [] [] 0 (.builtin "Array.prototype")).basepath = .str s) ∧
    (lookup "basePath" [("basePath", Val.str "/api"), ("paths", Val.obj [])] = .str "" →
      (Parsed.mk (.str "/api") [] [] 0 (.builtin "Array.prototype")).basepath = .undefined) ∧
    ("basePath" ∉ [("basePath", Val.str "/api"), ("paths", Val.obj [])].map Prod.fst →
      (Parsed.mk (.str "/api") [] [] 0 (.builtin "Array.prototype")).basepath = .undefined) :=
  basepath_of_document genUtils 1 [("basePath", .str "/api"), ("paths", .obj [])]
    ⟨.str "/api", [], [], 0, .builtin "Array.prototype"⟩ (by rfl)

/-- C10 fails as stated: a document whose `basePath` is the empty string comes back with
`basepath` undefined, not with the empty string. -/
theorem basepath_empty_string_dropped :
    ∃ r, parseSwagger genUtils 1 (.obj [("basePath", .str ""), ("paths", .obj [])]) =
        some (.ok r) ∧
      lookup "basePath" [("basePath", Val.str ""), ("paths", Val.obj [])] = .str "" ∧
      r.basepath = .undefined ∧ r.basepath ≠ .str "" :=
  ⟨⟨.undefined, [], [], 0, .builtin "Array.prototype"⟩, by rfl, by rfl, by rfl,
    by intro h; cases h⟩

/-! ## C5: the schemas that an operation uses directly -/

/-- C5, the failing case. On `protoNameDoc` the operation `post /things` uses the definition
named `__proto__` directly, in a parameter schema. The assignment
`refs['__proto__'] = api.definitions['__proto__']` of line 109 reaches the accessor of
`Object.prototype`: the definition becomes the prototype of `refs` and no property is
created, so the returned `refs` has no key at all. -/
theorem proto_name_not_recorded :
    ∃ r, parseSwagger genUtils 1 protoNameDoc = some (.ok r) ∧
      IsOperation genUtils protoNameDoc protoNameOp ∧
      DirectlyUsed genUtils protoNameOp "__proto__" ∧
      "__proto__" ∉ r.refs.map Prod.fst ∧ r.refs = [] ∧
      r.refsProto = .obj [("type", .str "object")] :=
  ⟨⟨.undefined, [("things", [⟨"post", "/things"⟩])], [], 0, .obj [("type", .str "object")]⟩,
    by rfl,
    ⟨.obj [("/things", .obj [("post", protoNameOp)])], ["/things"], "/things",
      .obj [("post", protoNameOp)], "post", rfl, rfl, by decide, rfl, by decide, rfl, rfl⟩,
    DirectlyUsed.parameterRef _ _ _ _ "__proto__" rfl (List.mem_singleton.mpr rfl) rfl rfl
      rfl rfl,
    by decide, rfl, rfl⟩

/-! ## C1: the returned `refs` and the property references -/

/-- A truthy property value is read from a truthy value. -/
theorem truthy_of_get (v x : Val) (k : String) (h : get v k = .ok x) (hx : truthy x = true) :
    truthy v = true := by
  cases v with
  | undefined => simp [get] at h
  | null => simp [get] at h
  | bool b => simp only [get, Except.ok.injEq] at h; subst h; simp [truthy] at hx
  | num n => simp only [get, Except.ok.injEq] at h; subst h; simp [truthy] at hx
  | arr items => rfl
  | obj fields => rfl
  | builtin name => rfl
  | str s =>
    by_cases hs : s = ""
    · subst hs
      simp only [get, Except.ok.injEq] at h
      subst h
      revert hx
      simp only [arrayLike, codeUnits]
      split <;> simp [truthy, lookup, indexKeys]
    · simp [truthy, hs]

theorem addIfMissing_unchanged (g : GenUtils) (api : Val) (st st' : RefsArray × Bool)
    (name : String) (h : addIfMissing g api st name = .ok st') (hf : st'.2 = false) :
    st.2 = false ∧ st' = st ∧ truthy (readRefs g.engine st.1 name) = true := by
  rcases addIfMissing_cases g api st st' name h with ⟨ht, rfl⟩ | ⟨_, refs', _, rfl⟩
  · exact ⟨hf, rfl, ht⟩
  · simp at hf

theorem scanProperty_unchanged (g : GenUtils) (api properties : Val) (st st' : RefsArray × Bool)
    (property : String) (h : scanProperty g api properties st property = .ok st')
    (hf : st'.2 = false) :
    st.2 = false ∧ st' = st ∧
      ∀ p name, get properties property = .ok p → PropertyRef g p name →
        truthy (readRefs g.engine st.1 name) = true := by
  simp only [scanProperty, bind, Except.bind, pure, Except.pure] at h
  split at h
  · contradiction
  rename_i p hp
  split at h
  · contradiction
  rename_i rv hrv
  split at h
  · rename_i htr
    split at h
    · contradiction
    rename_i name hname
    obtain ⟨h1, h2, h3⟩ := addIfMissing_unchanged g api st st' name h hf
    refine ⟨h1, h2, ?_⟩
    intro p' name' hp' href
    rw [hp] at hp'
    cases hp'
    cases href with
    | direct rv' _ a b c =>
      rw [hrv] at a; cases a
      rw [hname] at c; cases c
      exact h3
    | items rv' _ _ _ a b =>
      rw [hrv] at a; cases a
      rw [htr] at b; cases b
  · rename_i htr
    have htr' : truthy rv = false := by simpa using htr
    split at h
    · contradiction
    rename_i items hitems
    split at h
    · rename_i hti
      split at h
      · contradiction
      rename_i ir hir
      split at h
      · rename_i htir
        split at h
        · contradiction
        rename_i name hname
        obtain ⟨h1, h2, h3⟩ := addIfMissing_unchanged g api st st' name h hf
        refine ⟨h1, h2, ?_⟩
        intro p' name' hp' href
        rw [hp] at hp'
        cases hp'
        cases href with
        | direct rv' _ a b c =>
          rw [hrv] at a; cases a
          rw [htr'] at b; cases b
        | items rv' items' ir' _ a b c d e f =>
          rw [hitems] at c; cases c
          rw [hir] at d; cases d
          rw [hname] at f; cases f
          exact h3
      · rename_i htir
        simp only [Except.ok.injEq] at h
        subst h
        refine ⟨hf, rfl, ?_⟩
        intro p' name' hp' href
        rw [hp] at hp'
        cases hp'
        cases href with
        | direct rv' _ a b c =>
          rw [hrv] at a; cases a
          rw [htr'] at b; cases b
        | items rv' items' ir' _ a b c d e f =>
          rw [hitems] at c; cases c
          rw [hir] at d; cases d
          exact absurd e htir
    · rename_i hti
      simp only [Except.ok.injEq] at h
      subst h
      refine ⟨hf, rfl, ?_⟩
      intro p' name' hp' href
      rw [hp] at hp'
      cases hp'
      cases href with
      | direct rv' _ a b c =>
        rw [hrv] at a; cases a
        rw [htr'] at b; cases b
      | items rv' items' ir' _ a b c d e f =>
        rw [hitems] at c; cases c
        exact absurd (truthy_of_get _ _ "$ref" d e) hti

theorem scanSchema_unchanged (g : GenUtils) (api : Val) (st st' : RefsArray × Bool)
    (schema : String) (h : scanSchema g api st schema = .ok st') (hf : st'.2 = false) :
    st.2 = false ∧ st' = st ∧
      ∀ name, RefersTo g (readRefs g.engine st.1 schema) name → truthy (readRefs g.engine st.1 name) = true := by
  simp only [scanSchema, bind, Except.bind, pure, Except.pure] at h
  split at h
  · rename_i htd
    split at h
    · contradiction
    rename_i properties hprops
    split at h
    · rename_i htp
      split at h
      · contradiction
      rename_i ks hks
      obtain ⟨h1, h2, h3⟩ := forEach_unchanged (fun s : RefsArray × Bool => s.2 = false)
        (fun property s => ∀ p name, get properties property = .ok p → PropertyRef g p name →
          truthy (readRefs g.engine s.1 name) = true)
        (scanProperty g api properties) ks
        (fun s x s' hs hs' => scanProperty_unchanged g api properties s s' x hs hs') st st' h hf
      refine ⟨h1, h2, ?_⟩
      rintro name ⟨properties', ks', property, p, a, b, c, d, e, f⟩
      rw [hprops] at a; cases a
      rw [hks] at c; cases c
      exact h3 property d p name e f
    · rename_i htp
      simp only [Except.ok.injEq] at h
      subst h
      refine ⟨hf, rfl, ?_⟩
      rintro name ⟨properties', ks', property, p, a, b, c, d, e, f⟩
      rw [hprops] at a; cases a
      exact absurd b htp
  · rename_i htd
    simp only [Except.ok.injEq] at h
    subst h
    refine ⟨hf, rfl, ?_⟩
    rintro name ⟨properties', ks', property, p, a, b, c, d, e, f⟩
    exact absurd (truthy_of_get _ properties' "properties" a b) htd

/-- A pass that leaves `foundNewRef` false changed nothing, and every name that a recorded
definition refers to already holds a truthy value. -/
theorem closurePass_unchanged (g : GenUtils) (api : Val) (refs refs' : RefsArray)
    (h : closurePass g api refs = .ok (refs', false)) :
    refs' = refs ∧ ∀ schema ∈ refs.entries.map Prod.fst, ∀ name,
      RefersTo g (readRefs g.engine refs schema) name →
        truthy (readRefs g.engine refs name) = true := by
  obtain ⟨_, h2, h3⟩ := forEach_unchanged (fun s : RefsArray × Bool => s.2 = false)
    (fun schema s => ∀ name, RefersTo g (readRefs g.engine s.1 schema) name →
      truthy (readRefs g.engine s.1 name) = true)
    (scanSchema g api) (refs.entries.map Prod.fst)
    (fun s x s' hs hs' => scanSchema_unchanged g api s s' x hs hs') (refs, false) (refs', false)
    h rfl
  exact ⟨congrArg Prod.fst h2, h3⟩

/-- The loop returns the state of a pass that left `foundNewRef` false. -/
theorem closure_last_pass (g : GenUtils) (api : Val) (fuel : Nat) :
    ∀ refs refs', closure g api fuel refs = some (.ok refs') →
      ∃ refs1, closurePass g api refs1 = .ok (refs', false) := by
  induction fuel with
  | zero => intro refs refs' h; simp [closure] at h
  | succ n ih =>
    intro refs refs' h
    unfold closure at h
    split at h
    · simp at h
    · rename_i refs1 found hpass
      cases found with
      | true => exact ih refs1 refs' (by simpa using h)
      | false =>
        simp only [Bool.false_eq_true, if_false, Option.some.injEq, Except.ok.injEq] at h
        subst h
        exact ⟨refs, hpass⟩

/-- Whenever `parseSwagger` returns, for every key of the returned `refs` and every name that
the value under it refers to through its `properties`, the read of `refs` under that name is
truthy: the name is a key that holds a truthy value, or the array answers the read itself,
with its `length` or through its prototype chain. -/
theorem refs_closed_up_to_read (g : GenUtils) (fuel : Nat) (api : Val) (r : Parsed)
    (schema name : String) (h : parseSwagger g fuel api = some (.ok r))
    (hk : schema ∈ r.refs.map Prod.fst)
    (href : RefersTo g (readRefs g.engine ⟨r.refs, r.refsLength, r.refsProto⟩ schema) name) :
    truthy (readRefs g.engine ⟨r.refs, r.refsLength, r.refsProto⟩ name) = true := by
  obtain ⟨refs0, _, _, hc⟩ := parseSwagger_ok g api fuel r h
  obtain ⟨refs1, hpass⟩ := closure_last_pass g api fuel refs0 _ hc
  obtain ⟨heq, hall⟩ := closurePass_unchanged g api refs1 _ hpass
  subst heq
  exact hall schema hk name href

/-- C1, the failing case. On `inheritedNameDoc` the recorded definition `Order` has a
property whose `$ref` names the definition `constructor`, an object of the definitions. The
test `!refs['constructor']` of line 164 is answered by `Array.prototype`, whose `constructor`
is truthy, so the definition is never recorded: `parseSwagger` returns a `refs` with the key
`Order` and without the key `constructor`. -/
theorem inherited_name_not_closed :
    ∃ r, parseSwagger genUtils 1 inheritedNameDoc = some (.ok r) ∧
      "Order" ∈ r.refs.map Prod.fst ∧
      RefersTo genUtils (lookup "Order" r.refs) "constructor" ∧
      peek (peek inheritedNameDoc "definitions") "constructor" =
        .obj [("type", .str "object")] ∧
      "constructor" ∉ r.refs.map Prod.fst :=
  ⟨⟨.undefined, [("orders", [⟨"get", "/orders"⟩])], [("Order", makerDef)], 0,
      .builtin "Array.prototype"⟩,
    by rfl, by decide,
    ⟨_, ["maker"], "maker", refTo "#/definitions/constructor", rfl, rfl, rfl, by decide, rfl,
      PropertyRef.direct (.str "#/definitions/constructor") "constructor" rfl rfl rfl⟩,
    by rfl, by decide⟩

/-! ## C2: the loop terminates -/

theorem countP_lt_of_imp {α : Type} (p q : α → Bool) (l : List α)
    (himp : ∀ x ∈ l, p x = true → q x = true) (hex : ∃ x ∈ l, q x = true ∧ p x = false) :
    l.countP p < l.countP q := by
  induction l with
  | nil => obtain ⟨x, hx, _⟩ := hex; simp at hx
  | cons a l ih =>
    have hle : l.countP p ≤ l.countP q :=
      List.countP_mono_left (fun x hx => himp x (List.mem_cons_of_mem _ hx))
    obtain ⟨x, hx, hq, hp⟩ := hex
    rcases List.mem_cons.mp hx with rfl | hx'
    · rw [List.countP_cons, List.countP_cons, if_pos hq, if_neg (by simp [hp])]
      omega
    · have hlt := ih (fun y hy => himp y (List.mem_cons_of_mem _ hy)) ⟨x, hx', hq, hp⟩
      simp only [List.countP_cons]
      have ha := himp a (List.mem_cons_self _ _)
      by_cases hpa : p a = true
      · rw [if_pos hpa, if_pos (ha hpa)]
        omega
      · rw [if_neg hpa]
        split <;> omega


/-- The callback over one property either leaves the state alone or records a name that the
property refers to and that held no truthy value, raising the flag. -/
theorem scanProperty_cases (g : GenUtils) (api properties : Val) (st st' : RefsArray × Bool)
    (property : String) (h : scanProperty g api properties st property = .ok st') :
    st' = st ∨ ∃ p name, get properties property = .ok p ∧ PropertyRef g p name ∧
      truthy (readRefs g.engine st.1 name) = false ∧
      ∃ refs', record g api st.1 name = .ok refs' ∧ st' = (refs', true) := by
  simp only [scanProperty, bind, Except.bind, pure, Except.pure] at h
  split at h
  · contradiction
  rename_i p hp
  split at h
  · contradiction
  rename_i rv hrv
  split at h
  · rename_i htr
    split at h
    · contradiction
    rename_i name hname
    rcases addIfMissing_cases g api st st' name h with ⟨_, h1⟩ | ⟨h1, h2⟩
    · exact Or.inl h1
    · exact Or.inr ⟨p, name, hp, PropertyRef.direct rv name hrv htr hname, h1, h2⟩
  · rename_i htr
    have htr' : truthy rv = false := by simpa using htr
    split at h
    · contradiction
    rename_i items hitems
    split at h
    · split at h
      · contradiction
      rename_i ir hir
      split at h
      · rename_i htir
        split at h
        · contradiction
        rename_i name hname
        rcases addIfMissing_cases g api st st' name h with ⟨_, h1⟩ | ⟨h1, h2⟩
        · exact Or.inl h1
        · exact Or.inr ⟨p, name, hp,
            PropertyRef.items rv items ir name hrv htr' hitems hir htir hname, h1, h2⟩
      · simp only [Except.ok.injEq] at h
        exact Or.inl h.symm
    · simp only [Except.ok.injEq] at h
      exact Or.inl h.symm

theorem truthy_num_mono (m n : Nat) (h : m ≤ n)
    (ht : truthy (.num (Int.ofNat m)) = true) : truthy (.num (Int.ofNat n)) = true := by
  simp only [truthy, bne_iff_ne, ne_eq, Int.ofNat_eq_coe, Int.natCast_eq_zero] at ht ⊢
  omega

/-- The read of a definition name in an object of definitions that holds an object under
it gives that object. -/
theorem readProp_of_isObject (e : Engine) (defs : List (String × Val)) (name : String)
    (h : isObject (lookup name defs) = true) :
    readProp e (.obj defs) name = .ok (lookup name defs) := by
  have hmem : name ∈ defs.map Prod.fst := by
    by_contra hk
    rw [lookup_of_not_mem defs name hk] at h
    simp [isObject] at h
  have hown : hasOwn name defs = true := (hasOwn_iff name defs).mpr hmem
  simp [readProp, get, hasOwnProperty, hown, bind, Except.bind, pure, Except.pure]

/-- A value read from an object of definitions that has truthy `properties` is the definition
under the name: what the prototype answers has none. -/
theorem readProp_with_properties (e : Engine) (defs : List (String × Val)) (k : String)
    (d properties : Val) (h : readProp e (.obj defs) k = .ok d)
    (hp : get d "properties" = .ok properties) (ht : truthy properties = true) :
    d = lookup k defs := by
  simp only [readProp, get, hasOwnProperty, bind, Except.bind, pure, Except.pure] at h
  split at h
  · simp only [Except.ok.injEq] at h
    exact h.symm
  · simp only [findBuiltin, prototypeName, prototypeOf] at h
    repeat' split at h
    all_goals
      simp only [Except.ok.injEq] at h
      subst h
      simp only [get, Except.ok.injEq] at hp
    all_goals first
      | (subst hp; simp [truthy] at ht)
      | cases hp
      | skip
    all_goals
      rename_i hf
      split at hf
      · split at hf
        · cases hf
        · simp only [Found.data.injEq] at hf
          subst hf
          simp only [get, Except.ok.injEq] at hp
          subst hp
          simp [truthy] at ht
      · cases hf

/-- The assignment of an object under a name whose read was falsy, on an array whose
prototype is an object or `null`: if it returns, the name now reads as that object and no
other name lost a truthy read. -/
theorem writeRefs_object (e : Engine) (refs refs' : RefsArray) (name : String)
    (fields : List (String × Val)) (hproto : isObjectOrNull refs.proto = true)
    (hnot : truthy (readRefs e refs name) = false)
    (h : writeRefs e refs name (.obj fields) = .ok refs') :
    truthy (readRefs e refs' name) = true ∧
      ∀ k, truthy (readRefs e refs k) = true → truthy (readRefs e refs' k) = true := by
  rcases writeRefs_cases e refs refs' name (.obj fields) h with
    ⟨_, n, hn, _⟩ | ⟨hlen, hown, rfl⟩ | ⟨hlen, hnown, hacc, _⟩ | ⟨hlen, hnown, _, he, hp, hl⟩
  · simp only [arrayLength] at hn
    split at hn <;> cases hn
  · have hown' : hasOwn name (replaceKey name (Val.obj fields) refs.entries) = true :=
      (hasOwn_iff _ _).mpr (by rw [keys_replaceKey]; exact hown)
    constructor
    · simp only [readRefs, hlen, if_false, hown', if_true, lookup_replaceKey_same _ _ _ hown]
      rfl
    · intro k hk
      by_cases hkl : k = "length"
      · simpa only [readRefs, hkl, if_true] using hk
      · by_cases hkn : k = name
        · subst hkn
          simp only [readRefs, hlen, if_false, hown', if_true,
            lookup_replaceKey_same _ _ _ hown]
          rfl
        · have hsame : hasOwn k (replaceKey name (Val.obj fields) refs.entries) =
              hasOwn k refs.entries := by
            rw [Bool.eq_iff_iff, hasOwn_iff, hasOwn_iff, keys_replaceKey]
          simpa only [readRefs, hkl, if_false, hsame, lookup_replaceKey_ne _ _ _ _ hkn]
            using hk
  · exfalso
    have hown : hasOwn name refs.entries = false := (hasOwn_eq_false_iff _ _).mpr hnown
    simp only [readRefs, hlen, if_false, hown, Bool.false_eq_true, hacc] at hnot
    cases hpr : refs.proto with
    | null => rw [hpr] at hacc; simp [find, get] at hacc
    | obj fs => rw [hpr] at hnot; simp [truthy] at hnot
    | arr items => rw [hpr] at hnot; simp [truthy] at hnot
    | builtin b => rw [hpr] at hnot; simp [truthy] at hnot
    | undefined => rw [hpr] at hproto; simp [isObjectOrNull] at hproto
    | bool b => rw [hpr] at hproto; simp [isObjectOrNull] at hproto
    | num n => rw [hpr] at hproto; simp [isObjectOrNull] at hproto
    | str s => rw [hpr] at hproto; simp [isObjectOrNull] at hproto
  · have hown' : hasOwn name refs'.entries = true :=
      (hasOwn_iff _ _).mpr (by rw [he]; exact (mem_keys_insertKey _ _ _ _).mpr (Or.inl rfl))
    have hval : lookup name refs'.entries = .obj fields := by
      rw [he]; exact lookup_insertKey_same _ _ _ hnown
    constructor
    · simp only [readRefs, hlen, if_false, hown', if_true, hval]
      rfl
    · intro k hk
      by_cases hkl : k = "length"
      · subst hkl
        simp only [readRefs, if_true] at hk ⊢
        exact truthy_num_mono _ _ hl hk
      · by_cases hkn : k = name
        · subst hkn
          simp only [readRefs, hlen, if_false, hown', if_true, hval]
          rfl
        · have hsame : hasOwn k refs'.entries = hasOwn k refs.entries := by
            rw [Bool.eq_iff_iff, hasOwn_iff, hasOwn_iff, he, mem_keys_insertKey]
            exact ⟨fun h => h.resolve_left hkn, Or.inr⟩
          have hlk : lookup k refs'.entries = lookup k refs.entries := by
            rw [he]; exact lookup_insertKey_ne _ _ _ _ hkn
          simpa only [readRefs, hkl, if_false, hsame, hlk, hp] using hk

theorem protoOk_record (g : GenUtils) (api : Val) (refs : RefsArray) (ref : String)
    (refs' : RefsArray) (hP : isObjectOrNull refs.proto = true)
    (h : record g api refs ref = .ok refs') : isObjectOrNull refs'.proto = true := by
  obtain ⟨_, d, _, _, hw⟩ := record_ok g api refs refs' ref h
  rcases writeRefs_cases g.engine refs refs' ref d hw with
    ⟨_, _, _, _, hp, _⟩ | ⟨_, _, rfl⟩ | ⟨_, _, _, rfl⟩ | ⟨_, _, _, _, hp, _⟩
  · rw [hp]; exact hP
  · exact hP
  · split
    · assumption
    · exact hP
  · rw [hp]; exact hP

/-- The test-and-assign of the loop keeps every key of `refs`: it assigns to `length` only
when the length is 0. -/
theorem addIfMissing_keeps_keys (g : GenUtils) (api : Val) (st st' : RefsArray × Bool)
    (name : String) (h : addIfMissing g api st name = .ok st') :
    KeysSubset st.1.entries st'.1.entries := by
  rcases addIfMissing_cases g api st st' name h with ⟨_, rfl⟩ | ⟨hnot, refs', hr, rfl⟩
  · exact fun _ hk => hk
  · obtain ⟨_, d, _, _, hw⟩ := record_ok g api st.1 refs' name hr
    by_cases hlen : name = "length"
    · subst hlen
      have hzero : st.1.length = 0 := by
        simp only [readRefs, if_true, truthy, bne_eq_false_iff_eq, Int.ofNat_eq_coe,
          Int.natCast_eq_zero] at hnot
        exact hnot
      rcases writeRefs_cases g.engine st.1 refs' "length" d hw with
        ⟨_, n, _, _, _, he⟩ | ⟨hne, _⟩ | ⟨hne, _⟩ | ⟨hne, _⟩
      · intro k hk
        simp only [he, hzero, Nat.not_lt_zero, if_false]
        exact hk
      · exact absurd rfl hne
      · exact absurd rfl hne
      · exact absurd rfl hne
    · exact writeRefs_keeps_keys g.engine st.1 refs' name d hlen hw

section Progress

variable (g : GenUtils) (api : Val) (defs : List (String × Val))

theorem sound_record (refs : RefsArray) (ref : String) (refs' : RefsArray)
    (hP : Sound g api refs) (h : record g api refs ref = .ok refs') : Sound g api refs' :=
  ⟨fromDefinitions_record g api refs ref refs' hP.1 h,
    protoOk_record g api refs ref refs' hP.2 h⟩

theorem sound_empty : Sound g api emptyRefs :=
  ⟨by intro k hk; simp [emptyRefs] at hk, rfl⟩

/-- Recording the object of the definitions under a name whose read was falsy decreases
`pending`. -/
theorem record_progress (hdefs : get api "definitions" = .ok (.obj defs))
    (refs refs' : RefsArray) (name : String)
    (hobj : isObject (lookup name defs) = true) (hproto : isObjectOrNull refs.proto = true)
    (hnot : truthy (readRefs g.engine refs name) = false)
    (h : record g api refs name = .ok refs') :
    pending g defs refs' < pending g defs refs := by
  obtain ⟨defs', d, hd, hr, hw⟩ := record_ok g api refs refs' name h
  rw [hdefs] at hd
  cases hd
  rw [readProp_of_isObject g.engine defs name hobj] at hr
  cases hr
  have hmem : name ∈ defs.map Prod.fst := by
    by_contra hk
    rw [lookup_of_not_mem defs name hk] at hobj
    simp [isObject] at hobj
  cases hdv : lookup name defs with
  | obj fields =>
    rw [hdv] at hw
    obtain ⟨hnew, hkeep⟩ := writeRefs_object g.engine refs refs' name fields hproto hnot hw
    unfold pending
    apply countP_lt_of_imp
    · intro kv _ hkv
      cases hold : truthy (readRefs g.engine refs kv.1) with
      | false => rfl
      | true => rw [hkeep kv.1 hold] at hkv; simp at hkv
    · obtain ⟨kv, hkvmem, hk⟩ := List.mem_map.mp hmem
      refine ⟨kv, hkvmem, ?_, ?_⟩
      · rw [hk, hnot]; rfl
      · rw [hk, hnew]; rfl
  | _ => rw [hdv] at hobj; simp [isObject] at hobj

theorem scanProperty_progress (hdefs : get api "definitions" = .ok (.obj defs))
    (start : RefsArray) (properties : Val) (property : String)
    (hprop : ∀ p name, get properties property = .ok p → PropertyRef g p name →
      isObject (lookup name defs) = true)
    (s s' : RefsArray × Bool) (hJ : PassInv g api defs start s)
    (h : scanProperty g api properties s property = .ok s') :
    PassInv g api defs start s' := by
  rcases scanProperty_cases g api properties s s' property h with rfl | hnew
  · exact hJ
  · obtain ⟨p, name, hp, href, hnot, refs', hrec, rfl⟩ := hnew
    obtain ⟨hsound, hkeys, hle, _⟩ := hJ
    have hlt := record_progress g api defs hdefs s.1 refs' name (hprop p name hp href)
      hsound.2 hnot hrec
    have hkeep : KeysSubset s.1.entries refs'.entries := by
      have hadd : addIfMissing g api s name = .ok (refs', true) := by
        simp [addIfMissing, hnot, hrec, bind, Except.bind, pure, Except.pure]
      exact addIfMissing_keeps_keys g api s (refs', true) name hadd
    exact ⟨sound_record g api s.1 name refs' hsound hrec,
      fun k hk => hkeep k (hkeys k hk), by simp only; omega, fun _ => by simp only; omega⟩

theorem scanSchema_progress (hdefs : get api "definitions" = .ok (.obj defs))
    (hex : ∀ k name, RefersTo g (lookup k defs) name → isObject (lookup name defs) = true)
    (start : RefsArray) (schema : String) (hschema : schema ∈ start.entries.map Prod.fst)
    (s s' : RefsArray × Bool) (hJ : PassInv g api defs start s)
    (h : scanSchema g api s schema = .ok s') : PassInv g api defs start s' := by
  simp only [scanSchema, bind, Except.bind, pure, Except.pure] at h
  split at h
  · rename_i htd
    split at h
    · contradiction
    rename_i properties hprops
    split at h
    · rename_i htp
      split at h
      · contradiction
      rename_i ks hks
      have hd : readRefs g.engine s.1 schema = lookup schema defs := by
        by_cases hlen : schema = "length"
        · subst hlen
          simp only [readRefs, if_true, get, Except.ok.injEq] at hprops
          subst hprops
          simp [truthy] at htp
        · have hown : schema ∈ s.1.entries.map Prod.fst := hJ.2.1 schema hschema
          obtain ⟨defs', h1, h2⟩ := hJ.1.1 schema hown
          rw [hdefs] at h1
          cases h1
          have hread : readRefs g.engine s.1 schema = lookup schema s.1.entries := by
            simp only [readRefs, hlen, if_false, (hasOwn_iff _ _).mpr hown, if_true]
          rw [hread] at hprops ⊢
          exact readProp_with_properties g.engine defs schema _ properties h2 hprops htp
      exact forEach_invariant (PassInv g api defs start)
        (scanProperty g api properties) ks
        (fun a property b hmem ha hb =>
          scanProperty_progress g api defs hdefs start properties property
            (fun p name hp href => hex schema name
              ⟨properties, ks, property, p, hd ▸ hprops, htp, hks, hmem, hp, href⟩)
            a b ha hb)
        s s' hJ h
    · simp only [Except.ok.injEq] at h
      exact h ▸ hJ
  · simp only [Except.ok.injEq] at h
    exact h ▸ hJ

/-- A pass that finds a new reference decreases `pending`. -/
theorem closurePass_progress (hdefs : get api "definitions" = .ok (.obj defs))
    (hex : ∀ k name, RefersTo g (lookup k defs) name → isObject (lookup name defs) = true)
    (refs : RefsArray) (st' : RefsArray × Bool) (hsound : Sound g api refs)
    (h : closurePass g api refs = .ok st') :
    Sound g api st'.1 ∧ (st'.2 = true → pending g defs st'.1 < pending g defs refs) := by
  have hJ := forEach_invariant (PassInv g api defs refs)
    (scanSchema g api) (refs.entries.map Prod.fst)
    (fun a schema b hmem ha hb =>
      scanSchema_progress g api defs hdefs hex refs schema hmem a b ha hb)
    (refs, false) st' ⟨hsound, fun _ hk => hk, Nat.le_refl _, fun hc => by simp at hc⟩ h
  exact ⟨hJ.1, hJ.2.2.2⟩

theorem closure_terminates (hdefs : get api "definitions" = .ok (.obj defs))
    (hex : ∀ k name, RefersTo g (lookup k defs) name → isObject (lookup name defs) = true)
    (fuel : Nat) : ∀ refs, Sound g api refs → pending g defs refs < fuel →
      ∃ out, closure g api fuel refs = some out := by
  induction fuel with
  | zero => intro refs _ h; omega
  | succ n ih =>
    intro refs hsound hlt
    unfold closure
    cases hpass : closurePass g api refs with
    | error e => exact ⟨.error e, rfl⟩
    | ok st' =>
      obtain ⟨refs', found⟩ := st'
      obtain ⟨hsound', hdec⟩ := closurePass_progress g api defs hdefs hex refs _ hsound hpass
      cases found with
      | false => exact ⟨.ok refs', by simp⟩
      | true =>
        have := hdec rfl
        simpa using ih refs' hsound' (by simp only at this; omega)

end Progress

/-- More fuel does not change the outcome of a loop that ended. -/
theorem closure_fuel_mono (g : GenUtils) (api : Val) (out : Except Err RefsArray) (fuel : Nat) :
    ∀ refs, closure g api fuel refs = some out →
      ∀ fuel', fuel ≤ fuel' → closure g api fuel' refs = some out := by
  induction fuel with
  | zero => intro refs h; simp [closure] at h
  | succ n ih =>
    intro refs h fuel' hle
    obtain ⟨m, rfl⟩ : ∃ m, fuel' = m + 1 := ⟨fuel' - 1, by omega⟩
    unfold closure at h ⊢
    cases hpass : closurePass g api refs with
    | error e => simpa [hpass] using h
    | ok st' =>
      obtain ⟨refs', found⟩ := st'
      simp only [hpass] at h ⊢
      cases found with
      | false => simpa using h
      | true =>
        simp only [if_true] at h ⊢
        exact ih refs' h m (by omega)


/-- C2. When the document has `definitions` in which every name that a definition refers to
through its properties is that of an object of the definitions, the loop of `parseSwagger`
ends: with as many passes as there are definitions, plus one, `parseSwagger` has an outcome,
and more passes do not change it. Cyclic and self references are not excluded. -/
theorem closure_loop_terminates (g : GenUtils) (api : Val) (defs : List (String × Val))
    (hdefs : get api "definitions" = .ok (.obj defs))
    (hex : ∀ k name, RefersTo g (lookup k defs) name → isObject (lookup name defs) = true) :
    ∃ out, ∀ fuel, defs.length + 1 ≤ fuel → parseSwagger g fuel api = some out := by
  unfold parseSwagger
  cases hb : basePathOf api with
  | error e => exact ⟨.error e, fun _ _ => rfl⟩
  | ok basePath =>
    cases hw : walkPaths g api with
    | error e => exact ⟨.error e, fun _ _ => rfl⟩
    | ok st =>
      obtain ⟨resources, refs0⟩ := st
      have hsound : Sound g api refs0 :=
        walkPaths_invariant g api (Sound g api) (sound_record g api) (sound_empty g api) _ hw
      have hpend : pending g defs refs0 < defs.length + 1 :=
        Nat.lt_succ_of_le (List.countP_le_length _)
      obtain ⟨out0, hout⟩ := closure_terminates g api defs hdefs hex _ refs0 hsound hpend
      cases out0 with
      | error e =>
        refine ⟨.error e, fun fuel hle => ?_⟩
        simp only [closure_fuel_mono g api _ _ refs0 hout fuel hle]
      | ok refs' =>
        refine ⟨.ok ⟨basePath, resources, refs'.entries, refs'.length, refs'.proto⟩,
          fun fuel hle => ?_⟩
        simp only [closure_fuel_mono g api _ _ refs0 hout fuel hle]

theorem loopDefs_resolved (k name : String)
    (h : RefersTo genUtils (lookup k loopDefs) name) :
    isObject (lookup name loopDefs) = true := by
  obtain ⟨properties, ks, property, p, h1, _, h3, h4, h5, h6⟩ := h
  have hname : name = "Node" := by
    simp only [loopDefs, lookup] at h1
    split at h1
    · simp only [get, lookup, if_true, Except.ok.injEq] at h1
      subst h1
      simp only [keys, List.map_cons, List.map_nil, Except.ok.injEq] at h3
      subst h3
      simp only [List.mem_singleton] at h4
      subst h4
      simp only [get, lookup, if_true, Except.ok.injEq] at h5
      subst h5
      have hn : genUtils.getRefName (.str "#/definitions/Node") = .ok "Node" := by rfl
      cases h6 with
      | direct rv _ a b c =>
        simp only [refTo, get, lookup, if_true, Except.ok.injEq] at a
        subst a
        rw [hn] at c
        cases c
        rfl
      | items rv items ir _ a b c d e f =>
        simp only [refTo, get, lookup, if_true, Except.ok.injEq] at a
        subst a
        simp [truthy] at b
    · simp [get] at h1
  subst hname
  rfl

theorem closure_loop_terminates_witness :
    get loopDoc "definitions" = .ok (.obj loopDefs) ∧
    (∀ k name, RefersTo genUtils (lookup k loopDefs) name →
      isObject (lookup name loopDefs) = true) ∧
    ∃ out, ∀ fuel, loopDefs.length + 1 ≤ fuel → parseSwagger genUtils fuel loopDoc = some out :=
  ⟨rfl, loopDefs_resolved,
    closure_loop_terminates genUtils loopDoc loopDefs rfl loopDefs_resolved⟩

/-- On `loopDoc` the loop ends in its first pass, with the self-referring definition
recorded once. -/
theorem parseSwagger_loopDoc :
    parseSwagger genUtils 1 loopDoc =
      some (.ok ⟨.undefined, [("nodes", [⟨"get", "/nodes"⟩])], loopDefs, 0,
        .builtin "Array.prototype"⟩) := by
  rfl

/-- The state of `refs` on `lengthDoc` after the walk, and after every pass of the loop. -/
theorem closurePass_lengthDoc :
    closurePass genUtils lengthDoc ⟨[("List", lookup "List" lengthDefs)], 0,
        .builtin "Array.prototype"⟩ =
      .ok (⟨[("List", lookup "List" lengthDefs)], 0, .builtin "Array.prototype"⟩, true) := by
  rfl

/-- The hypothesis of C2 asks for objects. On `lengthDoc` a recorded definition refers to
the name `length`, under which the definitions hold the string `"0"`, a truthy value that is
not an object: the test `!refs['length']` reads the length 0 of the array, the assignment
sets the length to 0 again, and every pass raises `foundNewRef`: `parseSwagger` does not
return. -/
theorem length_definition_never_returns (fuel : Nat) :
    truthy (lookup "length" lengthDefs) = true ∧ parseSwagger genUtils fuel lengthDoc = none := by
  refine ⟨rfl, ?_⟩
  have hb : basePathOf lengthDoc = .ok .undefined := by rfl
  have hw : walkPaths genUtils lengthDoc =
      .ok ([("lists", [⟨"get", "/lists"⟩])],
        ⟨[("List", lookup "List" lengthDefs)], 0, .builtin "Array.prototype"⟩) := by rfl
  have hc : closure genUtils lengthDoc fuel
      ⟨[("List", lookup "List" lengthDefs)], 0, .builtin "Array.prototype"⟩ = none := by
    induction fuel with
    | zero => rfl
    | succ n ih =>
      rw [closure, closurePass_lengthDoc]
      exact ih
  simp only [parseSwagger, hb, hw, hc]

/-! ## C3: a dangling reference in a property -/

/-- A dangling reference in a parameter schema is stored under its name with the value
`undefined`, and `parseSwagger` returns. -/
theorem parseSwagger_danglingParameterDoc :
    parseSwagger genUtils 1 danglingParameterDoc =
      some (.ok ⟨.undefined, [("orders", [⟨"post", "/orders"⟩])],
        [("Missing", .undefined)], 0, .builtin "Array.prototype"⟩) := by
  rfl

theorem closure_danglingDoc_diverges (fuel : Nat) :
    closure genUtils danglingDoc fuel
      ⟨[("Order", orderDef), ("Missing", .undefined)], 0, .builtin "Array.prototype"⟩ =
        none := by
  induction fuel with
  | zero => rfl
  | succ n ih =>
    have hpass : closurePass genUtils danglingDoc
        ⟨[("Order", orderDef), ("Missing", .undefined)], 0, .builtin "Array.prototype"⟩ =
        .ok (⟨[("Order", orderDef), ("Missing", .undefined)], 0,
          .builtin "Array.prototype"⟩, true) := by rfl
    rw [closure, hpass]
    exact ih

/-- C3, the failing case. On `danglingDoc`, where a property of the recorded definition
`Order` refers to a name absent from `definitions`, no number of passes ends the loop:
each pass stores `undefined` under `Missing` again and sets `foundNewRef`, so `parseSwagger`
does not return. -/
theorem dangling_property_never_returns (fuel : Nat) :
    parseSwagger genUtils fuel danglingDoc = none := by
  have hb : basePathOf danglingDoc = .ok .undefined := by rfl
  have hw : walkPaths genUtils danglingDoc =
      .ok ([("orders", [⟨"get", "/orders"⟩])],
        ⟨[("Order", orderDef)], 0, .builtin "Array.prototype"⟩) := by rfl
  have hc : closure genUtils danglingDoc fuel
      ⟨[("Order", orderDef)], 0, .builtin "Array.prototype"⟩ = none := by
    cases fuel with
    | zero => rfl
    | succ n =>
      have hpass : closurePass genUtils danglingDoc
          ⟨[("Order", orderDef)], 0, .builtin "Array.prototype"⟩ =
          .ok (⟨[("Order", orderDef), ("Missing", .undefined)], 0,
            .builtin "Array.prototype"⟩, true) := by rfl
      rw [closure, hpass]
      exact closure_danglingDoc_diverges n
  simp only [parseSwagger, hb, hw, hc]

/-! ## C6 and C8: the array branch of the parameter callback -/

/-- C6, the failing case. On `arrayParameterDoc`, whose parameter schema has no `$ref` but
an `items.$ref` naming `Pet`, the only key of the returned `refs` is `undefined`, holding
`api.definitions["undefined"]`; `Pet` is not a key. -/
theorem array_parameter_records_undefined :
    ∃ r, parseSwagger genUtils 1 arrayParameterDoc = some (.ok r) ∧
      r.refs = [("undefined", .undefined)] ∧ "Pet" ∉ r.refs.map Prod.fst :=
  ⟨⟨.undefined, [("pets", [⟨"post", "/pets"⟩])], [("undefined", .undefined)], 0,
      .builtin "Array.prototype"⟩,
    by rfl, rfl, by decide⟩

theorem isOperation_arrayParameterDoc (op : Val)
    (h : IsOperation genUtils arrayParameterDoc op) : op = addPetsOp := by
  obtain ⟨paths, ks, path, item, verb, hp, hk, hpath, hi, hverb, ho, ht⟩ := h
  simp only [arrayParameterDoc, get, lookup, if_true, Except.ok.injEq] at hp
  subst hp
  simp only [keys, List.map_cons, List.map_nil, Except.ok.injEq] at hk
  subst hk
  simp only [List.mem_singleton] at hpath
  subst hpath
  simp only [get, lookup, if_true, Except.ok.injEq] at hi
  subst hi
  simp only [genUtils, verbs, List.mem_cons, List.mem_singleton, List.mem_nil_iff,
    or_false] at hverb
  have e1 : readProp engine (.obj [("post", addPetsOp)]) "get" = .ok .undefined := by rfl
  have e2 : readProp engine (.obj [("post", addPetsOp)]) "post" = .ok addPetsOp := by rfl
  have e3 : readProp engine (.obj [("post", addPetsOp)]) "put" = .ok .undefined := by rfl
  have e4 : readProp engine (.obj [("post", addPetsOp)]) "delete" = .ok .undefined := by rfl
  have e5 : readProp engine (.obj [("post", addPetsOp)]) "head" = .ok .undefined := by rfl
  have e6 : readProp engine (.obj [("post", addPetsOp)]) "options" = .ok .undefined := by rfl
  have e7 : readProp engine (.obj [("post", addPetsOp)]) "patch" = .ok .undefined := by rfl
  rcases hverb with rfl | rfl | rfl | rfl | rfl | rfl | rfl
  · rw [show genUtils.engine = engine from rfl, e1] at ho; cases ho; simp [truthy] at ht
  · rw [show genUtils.engine = engine from rfl, e2] at ho; cases ho; rfl
  · rw [show genUtils.engine = engine from rfl, e3] at ho; cases ho; simp [truthy] at ht
  · rw [show genUtils.engine = engine from rfl, e4] at ho; cases ho; simp [truthy] at ht
  · rw [show genUtils.engine = engine from rfl, e5] at ho; cases ho; simp [truthy] at ht
  · rw [show genUtils.engine = engine from rfl, e6] at ho; cases ho; simp [truthy] at ht
  · rw [show genUtils.engine = engine from rfl, e7] at ho; cases ho; simp [truthy] at ht
theorem reachable_arrayParameterDoc (name : String)
    (h : Reachable genUtils arrayParameterDoc name) : name = "Pet" := by
  have e1 : get addPetsOp "parameters" = .ok (.arr [addPetsParameter]) := rfl
  have e2 : get addPetsParameter "schema" = .ok petArraySchema := rfl
  have e3 : get petArraySchema "$ref" = .ok .undefined := rfl
  have e4 : get addPetsOp "responses" = .ok .undefined := rfl
  have e5 : get petArraySchema "items" = .ok (refTo "#/definitions/Pet") := rfl
  have e6 : get (refTo "#/definitions/Pet") "$ref" = .ok (.str "#/definitions/Pet") := rfl
  have e7 : genUtils.getRefName (.str "#/definitions/Pet") = .ok "Pet" := rfl
  have e8 : get arrayParameterDoc "definitions" = .ok petDefinitions := rfl
  have e9 : get petDefinitions "Pet" = .ok (.obj [("type", .str "object")]) := rfl
  have e10 : get (.obj [("type", .str "object")]) "properties" = .ok .undefined := rfl
  induction h with
  | used op name hop hd =>
    have := isOperation_arrayParameterDoc op hop
    subst this
    cases hd with
    | parameterRef ps parameter schema rv _ h1 h2 h3 h4 h5 h6 =>
      rw [e1] at h1; cases h1
      simp only [List.mem_singleton] at h2
      subst h2
      rw [e2] at h3; cases h3
      rw [e3] at h4; cases h4
      simp [truthy] at h5
    | responseRef responseType responses response schema rv _ hrt h1 h2 h3 h4 h5 h6 =>
      rw [e4] at h1; cases h1
      simp [get] at h2
    | responseItemsRef responseType responses response schema rv items ir _ hrt h1 h2 =>
      rw [e4] at h1; cases h1
      simp [get] at h2
  | parameterItems op ps parameter schema rv items ir name hop h1 h2 h3 h4 h5 h6 h7 h8 h9 =>
    have := isOperation_arrayParameterDoc op hop
    subst this
    rw [e1] at h1; cases h1
    simp only [List.mem_singleton] at h2
    subst h2
    rw [e2] at h3; cases h3
    rw [e5] at h6; cases h6
    rw [e6] at h7; cases h7
    rw [e7] at h9; cases h9
    rfl
  | property source name defs d _ h1 h2 h3 ih =>
    subst ih
    rw [e8] at h1; cases h1
    rw [e9] at h2; cases h2
    obtain ⟨properties, _, _, _, a, b, _⟩ := h3
    rw [e10] at a; cases a
    simp [truthy] at b

/-- C8, the failing case. On `arrayParameterDoc` the returned `refs` has the key
`undefined`, which no parameter, response or property of the document refers to: the only
reachable definition name is `Pet`. -/
theorem undefined_key_not_reachable :
    ∃ r, parseSwagger genUtils 1 arrayParameterDoc = some (.ok r) ∧
      "undefined" ∈ r.refs.map Prod.fst ∧
      ¬ Reachable genUtils arrayParameterDoc "undefined" :=
  ⟨⟨.undefined, [("pets", [⟨"post", "/pets"⟩])], [("undefined", .undefined)], 0,
      .builtin "Array.prototype"⟩,
    by rfl, by decide,
    fun h => absurd (reachable_arrayParameterDoc "undefined" h) (by decide)⟩


/-! ## C4: the resource map -/

theorem routesOf_replaceKey (res : Resources) (k name : String) (v : List Route)
    (h : routesOf k res ≠ none) :
    routesOf name (replaceKey k v res) = if name = k then some v else routesOf name res := by
  induction res with
  | nil => simp [routesOf] at h
  | cons hd tl ih =>
    obtain ⟨k₁, rs⟩ := hd
    by_cases hk : k₁ = k
    · subst hk
      by_cases hn : name = k₁
      · subst hn; simp [replaceKey, routesOf]
      · simp [replaceKey, routesOf, hn, Ne.symm hn]
    · have htl : routesOf k tl ≠ none := by simpa [routesOf, hk] using h
      by_cases hn : k₁ = name
      · subst hn
        simp [replaceKey, routesOf, hk]
      · simp only [replaceKey, hk, if_false, routesOf, hn, ih htl]

theorem routesOf_insertKey (res : Resources) (k name : String) (v : List Route)
    (h : routesOf k res = none) :
    routesOf name (insertKey k v res) = if name = k then some v else routesOf name res := by
  induction res with
  | nil =>
    by_cases hn : name = k
    · subst hn; simp [insertKey, routesOf]
    · simp [insertKey, routesOf, hn, Ne.symm hn]
  | cons hd tl ih =>
    obtain ⟨k₁, rs⟩ := hd
    have hk : k₁ ≠ k := by
      intro hk
      simp [routesOf, hk] at h
    have htl : routesOf k tl = none := by simpa [routesOf, hk] using h
    by_cases hp : precedes k k₁ = true
    · by_cases hn : name = k
      · subst hn; simp [insertKey, hp, routesOf]
      · simp [insertKey, hp, routesOf, hn, Ne.symm hn]
    · by_cases hn : k₁ = name
      · subst hn
        simp [insertKey, hp, routesOf, hk]
      · simp only [insertKey, hp, Bool.false_eq_true, if_false, routesOf, hn, ih htl]

/-- A push that returns appends the entry to the routes of the resource and leaves the
other resources alone. -/
theorem routesOf_pushRoute (g : GenUtils) (res res' : Resources) (resource name : String)
    (e : Route) (h : pushRoute g res resource e = .ok res') :
    routesOf name res' =
      if name = resource then some ((routesOf name res).getD [] ++ [e])
      else routesOf name res := by
  unfold pushRoute at h
  cases hr : routesOf resource res with
  | some rs =>
    simp only [hr, Except.ok.injEq] at h
    subst h
    rw [routesOf_replaceKey res resource name _ (by simp [hr])]
    by_cases hn : name = resource
    · subst hn; simp [hr]
    · simp [hn]
  | none =>
    simp only [hr] at h
    split at h
    · simp only [Except.ok.injEq] at h
      subst h
      rw [routesOf_insertKey res resource name _ hr]
      by_cases hn : name = resource
      · subst hn; simp [hr]
      · simp [hn]
    · cases h

theorem listOrAbsent_getD (l : List Route) : (listOrAbsent l).getD [] = l := by
  unfold listOrAbsent
  split
  · rename_i h; simp [h]
  · simp

/-- What the walk reads of a path and a verb, in terms of the reference definition. -/
theorem scanVerb_resources (g : GenUtils) (api : Val) (path resource verb : String)
    (st st' : Resources × RefsArray) (h : scanVerb g api path resource st verb = .ok st') :
    if truthy (peekProp g (peek (peek api "paths") path) verb) = true
    then pushRoute g st.1 resource ⟨verb, g.convertToSwiftParameterFormat path⟩ = .ok st'.1
    else st'.1 = st.1 := by
  obtain ⟨paths, item, op, hp, hi, ho, hcase⟩ := scanVerb_parts g api path resource verb st st' h
  have hpeek : peekProp g (peek (peek api "paths") path) verb = op := by
    simp [peekProp, peek, hp, hi, ho]
  rw [hpeek]
  rcases hcase with ⟨ht, rfl⟩ | ⟨ht, _, hpush, _, _⟩
  · simp [ht]
  · simp [ht, hpush]

theorem scanVerbs_routesOf (g : GenUtils) (api : Val) (path resource name : String)
    (vs : List String) :
    ∀ (st st' : Resources × RefsArray) (l : List Route),
      forEach vs (scanVerb g api path resource) st = .ok st' →
      routesOf name st.1 = listOrAbsent l →
      routesOf name st'.1 = listOrAbsent (l ++
        if name = resource then
          (vs.filter (fun verb => truthy (peekProp g (peek (peek api "paths") path) verb))).map
            (fun verb => (⟨verb, g.convertToSwiftParameterFormat path⟩ : Route))
        else []) := by
  induction vs with
  | nil =>
    intro st st' l h hl
    simp only [forEach, Except.ok.injEq] at h
    subst h
    simpa using hl
  | cons verb vs ih =>
    intro st st' l h hl
    obtain ⟨s1, h1, h2⟩ := forEach_cons_eq_ok _ verb vs st st' h
    have hs1 := scanVerb_resources g api path resource verb st s1 h1
    by_cases ht : truthy (peekProp g (peek (peek api "paths") path) verb) = true
    · simp only [ht, if_true] at hs1
      have hr := routesOf_pushRoute g st.1 s1.1 resource name _ hs1
      by_cases hn : name = resource
      · have h1' : routesOf name s1.1 = listOrAbsent
            (l ++ [⟨verb, g.convertToSwiftParameterFormat path⟩]) := by
          rw [hr, if_pos hn, hl, listOrAbsent_getD]
          simp [listOrAbsent]
        have := ih s1 st' _ h2 h1'
        simpa [List.filter_cons, ht, hn] using this
      · have h1' : routesOf name s1.1 = listOrAbsent l := by
          rw [hr, if_neg hn, hl]
        have := ih s1 st' _ h2 h1'
        simpa [List.filter_cons, ht, hn] using this
    · simp only [ht, Bool.false_eq_true, if_false] at hs1
      have h1' : routesOf name s1.1 = listOrAbsent l := by rw [hs1]; exact hl
      have := ih s1 st' _ h2 h1'
      simpa [List.filter_cons, ht] using this

theorem scanPaths_routesOf (g : GenUtils) (api : Val) (name : String) (ks : List String) :
    ∀ (st st' : Resources × RefsArray) (l : List Route),
      forEach ks (scanPath g api) st = .ok st' → routesOf name st.1 = listOrAbsent l →
      routesOf name st'.1 = listOrAbsent (l ++
        (ks.filter (fun path => g.resourceNameFromPath path = name)).flatMap
          (routesOfPath g api)) := by
  induction ks with
  | nil =>
    intro st st' l h hl
    simp only [forEach, Except.ok.injEq] at h
    subst h
    simpa using hl
  | cons path ks ih =>
    intro st st' l h hl
    obtain ⟨s1, h1, h2⟩ := forEach_cons_eq_ok _ path ks st st' h
    have hs1 : routesOf name s1.1 = listOrAbsent
        (l ++ if name = g.resourceNameFromPath path then routesOfPath g api path else []) :=
      scanVerbs_routesOf g api path _ name g.verbs st s1 l h1 hl
    have := ih s1 st' _ h2 hs1
    rw [this]
    by_cases hn : g.resourceNameFromPath path = name
    · simp [List.filter_cons, hn]
    · simp [List.filter_cons, hn, Ne.symm hn]

/-- The resource map after the walk, in terms of the reference definition. -/
theorem walkPaths_routesOf (g : GenUtils) (api : Val) (st : Resources × RefsArray)
    (hw : walkPaths g api = .ok st) (resource : String) :
    routesOf resource st.1 = listOrAbsent (expectedRoutes g api resource) := by
  cases hp : get api "paths" with
  | error e => simp [walkPaths, bind, Except.bind, hp] at hw
  | ok paths =>
    cases hk : keys paths with
    | error e => simp [walkPaths, bind, Except.bind, hp, hk] at hw
    | ok ks =>
      simp only [walkPaths, bind, Except.bind, hp, hk] at hw
      have hkeys : pathKeys api = ks := by simp [pathKeys, peek, hp, hk]
      have := scanPaths_routesOf g api resource ks ([], emptyRefs) st [] hw
        (by simp [routesOf, listOrAbsent])
      simpa [expectedRoutes, hkeys] using this

/-- C4. Whenever `parseSwagger` returns, for every resource name the returned
`resources[resource]` is exactly the reference list: the path keys of `paths` in document
order whose `resourceNameFromPath` is that name, and for each the supported verbs present
under the path, in the order of the verb list, each giving the entry with that verb as
method and `convertToSwiftParameterFormat(path)` as route. The property is absent exactly
when that list is empty. -/
theorem resources_eq_expectedRoutes (g : GenUtils) (fuel : Nat) (api : Val) (r : Parsed)
    (h : parseSwagger g fuel api = some (.ok r)) (resource : String) :
    routesOf resource r.resources = listOrAbsent (expectedRoutes g api resource) := by
  obtain ⟨refs0, _, hw, _⟩ := parseSwagger_ok g api fuel r h
  exact walkPaths_routesOf g api _ hw resource

theorem resources_eq_expectedRoutes_witness :
    routesOf "widgets" widgetParsed.resources =
      listOrAbsent (expectedRoutes genUtils widgetDoc "widgets") ∧
    expectedRoutes genUtils widgetDoc "widgets" =
      [⟨"get", "/widgets"⟩, ⟨"post", "/widgets"⟩, ⟨"get", "/widgets/:id"⟩] :=
  ⟨resources_eq_expectedRoutes genUtils 2 widgetDoc widgetParsed (by rfl) "widgets", by rfl⟩

/-! ## C21: no resource without routes -/

theorem routesOf_eq_none_iff (name : String) (res : Resources) :
    routesOf name res = none ↔ name ∉ res.map Prod.fst := by
  induction res with
  | nil => simp [routesOf]
  | cons hd tl ih =>
    obtain ⟨k, rs⟩ := hd
    by_cases hk : k = name
    · subst hk
      simp [routesOf]
    · simp only [routesOf, hk, if_false, ih, List.map_cons, List.mem_cons, not_or]
      exact ⟨fun h => ⟨fun h' => hk h'.symm, h⟩, fun h => h.2⟩

theorem mem_replaceKey {α : Type} (m : List (String × α)) (k : String) (v : α)
    (entry : String × α) (h : entry ∈ replaceKey k v m) : entry = (k, v) ∨ entry ∈ m := by
  induction m with
  | nil => simp [replaceKey] at h
  | cons hd tl ih =>
    obtain ⟨k₁, v₁⟩ := hd
    by_cases hk : k₁ = k
    · simp only [replaceKey, hk, if_true, List.mem_cons] at h
      rcases h with h | h
      · exact Or.inl h
      · exact Or.inr (List.mem_cons_of_mem _ h)
    · simp only [replaceKey, hk, if_false, List.mem_cons] at h
      rcases h with h | h
      · exact Or.inr (h ▸ List.mem_cons_self _ _)
      · rcases ih h with h' | h'
        · exact Or.inl h'
        · exact Or.inr (List.mem_cons_of_mem _ h')

theorem mem_insertKey {α : Type} (m : List (String × α)) (k : String) (v : α)
    (entry : String × α) (h : entry ∈ insertKey k v m) : entry = (k, v) ∨ entry ∈ m := by
  induction m with
  | nil => simpa [insertKey] using h
  | cons hd tl ih =>
    obtain ⟨k₁, v₁⟩ := hd
    by_cases hp : precedes k k₁ = true
    · simp only [insertKey, hp, if_true, List.mem_cons] at h
      rcases h with h | h | h
      · exact Or.inl h
      · exact Or.inr (h ▸ List.mem_cons_self _ _)
      · exact Or.inr (List.mem_cons_of_mem _ h)
    · simp only [insertKey, hp, Bool.false_eq_true, if_false, List.mem_cons] at h
      rcases h with h | h
      · exact Or.inr (h ▸ List.mem_cons_self _ _)
      · rcases ih h with h' | h'
        · exact Or.inl h'
        · exact Or.inr (List.mem_cons_of_mem _ h')

theorem pushRoute_nonempty (g : GenUtils) (res res' : Resources) (resource : String)
    (e : Route) (hpush : pushRoute g res resource e = .ok res')
    (h : ∀ entry ∈ res, entry.2 ≠ []) : ∀ entry ∈ res', entry.2 ≠ [] := by
  unfold pushRoute at hpush
  intro entry hmem
  split at hpush
  · simp only [Except.ok.injEq] at hpush
    subst hpush
    rcases mem_replaceKey _ _ _ _ hmem with rfl | h'
    · simp
    · exact h entry h'
  · split at hpush
    · simp only [Except.ok.injEq] at hpush
      subst hpush
      rcases mem_insertKey _ _ _ _ hmem with rfl | h'
      · simp
      · exact h entry h'
    · cases hpush

/-- Every entry of `resources` after the walk holds at least one route. -/
theorem walkPaths_nonempty (g : GenUtils) (api : Val) (st : Resources × RefsArray)
    (h : walkPaths g api = .ok st) : ∀ entry ∈ st.1, entry.2 ≠ [] := by
  simp only [walkPaths, bind, Except.bind] at h
  repeat' split at h
  all_goals first
    | contradiction
    | skip
  exact forEach_invariant (fun s : Resources × RefsArray => ∀ entry ∈ s.1, entry.2 ≠ [])
    (scanPath g api) _
    (fun s path s' _ hs hf =>
      forEach_invariant (fun s : Resources × RefsArray => ∀ entry ∈ s.1, entry.2 ≠ [])
        (scanVerb g api path (g.resourceNameFromPath path)) g.verbs
        (fun a verb b _ ha hb => by
          obtain ⟨_, _, _, _, _, _, hcase⟩ := scanVerb_parts g api path _ verb a b hb
          rcases hcase with ⟨_, rfl⟩ | ⟨_, _, hpush, _, _⟩
          · exact ha
          · exact pushRoute_nonempty g a.1 b.1 _ _ hpush ha)
        s s' hs hf)
    ([], emptyRefs) st (fun entry hmem => by simp at hmem) h

theorem listOrAbsent_eq_none_iff (l : List Route) : listOrAbsent l = none ↔ l = [] := by
  unfold listOrAbsent
  split <;> simp_all

theorem expectedRoutes_ne_nil_iff (g : GenUtils) (api : Val) (resource : String) :
    expectedRoutes g api resource ≠ [] ↔
      ∃ path ∈ pathKeys api, g.resourceNameFromPath path = resource ∧
        presentVerbs g (peek (peek api "paths") path) ≠ [] := by
  simp only [expectedRoutes, routesOfPath, ne_eq, List.flatMap_eq_nil_iff, List.mem_filter,
    decide_eq_true_eq, List.map_eq_nil_iff, not_forall]
  constructor
  · rintro ⟨path, ⟨hmem, hname⟩, hne⟩
    exact ⟨path, hmem, hname, hne⟩
  · rintro ⟨path, hmem, hname, hne⟩
    exact ⟨path, ⟨hmem, hname⟩, hne⟩

/-- C21. Whenever `parseSwagger` returns, every entry of the returned `resources` holds a
non-empty list of routes (so does `resources[resource]` for every key), and a name is a key
exactly when some path with that resource name declares a supported verb: a path that
declares none creates no entry of its own. -/
theorem no_empty_resources (g : GenUtils) (fuel : Nat) (api : Val) (r : Parsed)
    (h : parseSwagger g fuel api = some (.ok r)) (resource : String) :
    (∀ entry ∈ r.resources, entry.2 ≠ []) ∧
    (∀ routes, routesOf resource r.resources = some routes → routes ≠ []) ∧
    (resource ∈ r.resources.map Prod.fst ↔
      ∃ path ∈ pathKeys api, g.resourceNameFromPath path = resource ∧
        presentVerbs g (peek (peek api "paths") path) ≠ []) := by
  obtain ⟨refs0, _, hw, _⟩ := parseSwagger_ok g api fuel r h
  have hroutes : routesOf resource r.resources =
      listOrAbsent (expectedRoutes g api resource) := walkPaths_routesOf g api _ hw resource
  refine ⟨walkPaths_nonempty g api _ hw, ?_, ?_⟩
  · intro routes hr
    rw [hroutes] at hr
    unfold listOrAbsent at hr
    split at hr
    · contradiction
    · rename_i hne
      simp only [Option.some.injEq] at hr
      exact hr ▸ hne
  · rw [← expectedRoutes_ne_nil_iff, ← not_iff_not, ← routesOf_eq_none_iff, hroutes,
      listOrAbsent_eq_none_iff, not_not]

theorem no_empty_resources_witness :
    parseSwagger genUtils 1 verblessDoc = some (.ok verblessParsed) ∧
    ((∀ entry ∈ verblessParsed.resources, entry.2 ≠ []) ∧
      (∀ routes, routesOf "pets" verblessParsed.resources = some routes → routes ≠ []) ∧
      ("pets" ∈ verblessParsed.resources.map Prod.fst ↔
        ∃ path ∈ pathKeys verblessDoc, genUtils.resourceNameFromPath path = "pets" ∧
          presentVerbs genUtils (peek (peek verblessDoc "paths") path) ≠ [])) :=
  ⟨by rfl, no_empty_resources genUtils 1 verblessDoc verblessParsed (by rfl) "pets"⟩

/-- On `verblessDoc` the path `/ping`, which declares no supported verb, leaves no entry
under its resource name. -/
theorem verbless_path_creates_no_entry :
    "/ping" ∈ pathKeys verblessDoc ∧
    presentVerbs genUtils (peek (peek verblessDoc "paths") "/ping") = [] ∧
    genUtils.resourceNameFromPath "/ping" = "ping" ∧
    "ping" ∉ verblessParsed.resources.map Prod.fst := by
  refine ⟨?_, by rfl, by rfl, by decide⟩
  have hk : pathKeys verblessDoc = ["/ping", "/pets"] := by rfl
  rw [hk]
  decide

/-! ## C9: no exception on a document of the expected shape -/

theorem get_eq_peek_of_truthy (v : Val) (k : String) (h : truthy v = true) :
    get v k = .ok (peek v k) := by
  cases v <;> simp [truthy] at h
  all_goals simp [peek, get]

theorem truthy_of_isObject (v : Val) (h : isObject v = true) : truthy v = true := by
  cases v <;> simp [isObject] at h
  rfl

theorem get_eq_peek_of_isObject (v : Val) (k : String) (h : isObject v = true) :
    get v k = .ok (peek v k) :=
  get_eq_peek_of_truthy v k (truthy_of_isObject v h)

theorem optional_truthy (p : Val → Bool) (v : Val) (h : optional p v = true)
    (ht : truthy v = true) : p v = true := by
  simpa [optional, ht] using h

theorem lookup_eq_undefined_or_mem (k : String) (l : List (String × Val)) :
    lookup k l = .undefined ∨ (k, lookup k l) ∈ l := by
  induction l with
  | nil => exact Or.inl rfl
  | cons hd tl ih =>
    obtain ⟨k', v⟩ := hd
    by_cases hk : k' = k
    · subst hk
      simp [lookup]
    · simp only [lookup, hk, if_false, List.mem_cons]
      rcases ih with h | h
      · exact Or.inl h
      · exact Or.inr (Or.inr h)

theorem optional_lookup_of_all (p : Val → Bool) (k : String) (l : List (String × Val))
    (h : l.all (fun kv => p kv.2) = true) : optional p (lookup k l) = true := by
  rcases lookup_eq_undefined_or_mem k l with hu | hm
  · rw [hu]; rfl
  · have := List.all_eq_true.mp h _ hm
    simp [optional, this]


theorem refNamed_ok (g : GenUtils) (rv : Val) (h : refNamed g rv = true) :
    ∃ name, g.getRefName rv = .ok name ∧ name ≠ "length" := by
  simp only [refNamed, Bool.and_eq_true] at h
  cases hn : g.getRefName rv with
  | error e => rw [hn] at h; simp at h
  | ok name => rw [hn] at h; exact ⟨name, rfl, by simpa using h.2⟩

theorem refsShaped_empty (g : GenUtils) (hasDefs : Bool) : RefsShaped g hasDefs emptyRefs :=
  ⟨fun _ => rfl, Or.inr rfl⟩

/-- A read under a computed key does not raise on a truthy value. -/
theorem readProp_eq_peekProp_of_truthy (g : GenUtils) (v : Val) (k : String)
    (h : truthy v = true) : readProp g.engine v k = .ok (peekProp g v k) := by
  have hget := get_eq_peek_of_truthy v k h
  simp only [peekProp, readProp, hget, bind, Except.bind, pure, Except.pure]
  split
  · rfl
  · split <;> rfl

/-- What the read of an object of definitions gives under any name: the definition, or
nothing, or a built-in object. -/
theorem readProp_definitions_shaped (g : GenUtils) (defs : List (String × Val))
    (hshape : definitionsShaped g (.obj defs) = true) (name : String) :
    ∃ d, readProp g.engine (.obj defs) name = .ok d ∧ recordedShaped g d = true := by
  simp only [readProp, get, hasOwnProperty, bind, Except.bind, pure, Except.pure]
  split
  · refine ⟨_, rfl, ?_⟩
    have := optional_lookup_of_all (definitionShaped g) name defs hshape
    simp only [optional, Bool.or_eq_true] at this
    simp only [recordedShaped, Bool.or_eq_true]
    rcases this with h | h
    · exact Or.inl (Or.inl h)
    · exact Or.inr h
  · simp only [findBuiltin, prototypeName, prototypeOf]
    split
    · exact ⟨_, rfl, rfl⟩
    · rename_i x hx
      refine ⟨x, rfl, ?_⟩
      split at hx
      · split at hx
        · cases hx
        · simp only [Found.data.injEq] at hx
          subst hx
          rfl
      · cases hx
    · exact ⟨_, rfl, rfl⟩

/-- An assignment to `refs` under a key other than `length` returns, and every own property
then holds the value that it held, or the value assigned. -/
theorem writeRefs_ok (e : Engine) (refs : RefsArray) (k : String) (v : Val)
    (hk : k ≠ "length") :
    ∃ refs', writeRefs e refs k v = .ok refs' ∧
      ∀ k', lookup k' refs'.entries = lookup k' refs.entries ∨
        lookup k' refs'.entries = v := by
  unfold writeRefs
  simp only [hk, if_false]
  by_cases hown : hasOwn k refs.entries = true
  · simp only [hown, if_true, pure, Except.pure]
    refine ⟨_, rfl, fun k' => ?_⟩
    by_cases hkk : k' = k
    · subst hkk
      exact Or.inr (lookup_replaceKey_same _ _ _ ((hasOwn_iff _ _).mp hown))
    · exact Or.inl (lookup_replaceKey_ne _ _ _ _ hkk)
  · have hnot : k ∉ refs.entries.map Prod.fst := fun hm => hown ((hasOwn_iff k _).mpr hm)
    simp only [hown, Bool.false_eq_true, if_false, pure, Except.pure]
    have hins : ∀ k', lookup k' (insertKey k v refs.entries) = lookup k' refs.entries ∨
        lookup k' (insertKey k v refs.entries) = v := by
      intro k'
      by_cases hkk : k' = k
      · subst hkk
        exact Or.inr (lookup_insertKey_same _ _ _ hnot)
      · exact Or.inl (lookup_insertKey_ne _ _ _ _ hkk)
    cases find e refs.proto k with
    | protoAccessor =>
      refine ⟨_, rfl, fun k' => ?_⟩
      split <;> exact Or.inl rfl
    | nothing => exact ⟨_, rfl, hins⟩
    | data x => exact ⟨_, rfl, hins⟩

/-- With a `definitions` object, the assignment `refs[ref] = api.definitions[ref]` under a
name other than `length` does not raise and stores `undefined`, a built-in object or a
definition; no key is lost. -/
theorem record_shaped (g : GenUtils) (api : Val) (hapi : isObject api = true)
    (hdefs : optional (definitionsShaped g) (peek api "definitions") = true)
    (hobj : isObject (peek api "definitions") = true) (refs : RefsArray)
    (name : String) (hname : name ≠ "length") (hrefs : RefsShaped g true refs) :
    ∃ refs', record g api refs name = .ok refs' ∧ RefsShaped g true refs' ∧
      KeysSubset refs.entries refs'.entries := by
  have hshape := optional_truthy _ _ hdefs (truthy_of_isObject _ hobj)
  have hget := get_eq_peek_of_isObject api "definitions" hapi
  cases hd : peek api "definitions" with
  | obj defs =>
    rw [hd] at hshape hget
    obtain ⟨d, hread, hdshape⟩ := readProp_definitions_shaped g defs hshape name
    obtain ⟨refs', hw, hvals⟩ := writeRefs_ok g.engine refs name d hname
    refine ⟨refs', ?_, ⟨fun k => ?_, Or.inl rfl⟩,
      writeRefs_keeps_keys g.engine refs refs' name d hname hw⟩
    · simp only [record, bind, Except.bind, hget, hread]
      exact hw
    · rcases hvals k with h | h
      · rw [h]; exact hrefs.1 k
      · rw [h]; exact hdshape
  | _ => rw [hd] at hobj; simp [isObject] at hobj

theorem record_of_hasDefs (g : GenUtils) (api : Val) (hapi : isObject api = true)
    (hdefs : optional (definitionsShaped g) (peek api "definitions") = true) (hasDefs : Bool)
    (hhas : hasDefs = isObject (peek api "definitions")) (htrue : hasDefs = true)
    (refs : RefsArray) (name : String) (hname : name ≠ "length")
    (hrefs : RefsShaped g hasDefs refs) :
    ∃ refs', record g api refs name = .ok refs' ∧ RefsShaped g hasDefs refs' := by
  subst htrue
  obtain ⟨refs', h1, h2, _⟩ := record_shaped g api hapi hdefs hhas.symm refs name hname hrefs
  exact ⟨refs', h1, h2⟩

theorem scanParameter_shaped (g : GenUtils) (api : Val) (hapi : isObject api = true)
    (hdefs : optional (definitionsShaped g) (peek api "definitions") = true) (hasDefs : Bool)
    (hhas : hasDefs = isObject (peek api "definitions"))
    (p : Val) (hp : holderShaped g hasDefs p = true) (refs : RefsArray)
    (hrefs : RefsShaped g hasDefs refs) :
    ∃ refs', scanParameter g api refs p = .ok refs' ∧ RefsShaped g hasDefs refs' := by
  simp only [holderShaped, Bool.and_eq_true] at hp
  obtain ⟨hobj, hschema⟩ := hp
  simp only [scanParameter, bind, Except.bind, get_eq_peek_of_isObject p "schema" hobj,
    pure, Except.pure]
  by_cases hts : truthy (peek p "schema") = true
  · have hs := optional_truthy _ _ hschema hts
    simp only [usedSchemaShaped, schemaShaped, refShaped, Bool.and_eq_true,
      Bool.or_eq_true, Bool.not_eq_true'] at hs
    obtain ⟨⟨⟨hsobj, href⟩, hitems⟩, huse⟩ := hs
    simp only [hts, if_true, get_eq_peek_of_isObject _ "$ref" hsobj,
      get_eq_peek_of_isObject _ "items" hsobj]
    by_cases htr : truthy (peek (peek p "schema") "$ref") = true
    · obtain ⟨name, hname, hnl⟩ :=
        refNamed_ok g _ (optional_truthy _ _ href htr)
      have hd : hasDefs = true := by
        rcases huse with h | h
        · exact h
        · rw [htr] at h; simp at h
      simp only [htr, if_true, hname]
      exact record_of_hasDefs g api hapi hdefs hasDefs hhas hd refs name hnl hrefs
    · simp only [htr, if_false]
      by_cases hti : truthy (peek (peek p "schema") "items") = true
      · have hi := optional_truthy _ _ hitems hti
        simp only [refShaped, Bool.and_eq_true] at hi
        simp only [hti, if_true, get_eq_peek_of_isObject _ "$ref" hi.1]
        by_cases htir : truthy (peek (peek (peek p "schema") "items") "$ref") = true
        · have hd : hasDefs = true := by
            rcases huse with h | h
            · exact h
            · rw [htir] at h; simp at h
          simp only [htir, if_true]
          exact record_of_hasDefs g api hapi hdefs hasDefs hhas hd refs "undefined" (by decide) hrefs
        · simp only [htir, if_false]
          exact ⟨refs, rfl, hrefs⟩
      · simp only [hti, if_false]
        exact ⟨refs, rfl, hrefs⟩
  · simp only [hts, if_false]
    exact ⟨refs, rfl, hrefs⟩

theorem scanResponse_shaped (g : GenUtils) (api : Val) (hapi : isObject api = true)
    (hdefs : optional (definitionsShaped g) (peek api "definitions") = true) (hasDefs : Bool)
    (hhas : hasDefs = isObject (peek api "definitions"))
    (op : Val) (hop : truthy op = true)
    (hresponses : optional (responsesShaped g hasDefs) (peek op "responses") = true)
    (responseType : String) (hrt : responseType ∈ ["200", "default"]) (refs : RefsArray)
    (hrefs : RefsShaped g hasDefs refs) :
    ∃ refs', scanResponse g api op refs responseType = .ok refs' ∧
      RefsShaped g hasDefs refs' := by
  simp only [scanResponse, bind, Except.bind, get_eq_peek_of_truthy op "responses" hop,
    pure, Except.pure]
  by_cases htrs : truthy (peek op "responses") = true
  · have hr := optional_truthy _ _ hresponses htrs
    simp only [responsesShaped, Bool.and_eq_true] at hr
    obtain ⟨⟨hrobj, h200⟩, hdefault⟩ := hr
    have hresp : optional (holderShaped g hasDefs) (peek (peek op "responses") responseType)
        = true := by
      simp only [List.mem_cons, List.mem_singleton, List.mem_nil_iff, or_false] at hrt
      rcases hrt with rfl | rfl
      · exact h200
      · exact hdefault
    simp only [htrs, if_true, get_eq_peek_of_isObject _ responseType hrobj]
    by_cases htr : truthy (peek (peek op "responses") responseType) = true
    · have hh := optional_truthy _ _ hresp htr
      simp only [holderShaped, Bool.and_eq_true] at hh
      obtain ⟨hobj, hschema⟩ := hh
      simp only [htr, if_true, get_eq_peek_of_isObject _ "schema" hobj]
      generalize peek (peek op "responses") responseType = response at hobj hschema
      by_cases hts : truthy (peek response "schema") = true
      · have hs := optional_truthy _ _ hschema hts
        simp only [usedSchemaShaped, schemaShaped, refShaped, Bool.and_eq_true,
          Bool.or_eq_true, Bool.not_eq_true'] at hs
        obtain ⟨⟨⟨hsobj, href⟩, hitems⟩, huse⟩ := hs
        simp only [hts, if_true, get_eq_peek_of_isObject _ "$ref" hsobj,
          get_eq_peek_of_isObject _ "items" hsobj, get_eq_peek_of_isObject _ "type" hsobj]
        by_cases htref : truthy (peek (peek response "schema") "$ref") = true
        · obtain ⟨name, hname, hnl⟩ :=
            refNamed_ok g _ (optional_truthy _ _ href htref)
          have hd : hasDefs = true := by
            rcases huse with h | h
            · exact h
            · rw [htref] at h; simp at h
          simp only [htref, if_true, hname]
          exact record_of_hasDefs g api hapi hdefs hasDefs hhas hd refs name hnl hrefs
        · simp only [htref, if_false]
          by_cases hty : (truthy (peek (peek response "schema") "type") &&
              isStr (peek (peek response "schema") "type") "array") = true
          · simp only [hty, if_true]
            by_cases hti : truthy (peek (peek response "schema") "items") = true
            · have hi := optional_truthy _ _ hitems hti
              simp only [refShaped, Bool.and_eq_true] at hi
              simp only [hti, if_true, get_eq_peek_of_isObject _ "$ref" hi.1]
              by_cases htir :
                  truthy (peek (peek (peek response "schema") "items") "$ref") = true
              · obtain ⟨name, hname, hnl⟩ :=
                  refNamed_ok g _ (optional_truthy _ _ hi.2 htir)
                have hd : hasDefs = true := by
                  rcases huse with h | h
                  · exact h
                  · rw [htir] at h; simp at h
                simp only [htir, if_true, hname]
                obtain ⟨refs1, h1, hrefs1⟩ :=
                  record_of_hasDefs g api hapi hdefs hasDefs hhas hd refs name hnl hrefs
                simp only [h1]
                exact record_of_hasDefs g api hapi hdefs hasDefs hhas hd refs1 name hnl hrefs1
              · simp only [htir, if_false]
                exact ⟨refs, rfl, hrefs⟩
            · simp only [hti, if_false]
              exact ⟨refs, rfl, hrefs⟩
          · simp only [hty, if_false]
            exact ⟨refs, rfl, hrefs⟩
      · simp only [hts, if_false]
        exact ⟨refs, rfl, hrefs⟩
    · simp only [htr, if_false]
      exact ⟨refs, rfl, hrefs⟩
  · simp only [htrs, if_false]
    exact ⟨refs, rfl, hrefs⟩
theorem lookup_mem_of_mem_keys (k : String) (l : List (String × Val))
    (h : k ∈ l.map Prod.fst) : (k, lookup k l) ∈ l := by
  induction l with
  | nil => simp at h
  | cons hd tl ih =>
    obtain ⟨k', v⟩ := hd
    by_cases hk : k' = k
    · subst hk
      simp [lookup]
    · simp only [List.map_cons, List.mem_cons] at h
      rcases h with h | h
      · exact absurd h.symm hk
      · simp only [lookup, hk, if_false, List.mem_cons]
        exact Or.inr (ih h)

theorem scanParameters_shaped (g : GenUtils) (api : Val) (hapi : isObject api = true)
    (hdefs : optional (definitionsShaped g) (peek api "definitions") = true) (hasDefs : Bool)
    (hhas : hasDefs = isObject (peek api "definitions"))
    (op : Val) (hop : truthy op = true)
    (hparams : optional (parametersShaped g hasDefs) (peek op "parameters") = true)
    (refs : RefsArray) (hrefs : RefsShaped g hasDefs refs) :
    ∃ refs', scanParameters g api op refs = .ok refs' ∧ RefsShaped g hasDefs refs' := by
  simp only [scanParameters, bind, Except.bind, get_eq_peek_of_truthy op "parameters" hop,
    pure, Except.pure]
  by_cases htp : truthy (peek op "parameters") = true
  · have hps := optional_truthy _ _ hparams htp
    simp only [htp, if_true]
    cases hpar : peek op "parameters" with
    | arr ps =>
      rw [hpar] at hps
      simp only [parametersShaped] at hps
      exact forEach_ok (RefsShaped g hasDefs) (scanParameter g api) ps
        (fun s p hmem hs => scanParameter_shaped g api hapi hdefs hasDefs hhas p
          (List.all_eq_true.mp hps p hmem) s hs) refs hrefs
    | _ => rw [hpar] at hps; simp [parametersShaped] at hps
  · simp only [htp, if_false]
    exact ⟨refs, rfl, hrefs⟩


theorem pushRoute_ok (g : GenUtils) (res : Resources) (resource : String) (e : Route)
    (h : g.engine.member "Object.prototype" resource = false) :
    ∃ res', pushRoute g res resource e = .ok res' := by
  unfold pushRoute
  cases routesOf resource res with
  | some rs => exact ⟨_, rfl⟩
  | none => simp [findBuiltin, h]

theorem scanVerb_shaped (g : GenUtils) (api : Val) (hapi : isObject api = true)
    (hdefs : optional (definitionsShaped g) (peek api "definitions") = true) (hasDefs : Bool)
    (hhas : hasDefs = isObject (peek api "definitions"))
    (fields : List (String × Val)) (hpaths : peek api "paths" = .obj fields)
    (hshape : pathsShaped g hasDefs (.obj fields) = true)
    (path resource : String) (hpath : path ∈ fields.map Prod.fst)
    (hres : presentVerbs g (lookup path fields) ≠ [] →
      g.engine.member "Object.prototype" resource = false)
    (verb : String) (hverb : verb ∈ g.verbs)
    (st : Resources × RefsArray) (hrefs : RefsShaped g hasDefs st.2) :
    ∃ st', scanVerb g api path resource st verb = .ok st' ∧ RefsShaped g hasDefs st'.2 := by
  have hitem : pathItemShaped g hasDefs (lookup path fields) = true :=
    List.all_eq_true.mp hshape _ (lookup_mem_of_mem_keys path fields hpath)
  simp only [pathItemShaped, Bool.and_eq_true] at hitem
  obtain ⟨hiobj, hverbs⟩ := hitem
  have hopt := List.all_eq_true.mp hverbs verb hverb
  have h1 : get api "paths" = .ok (.obj fields) := by
    rw [get_eq_peek_of_isObject api "paths" hapi, hpaths]
  have h2 : get (.obj fields) path = .ok (lookup path fields) := rfl
  have h3 := readProp_eq_peekProp_of_truthy g (lookup path fields) verb
    (truthy_of_isObject _ hiobj)
  simp only [scanVerb, bind, Except.bind, h1, h2, h3, pure, Except.pure]
  by_cases hto : truthy (peekProp g (lookup path fields) verb) = true
  · have hop := optional_truthy _ _ hopt hto
    simp only [operationShaped, Bool.and_eq_true] at hop
    obtain ⟨⟨_, hparams⟩, hresponses⟩ := hop
    have hpresent : presentVerbs g (lookup path fields) ≠ [] := by
      intro hnil
      have : verb ∈ presentVerbs g (lookup path fields) := by
        simp only [presentVerbs, List.mem_filter]
        exact ⟨hverb, hto⟩
      rw [hnil] at this
      simp at this
    obtain ⟨res', hpush⟩ := pushRoute_ok g st.1 resource
      ⟨verb, g.convertToSwiftParameterFormat path⟩ (hres hpresent)
    simp only [hto, if_true, hpush]
    obtain ⟨refs1, hr1, hs1⟩ := scanParameters_shaped g api hapi hdefs hasDefs hhas _ hto
      hparams st.2 hrefs
    obtain ⟨refs2, hr2, hs2⟩ := forEach_ok (RefsShaped g hasDefs)
      (scanResponse g api (peekProp g (lookup path fields) verb)) ["200", "default"]
      (fun s rt hmem hs => scanResponse_shaped g api hapi hdefs hasDefs hhas _ hto
        hresponses rt hmem s hs) refs1 hs1
    simp only [hr1, hr2]
    exact ⟨_, rfl, hs2⟩
  · simp only [hto, Bool.false_eq_true, if_false]
    exact ⟨st, rfl, hrefs⟩

theorem walkPaths_shaped (g : GenUtils) (api : Val) (hshape : wellShaped g api = true)
    (hres : ordinaryResources g api = true) :
    ∃ st, walkPaths g api = .ok st ∧
      RefsShaped g (isObject (peek api "definitions")) st.2 := by
  simp only [wellShaped, Bool.and_eq_true] at hshape
  obtain ⟨⟨hapi, hpaths⟩, hdefs⟩ := hshape
  cases hp : peek api "paths" with
  | obj fields =>
    rw [hp] at hpaths
    have h1 : get api "paths" = .ok (.obj fields) := by
      rw [get_eq_peek_of_isObject api "paths" hapi, hp]
    have hkeys : pathKeys api = fields.map Prod.fst := by
      simp [pathKeys, hp, keys]
    have hordinary : ∀ path ∈ fields.map Prod.fst,
        presentVerbs g (lookup path fields) ≠ [] →
          g.engine.member "Object.prototype" (g.resourceNameFromPath path) = false := by
      intro path hpath hne
      simp only [ordinaryResources, hkeys, hp] at hres
      have := List.all_eq_true.mp hres path hpath
      have hpk : peek (Val.obj fields) path = lookup path fields := rfl
      simp only [hpk, Bool.or_eq_true, List.isEmpty_iff, Bool.not_eq_true'] at this
      rcases this with h | h
      · exact absurd h hne
      · exact h
    simp only [walkPaths, bind, Except.bind, h1, keys]
    exact forEach_ok (fun s : Resources × RefsArray =>
        RefsShaped g (isObject (peek api "definitions")) s.2) (scanPath g api)
      (fields.map Prod.fst)
      (fun s path hpath hs =>
        forEach_ok (fun s : Resources × RefsArray =>
            RefsShaped g (isObject (peek api "definitions")) s.2)
          (scanVerb g api path (g.resourceNameFromPath path)) g.verbs
          (fun a verb hverb ha => scanVerb_shaped g api hapi hdefs _ rfl fields hp hpaths
            path _ hpath (hordinary path hpath) verb hverb a ha) s hs)
      ([], emptyRefs) (refsShaped_empty g _)
  | _ => rw [hp] at hpaths; simp [pathsShaped] at hpaths

theorem addIfMissing_shaped (g : GenUtils) (api : Val) (hapi : isObject api = true)
    (hdefs : optional (definitionsShaped g) (peek api "definitions") = true)
    (hobj : isObject (peek api "definitions") = true)
    (st : RefsArray × Bool) (name : String) (hname : name ≠ "length")
    (hrefs : RefsShaped g true st.1) :
    ∃ st', addIfMissing g api st name = .ok st' ∧ RefsShaped g true st'.1 ∧
      KeysSubset st.1.entries st'.1.entries := by
  unfold addIfMissing
  split
  · exact ⟨st, rfl, hrefs, fun _ hk => hk⟩
  · obtain ⟨refs', h1, h2, h3⟩ := record_shaped g api hapi hdefs hobj st.1 name hname hrefs
    simp only [bind, Except.bind, h1, pure, Except.pure]
    exact ⟨_, rfl, h2, h3⟩

theorem scanProperty_shaped (g : GenUtils) (api : Val) (hapi : isObject api = true)
    (hdefs : optional (definitionsShaped g) (peek api "definitions") = true)
    (hobj : isObject (peek api "definitions") = true)
    (fields : List (String × Val)) (hprops : propertiesShaped g (.obj fields) = true)
    (property : String) (hmem : property ∈ fields.map Prod.fst)
    (st : RefsArray × Bool) (hrefs : RefsShaped g true st.1) :
    ∃ st', scanProperty g api (.obj fields) st property = .ok st' ∧
      RefsShaped g true st'.1 ∧ KeysSubset st.1.entries st'.1.entries := by
  have hp : schemaShaped g (lookup property fields) = true :=
    List.all_eq_true.mp hprops _ (lookup_mem_of_mem_keys property fields hmem)
  simp only [schemaShaped, refShaped, Bool.and_eq_true] at hp
  obtain ⟨⟨hpobj, href⟩, hitems⟩ := hp
  have h1 : get (.obj fields) property = .ok (lookup property fields) := rfl
  simp only [scanProperty, bind, Except.bind, h1, get_eq_peek_of_isObject _ "$ref" hpobj,
    get_eq_peek_of_isObject _ "items" hpobj, pure, Except.pure]
  generalize lookup property fields = p at hpobj href hitems
  by_cases htr : truthy (peek p "$ref") = true
  · obtain ⟨name, hname, hnl⟩ := refNamed_ok g _ (optional_truthy _ _ href htr)
    simp only [htr, if_true, hname]
    exact addIfMissing_shaped g api hapi hdefs hobj st name hnl hrefs
  · simp only [htr, Bool.false_eq_true, if_false]
    by_cases hti : truthy (peek p "items") = true
    · have hi := optional_truthy _ _ hitems hti
      simp only [refShaped, Bool.and_eq_true] at hi
      simp only [hti, if_true, get_eq_peek_of_isObject _ "$ref" hi.1]
      by_cases htir : truthy (peek (peek p "items") "$ref") = true
      · obtain ⟨name, hname, hnl⟩ := refNamed_ok g _ (optional_truthy _ _ hi.2 htir)
        simp only [htir, if_true, hname]
        exact addIfMissing_shaped g api hapi hdefs hobj st name hnl hrefs
      · simp only [htir, Bool.false_eq_true, if_false]
        exact ⟨st, rfl, hrefs, fun _ hk => hk⟩
    · simp only [hti, Bool.false_eq_true, if_false]
      exact ⟨st, rfl, hrefs, fun _ hk => hk⟩

theorem scanSchema_shaped (g : GenUtils) (api : Val) (hapi : isObject api = true)
    (hdefs : optional (definitionsShaped g) (peek api "definitions") = true)
    (st : RefsArray × Bool) (schema : String) (hkey : schema ∈ st.1.entries.map Prod.fst)
    (hrefs : RefsShaped g (isObject (peek api "definitions")) st.1) :
    ∃ st', scanSchema g api st schema = .ok st' ∧
      RefsShaped g (isObject (peek api "definitions")) st'.1 ∧
      KeysSubset st.1.entries st'.1.entries := by
  have hobj : isObject (peek api "definitions") = true := by
    rcases hrefs.2 with h | h
    · exact h
    · rw [h] at hkey; simp at hkey
  have hskip : ∃ st', (pure st : Except Err (RefsArray × Bool)) = .ok st' ∧
      RefsShaped g (isObject (peek api "definitions")) st'.1 ∧
      KeysSubset st.1.entries st'.1.entries := ⟨st, rfl, hrefs, fun _ hk => hk⟩
  simp only [scanSchema, bind, Except.bind]
  by_cases hlen : schema = "length"
  · subst hlen
    simp only [readRefs, if_true, get]
    split
    · simp only [truthy, Bool.false_eq_true, if_false]
      exact hskip
    · exact hskip
  · have hread : readRefs g.engine st.1 schema = lookup schema st.1.entries := by
      simp only [readRefs, hlen, if_false, (hasOwn_iff _ _).mpr hkey, if_true]
    rw [hread]
    by_cases htd : truthy (lookup schema st.1.entries) = true
    · have hrec := hrefs.1 schema
      simp only [recordedShaped, htd, Bool.not_true, Bool.false_or, Bool.or_eq_true] at hrec
      rcases hrec with hb | hd
      · cases hv : lookup schema st.1.entries with
        | builtin b =>
          simp only [truthy, if_true, get, Bool.false_eq_true, if_false]
          exact hskip
        | _ => rw [hv] at hb; simp [isBuiltin] at hb
      · rw [hobj] at hrefs ⊢
        simp only [definitionShaped, Bool.and_eq_true] at hd
        obtain ⟨hdobj, hprops⟩ := hd
        simp only [htd, if_true, get_eq_peek_of_isObject _ "properties" hdobj]
        by_cases htp : truthy (peek (lookup schema st.1.entries) "properties") = true
        · have hps := optional_truthy _ _ hprops htp
          simp only [htp, if_true]
          cases hpr : peek (lookup schema st.1.entries) "properties" with
          | obj fields =>
            rw [hpr] at hps
            simp only [keys]
            obtain ⟨t, ht, ht1, ht2⟩ := forEach_ok
              (fun s : RefsArray × Bool => RefsShaped g true s.1 ∧
                KeysSubset st.1.entries s.1.entries)
              (scanProperty g api (.obj fields)) (fields.map Prod.fst)
              (fun s property hmem hs => by
                obtain ⟨s', hs1, hs2, hs3⟩ :=
                  scanProperty_shaped g api hapi hdefs hobj fields hps property hmem s hs.1
                exact ⟨s', hs1, hs2, fun k hk => hs3 k (hs.2 k hk)⟩)
              st ⟨hrefs, fun _ hk => hk⟩
            exact ⟨t, ht, ht1, ht2⟩
          | _ => rw [hpr] at hps; simp [propertiesShaped] at hps
        · simp only [htp, Bool.false_eq_true, if_false]
          exact ⟨st, rfl, hrefs, fun _ hk => hk⟩
    · simp only [htd, Bool.false_eq_true, if_false]
      exact hskip

theorem closurePass_shaped (g : GenUtils) (api : Val) (hapi : isObject api = true)
    (hdefs : optional (definitionsShaped g) (peek api "definitions") = true)
    (refs : RefsArray) (hrefs : RefsShaped g (isObject (peek api "definitions")) refs) :
    ∃ st', closurePass g api refs = .ok st' ∧
      RefsShaped g (isObject (peek api "definitions")) st'.1 := by
  obtain ⟨t, ht, ht1, _⟩ := forEach_ok
    (fun s : RefsArray × Bool => RefsShaped g (isObject (peek api "definitions")) s.1 ∧
      KeysSubset refs.entries s.1.entries)
    (scanSchema g api) (refs.entries.map Prod.fst)
    (fun s schema hmem hs => by
      obtain ⟨s', hs1, hs2, hs3⟩ :=
        scanSchema_shaped g api hapi hdefs s schema (hs.2 schema hmem) hs.1
      exact ⟨s', hs1, hs2, fun k hk => hs3 k (hs.2 k hk)⟩)
    (refs, false) ⟨hrefs, fun _ hk => hk⟩
  exact ⟨t, ht, ht1⟩

theorem closure_shaped (g : GenUtils) (api : Val) (hapi : isObject api = true)
    (hdefs : optional (definitionsShaped g) (peek api "definitions") = true) (fuel : Nat) :
    ∀ refs, RefsShaped g (isObject (peek api "definitions")) refs →
      ∀ e, closure g api fuel refs ≠ some (.error e) := by
  induction fuel with
  | zero => intro refs _ e h; simp [closure] at h
  | succ n ih =>
    intro refs hrefs e
    obtain ⟨st', hpass, hs⟩ := closurePass_shaped g api hapi hdefs refs hrefs
    obtain ⟨refs', found⟩ := st'
    unfold closure
    simp only [hpass]
    cases found with
    | true => simpa using ih refs' hs e
    | false => simp

/-- C9, as the code has it. On a document of the expected shape (`wellShaped`: `paths` is a
mapping whose path items, operations, parameters, responses and schemas are objects of the
expected shape, every `$ref` is a string that `getRefName` names, with a name other than
`length`, `definitions`, when present, is an object of definitions with properties of the
expected shape, and a document without a `definitions` object holds no reference in a
parameter or response schema) in which no path that declares a supported verb has a
resource name that `Object.prototype` answers (`ordinaryResources`), `parseSwagger` raises no
exception, whatever the number of passes. -/
theorem extraction_raises_nothing (g : GenUtils) (api : Val)
    (hshape : wellShaped g api = true) (hres : ordinaryResources g api = true)
    (fuel : Nat) (e : Err) :
    parseSwagger g fuel api ≠ some (.error e) := by
  obtain ⟨st, hw, hrefs⟩ := walkPaths_shaped g api hshape hres
  simp only [wellShaped, Bool.and_eq_true] at hshape
  obtain ⟨⟨hapi, _⟩, hdefs⟩ := hshape
  have hb : basePathOf api = .ok (if truthy (peek api "basePath") then peek api "basePath"
      else .undefined) := by
    simp [basePathOf, bind, Except.bind, get_eq_peek_of_isObject api "basePath" hapi, pure,
      Except.pure]
  obtain ⟨resources, refs0⟩ := st
  have hc := closure_shaped g api hapi hdefs fuel refs0 hrefs
  unfold parseSwagger
  simp only [hb, hw]
  cases hcl : closure g api fuel refs0 with
  | none => simp
  | some out =>
    cases out with
    | error e' => exact absurd hcl (hc e')
    | ok refs' => simp

theorem extraction_raises_nothing_witness :
    wellShaped genUtils widgetDoc = true ∧ ordinaryResources genUtils widgetDoc = true ∧
    parseSwagger genUtils 2 widgetDoc ≠ some (.error .typeError) :=
  ⟨by decide, by decide,
    extraction_raises_nothing genUtils widgetDoc (by decide) (by decide) 2 .typeError⟩

/-- C9 fails as stated: `noDefinitionsDoc` has a `paths` mapping whose path item, operation,
parameter and schema are objects of the expected shape, and no `definitions` section; the
parameter reference makes line 109 read a property of `undefined`, a `TypeError`. -/
theorem reference_without_definitions_raises :
    pathsShaped genUtils true (peek noDefinitionsDoc "paths") = true ∧
    ordinaryResources genUtils noDefinitionsDoc = true ∧
    peek noDefinitionsDoc "definitions" = .undefined ∧
    parseSwagger genUtils 1 noDefinitionsDoc = some (.error .typeError) :=
  ⟨by decide, by decide, by rfl, by rfl⟩

/-- The name `length` is set apart in C9: on `lengthNameDoc`, whose `200` response refers to
a definition named `length`, line 130 assigns an object to the `length` of the array `refs`,
a `RangeError`. -/
theorem length_reference_raises :
    parseSwagger genUtils 1 lengthNameDoc = some (.error .rangeError) := by
  rfl

/-! ## C11: a document without references -/

theorem usedSchemaShaped_false (g : GenUtils) (v : Val)
    (h : usedSchemaShaped g false v = true) :
    isObject v = true ∧ truthy (peek v "$ref") = false ∧
      optional (refShaped g) (peek v "items") = true ∧
      truthy (peek (peek v "items") "$ref") = false := by
  simp only [usedSchemaShaped, schemaShaped, refShaped, Bool.and_eq_true, Bool.or_eq_true,
    Bool.not_eq_true', Bool.false_eq_true, false_or] at h
  exact ⟨h.1.1.1, h.2.1, h.1.2, h.2.2⟩

/-- A parameter whose schema holds no reference leaves `refs` alone. -/
theorem scanParameter_noRef (g : GenUtils) (api : Val) (p : Val)
    (hp : holderShaped g false p = true) (refs : RefsArray) :
    scanParameter g api refs p = .ok refs := by
  simp only [holderShaped, Bool.and_eq_true] at hp
  obtain ⟨hobj, hschema⟩ := hp
  simp only [scanParameter, bind, Except.bind, get_eq_peek_of_isObject p "schema" hobj,
    pure, Except.pure]
  by_cases hts : truthy (peek p "schema") = true
  · obtain ⟨hsobj, href, hitems, hiref⟩ :=
      usedSchemaShaped_false g _ (optional_truthy _ _ hschema hts)
    simp only [hts, if_true, get_eq_peek_of_isObject _ "$ref" hsobj,
      get_eq_peek_of_isObject _ "items" hsobj, href, Bool.false_eq_true, if_false]
    by_cases hti : truthy (peek (peek p "schema") "items") = true
    · have hi := optional_truthy _ _ hitems hti
      simp only [refShaped, Bool.and_eq_true] at hi
      simp only [hti, if_true, get_eq_peek_of_isObject _ "$ref" hi.1, hiref,
        Bool.false_eq_true, if_false]
    · simp only [hti, Bool.false_eq_true, if_false]
  · simp only [hts, Bool.false_eq_true, if_false]

/-- A response whose schema holds no reference leaves `refs` alone. -/
theorem scanResponse_noRef (g : GenUtils) (api op : Val) (hop : truthy op = true)
    (hresponses : optional (responsesShaped g false) (peek op "responses") = true)
    (responseType : String) (hrt : responseType ∈ ["200", "default"]) (refs : RefsArray) :
    scanResponse g api op refs responseType = .ok refs := by
  simp only [scanResponse, bind, Except.bind, get_eq_peek_of_truthy op "responses" hop,
    pure, Except.pure]
  by_cases htrs : truthy (peek op "responses") = true
  · have hr := optional_truthy _ _ hresponses htrs
    simp only [responsesShaped, Bool.and_eq_true] at hr
    obtain ⟨⟨hrobj, h200⟩, hdefault⟩ := hr
    have hresp : optional (holderShaped g false) (peek (peek op "responses") responseType)
        = true := by
      simp only [List.mem_cons, List.mem_singleton, List.mem_nil_iff, or_false] at hrt
      rcases hrt with rfl | rfl
      · exact h200
      · exact hdefault
    simp only [htrs, if_true, get_eq_peek_of_isObject _ responseType hrobj]
    by_cases htr : truthy (peek (peek op "responses") responseType) = true
    · have hh := optional_truthy _ _ hresp htr
      simp only [holderShaped, Bool.and_eq_true] at hh
      obtain ⟨hobj, hschema⟩ := hh
      simp only [htr, if_true, get_eq_peek_of_isObject _ "schema" hobj]
      generalize peek (peek op "responses") responseType = response at hobj hschema
      by_cases hts : truthy (peek response "schema") = true
      · obtain ⟨hsobj, href, hitems, hiref⟩ :=
          usedSchemaShaped_false g _ (optional_truthy _ _ hschema hts)
        simp only [hts, if_true, get_eq_peek_of_isObject _ "$ref" hsobj,
          get_eq_peek_of_isObject _ "items" hsobj, get_eq_peek_of_isObject _ "type" hsobj,
          href, Bool.false_eq_true, if_false]
        by_cases hty : (truthy (peek (peek response "schema") "type") &&
            isStr (peek (peek response "schema") "type") "array") = true
        · simp only [hty, if_true]
          by_cases hti : truthy (peek (peek response "schema") "items") = true
          · have hi := optional_truthy _ _ hitems hti
            simp only [refShaped, Bool.and_eq_true] at hi
            simp only [hti, if_true, get_eq_peek_of_isObject _ "$ref" hi.1, hiref,
              Bool.false_eq_true, if_false]
          · simp only [hti, Bool.false_eq_true, if_false]
        · simp only [hty, Bool.false_eq_true, if_false]
      · simp only [hts, Bool.false_eq_true, if_false]
    · simp only [htr, Bool.false_eq_true, if_false]
  · simp only [htrs, Bool.false_eq_true, if_false]

theorem scanVerb_noRef (g : GenUtils) (api : Val) (hapi : isObject api = true)
    (fields : List (String × Val)) (hpaths : peek api "paths" = .obj fields)
    (hshape : pathsShaped g false (.obj fields) = true)
    (path resource : String) (hpath : path ∈ fields.map Prod.fst)
    (hres : presentVerbs g (lookup path fields) ≠ [] →
      g.engine.member "Object.prototype" resource = false)
    (verb : String) (hverb : verb ∈ g.verbs) (st : Resources × RefsArray) :
    ∃ st', scanVerb g api path resource st verb = .ok st' ∧ st'.2 = st.2 := by
  have hitem : pathItemShaped g false (lookup path fields) = true :=
    List.all_eq_true.mp hshape _ (lookup_mem_of_mem_keys path fields hpath)
  simp only [pathItemShaped, Bool.and_eq_true] at hitem
  obtain ⟨hiobj, hverbs⟩ := hitem
  have hopt := List.all_eq_true.mp hverbs verb hverb
  have h1 : get api "paths" = .ok (.obj fields) := by
    rw [get_eq_peek_of_isObject api "paths" hapi, hpaths]
  have h2 : get (.obj fields) path = .ok (lookup path fields) := rfl
  have h3 := readProp_eq_peekProp_of_truthy g (lookup path fields) verb
    (truthy_of_isObject _ hiobj)
  simp only [scanVerb, bind, Except.bind, h1, h2, h3, pure, Except.pure]
  by_cases hto : truthy (peekProp g (lookup path fields) verb) = true
  · have hop := optional_truthy _ _ hopt hto
    simp only [operationShaped, Bool.and_eq_true] at hop
    obtain ⟨⟨_, hparams⟩, hresponses⟩ := hop
    have hpresent : presentVerbs g (lookup path fields) ≠ [] := by
      intro hnil
      have : verb ∈ presentVerbs g (lookup path fields) := by
        simp only [presentVerbs, List.mem_filter]
        exact ⟨hverb, hto⟩
      rw [hnil] at this
      simp at this
    obtain ⟨res', hpush⟩ := pushRoute_ok g st.1 resource
      ⟨verb, g.convertToSwiftParameterFormat path⟩ (hres hpresent)
    have hpar : scanParameters g api (peekProp g (lookup path fields) verb) st.2 =
        .ok st.2 := by
      simp only [scanParameters, bind, Except.bind,
        get_eq_peek_of_truthy _ "parameters" hto, pure, Except.pure]
      by_cases htp : truthy (peek (peekProp g (lookup path fields) verb) "parameters") = true
      · have hps := optional_truthy _ _ hparams htp
        simp only [htp, if_true]
        cases hpv : peek (peekProp g (lookup path fields) verb) "parameters" with
        | arr ps =>
          rw [hpv] at hps
          simp only [parametersShaped] at hps
          exact forEach_fixed _ ps st.2 (fun p hmem =>
            scanParameter_noRef g api p (List.all_eq_true.mp hps p hmem) st.2)
        | _ => rw [hpv] at hps; simp [parametersShaped] at hps
      · simp only [htp, Bool.false_eq_true, if_false]
    have hresp : forEach ["200", "default"]
        (scanResponse g api (peekProp g (lookup path fields) verb)) st.2 = .ok st.2 :=
      forEach_fixed _ _ st.2 (fun rt hmem =>
        scanResponse_noRef g api _ hto hresponses rt hmem st.2)
    simp only [hto, if_true, hpush, hpar, hresp]
    exact ⟨_, rfl, rfl⟩
  · simp only [hto, Bool.false_eq_true, if_false]
    exact ⟨st, rfl, rfl⟩

theorem walkPaths_noRef (g : GenUtils) (api : Val) (hapi : isObject api = true)
    (hpaths : pathsShaped g false (peek api "paths") = true)
    (hres : ordinaryResources g api = true) :
    ∃ resources, walkPaths g api = .ok (resources, emptyRefs) := by
  cases hp : peek api "paths" with
  | obj fields =>
    rw [hp] at hpaths
    have h1 : get api "paths" = .ok (.obj fields) := by
      rw [get_eq_peek_of_isObject api "paths" hapi, hp]
    have hkeys : pathKeys api = fields.map Prod.fst := by
      simp [pathKeys, hp, keys]
    have hordinary : ∀ path ∈ fields.map Prod.fst,
        presentVerbs g (lookup path fields) ≠ [] →
          g.engine.member "Object.prototype" (g.resourceNameFromPath path) = false := by
      intro path hpath hne
      simp only [ordinaryResources, hkeys, hp] at hres
      have := List.all_eq_true.mp hres path hpath
      have hpk : peek (Val.obj fields) path = lookup path fields := rfl
      simp only [hpk, Bool.or_eq_true, List.isEmpty_iff, Bool.not_eq_true'] at this
      rcases this with h | h
      · exact absurd h hne
      · exact h
    simp only [walkPaths, bind, Except.bind, h1, keys]
    obtain ⟨st, hst, hrefs⟩ := forEach_ok (fun s : Resources × RefsArray => s.2 = emptyRefs)
      (scanPath g api) (fields.map Prod.fst)
      (fun s path hpath hs =>
        forEach_ok (fun s : Resources × RefsArray => s.2 = emptyRefs)
          (scanVerb g api path (g.resourceNameFromPath path)) g.verbs
          (fun a verb hverb ha => by
            obtain ⟨b, hb, hb2⟩ :=
              scanVerb_noRef g api hapi fields hp hpaths path _ hpath (hordinary path hpath)
                verb hverb a
            exact ⟨b, hb, hb2.trans ha⟩) s hs)
      ([], emptyRefs) rfl
    obtain ⟨resources, refs⟩ := st
    simp only at hrefs
    subst hrefs
    exact ⟨resources, hst⟩
  | _ => rw [hp] at hpaths; simp [pathsShaped] at hpaths

/-- Apart from the resource names that `Object.prototype` answers, C11 holds. On a document
of the expected shape whose parameter and response schemas hold no `$ref` (neither directly
nor in `items`) and in which no path that declares a supported verb has such a resource name,
`parseSwagger` returns as soon as one pass of the loop is allowed, with a `refs` that has no
key and with `resources` equal to the reference list of the declared paths and verbs. No use
is made of `definitions`: the statement holds in particular when the section is absent or
empty. -/
theorem ordinary_paths_no_reference_no_refs (g : GenUtils) (api : Val)
    (hapi : isObject api = true) (hpaths : pathsShaped g false (peek api "paths") = true)
    (hres : ordinaryResources g api = true) (fuel : Nat) :
    ∃ r, parseSwagger g (fuel + 1) api = some (.ok r) ∧ r.refs = [] ∧
      ∀ resource, routesOf resource r.resources =
        listOrAbsent (expectedRoutes g api resource) := by
  obtain ⟨resources, hw⟩ := walkPaths_noRef g api hapi hpaths hres
  have hb : basePathOf api = .ok (if truthy (peek api "basePath") then peek api "basePath"
      else .undefined) := by
    simp [basePathOf, bind, Except.bind, get_eq_peek_of_isObject api "basePath" hapi, pure,
      Except.pure]
  have hc : closure g api (fuel + 1) emptyRefs = some (.ok emptyRefs) := rfl
  refine ⟨⟨if truthy (peek api "basePath") then peek api "basePath" else .undefined,
    resources, [], 0, .builtin "Array.prototype"⟩, ?_, rfl, ?_⟩
  · simp only [parseSwagger, hb, hw, hc]
    rfl
  · intro resource
    exact walkPaths_routesOf g api _ hw resource

theorem parseSwagger_plainDoc : parseSwagger genUtils 1 plainDoc = some (.ok plainParsed) := by
  rfl

/-- C11, the failing case. `protoPathDoc` has no `definitions` and no `$ref`, and its only
path, `/__proto__`, declares `get`. The resource name is `__proto__`: the test
`!resources['__proto__']` of line 93 is answered by `Object.prototype`, so no array is
created, and the `push` of line 99 is called on `Object.prototype`, which has none:
`parseSwagger` raises a `TypeError` and returns neither `refs` nor `resources`. -/
theorem proto_path_raises :
    isObject protoPathDoc = true ∧
    pathsShaped genUtils false (peek protoPathDoc "paths") = true ∧
    peek protoPathDoc "definitions" = .undefined ∧
    genUtils.resourceNameFromPath "/__proto__" = "__proto__" ∧
    expectedRoutes genUtils protoPathDoc "__proto__" = [⟨"get", "/__proto__"⟩] ∧
    ∀ fuel, parseSwagger genUtils fuel protoPathDoc = some (.error .typeError) := by
  refine ⟨by decide, by decide, by rfl, by rfl, by rfl, fun fuel => ?_⟩
  have hb : basePathOf protoPathDoc = .ok .undefined := by rfl
  have hw : walkPaths genUtils protoPathDoc = .error .typeError := by rfl
  simp only [parseSwagger, hb, hw]

/-! ## C19: the variable `ref` in the array branch of the parameter callback -/

/-- C19, as the code has it. For every parameter whose schema has no `$ref` but has an
`items.$ref`, and whatever `refs` holds from the parameters processed before, the callback
executes `refs[ref] = api.definitions[ref]` with `ref` undefined: the key is the string
`undefined`, never a name left by an earlier parameter and never the name in
`parameter.schema.items.$ref`. -/
theorem array_branch_uses_undefined (g : GenUtils) (api : Val) (refs : RefsArray)
    (parameter schema rv items ir : Val)
    (hs : get parameter "schema" = .ok schema) (hr : get schema "$ref" = .ok rv)
    (hrv : truthy rv = false) (hi : get schema "items" = .ok items)
    (hir : get items "$ref" = .ok ir) (htir : truthy ir = true) :
    scanParameter g api refs parameter = record g api refs "undefined" := by
  have hti : truthy items = true := truthy_of_get items ir "$ref" hir htir
  have hts : truthy schema = true := truthy_of_get schema items "items" hi hti
  simp [scanParameter, bind, Except.bind, hs, hts, hr, hrv, hi, hti, hir, htir]

theorem array_branch_uses_undefined_witness :
    get betaArrayParameter "schema" =
      .ok (.obj [("type", .str "array"), ("items", refTo "#/definitions/Beta")]) ∧
    scanParameter genUtils twoParametersDoc
        ⟨[("Alpha", alphaDef)], 0, .builtin "Array.prototype"⟩ betaArrayParameter =
      record genUtils twoParametersDoc
        ⟨[("Alpha", alphaDef)], 0, .builtin "Array.prototype"⟩ "undefined" :=
  ⟨rfl, array_branch_uses_undefined genUtils twoParametersDoc
    ⟨[("Alpha", alphaDef)], 0, .builtin "Array.prototype"⟩
    betaArrayParameter (.obj [("type", .str "array"), ("items", refTo "#/definitions/Beta")])
    .undefined (refTo "#/definitions/Beta") (.str "#/definitions/Beta")
    rfl rfl rfl rfl rfl rfl⟩

/-- C19 fails as stated: after the parameter that refers to `Alpha`, the array parameter does
not record `definitions["Alpha"]` under `Alpha` again (which would leave `refs` with the
single key `Alpha`); it adds the key `undefined`. -/
theorem stale_name_not_reused :
    scanParameter genUtils twoParametersDoc emptyRefs alphaParameter =
      .ok ⟨[("Alpha", alphaDef)], 0, .builtin "Array.prototype"⟩ ∧
    scanParameter genUtils twoParametersDoc
        ⟨[("Alpha", alphaDef)], 0, .builtin "Array.prototype"⟩ betaArrayParameter =
      .ok ⟨[("Alpha", alphaDef), ("undefined", .undefined)], 0, .builtin "Array.prototype"⟩ ∧
    record genUtils twoParametersDoc
        ⟨[("Alpha", alphaDef)], 0, .builtin "Array.prototype"⟩ "Alpha" =
      .ok ⟨[("Alpha", alphaDef)], 0, .builtin "Array.prototype"⟩ ∧
    (∃ r, parseSwagger genUtils 1 twoParametersDoc = some (.ok r) ∧
      r.refs.map Prod.fst = ["Alpha", "undefined"]) :=
  ⟨by rfl, by rfl, by rfl,
    ⟨⟨.undefined, [("pairs", [⟨"post", "/pairs"⟩])],
      [("Alpha", alphaDef), ("undefined", .undefined)], 0, .builtin "Array.prototype"⟩,
      by rfl, by decide⟩⟩

/-! ## C17 and C18: what the result depends on -/

theorem record_congr (g : GenUtils) (api api' : Val)
    (hd : get api "definitions" = get api' "definitions") : record g api = record g api' := by
  funext refs ref
  simp only [record, hd]

theorem scanParameter_congr (g : GenUtils) (api api' : Val)
    (hd : get api "definitions" = get api' "definitions") :
    scanParameter g api = scanParameter g api' := by
  funext refs parameter
  simp only [scanParameter, record_congr g api api' hd]

theorem scanParameters_congr (g : GenUtils) (api api' op op' : Val)
    (hd : get api "definitions" = get api' "definitions")
    (hp : get op "parameters" = get op' "parameters") (refs : RefsArray) :
    scanParameters g api op refs = scanParameters g api' op' refs := by
  simp only [scanParameters, hp, scanParameter_congr g api api' hd]

/-- The response callback only depends on the response that it reads. -/
theorem scanResponse_of_responseAt (g : GenUtils) (api op : Val) (refs : RefsArray)
    (responseType : String) :
    scanResponse g api op refs responseType =
      match responseAt op responseType with
      | .error e => .error e
      | .ok response =>
        scanResponse g api (.obj [("responses", .obj [(responseType, response)])]) refs
          responseType := by
  have h1 : ∀ response : Val,
      get (.obj [("responses", .obj [(responseType, response)])]) "responses" =
        .ok (.obj [(responseType, response)]) := by
    intro response; simp [get, lookup]
  have h2 : ∀ response : Val, truthy (.obj [(responseType, response)]) = true :=
    fun _ => rfl
  have h3 : ∀ response : Val,
      get (.obj [(responseType, response)]) responseType = .ok response := by
    intro response; simp [get, lookup]
  have hu : truthy .undefined = false := rfl
  cases hr : get op "responses" with
  | error e => simp only [scanResponse, responseAt, bind, Except.bind, hr]
  | ok responses =>
    by_cases ht : truthy responses = true
    · cases hresp : get responses responseType with
      | error e => simp only [scanResponse, responseAt, bind, Except.bind, hr, ht, hresp, if_true]
      | ok response =>
        simp only [scanResponse, responseAt, bind, Except.bind, hr, ht, hresp, h1, h2, h3,
          if_true]
    · simp only [scanResponse, responseAt, bind, Except.bind, hr, ht, h1, h2, h3, hu,
        Bool.false_eq_true, if_false, if_true, pure, Except.pure]

theorem scanResponse_congr (g : GenUtils) (api api' op op' : Val)
    (hd : get api "definitions" = get api' "definitions") (responseType : String)
    (hr : responseAt op responseType = responseAt op' responseType) (refs : RefsArray) :
    scanResponse g api op refs responseType = scanResponse g api' op' refs responseType := by
  have hapi : ∀ o, scanResponse g api o refs responseType =
      scanResponse g api' o refs responseType := by
    intro o
    simp only [scanResponse, record_congr g api api' hd]
  rw [scanResponse_of_responseAt g api op, scanResponse_of_responseAt g api' op', hr]
  cases responseAt op' responseType with
  | error e => rfl
  | ok response => exact hapi _
/-- The verb callback only depends on the operation that it reads. -/
theorem scanVerb_of_opAt (g : GenUtils) (api : Val) (path resource verb : String)
    (st : Resources × RefsArray) :
    scanVerb g api path resource st verb =
      match opAt g api path verb with
      | .error e => .error e
      | .ok op =>
        if truthy op then
          match pushRoute g st.1 resource ⟨verb, g.convertToSwiftParameterFormat path⟩ with
          | .error e => .error e
          | .ok resources =>
            match scanParameters g api op st.2 with
            | .error e => .error e
            | .ok refs1 =>
              match forEach ["200", "default"] (scanResponse g api op) refs1 with
              | .error e => .error e
              | .ok refs2 => .ok (resources, refs2)
        else .ok st := by
  cases hp : get api "paths" with
  | error e => simp only [scanVerb, opAt, bind, Except.bind, hp]
  | ok paths =>
    cases hi : get paths path with
    | error e => simp only [scanVerb, opAt, bind, Except.bind, hp, hi]
    | ok item =>
      cases ho : readProp g.engine item verb with
      | error e => simp only [scanVerb, opAt, bind, Except.bind, hp, hi, ho]
      | ok op =>
        simp only [scanVerb, opAt, bind, Except.bind, hp, hi, ho, pure, Except.pure]
        cases truthy op with
        | false => rfl
        | true =>
          simp only [if_true]
          cases pushRoute g st.1 resource ⟨verb, g.convertToSwiftParameterFormat path⟩ with
          | error e => rfl
          | ok resources =>
            simp only
            cases scanParameters g api op st.2 with
            | error e => rfl
            | ok refs1 =>
              simp only
              cases forEach ["200", "default"] (scanResponse g api op) refs1 with
              | error e => rfl
              | ok refs2 => rfl

theorem scanVerb_congr (g : GenUtils) (api api' : Val)
    (hd : get api "definitions" = get api' "definitions") (path resource verb : String)
    (hop : SameOperation (opAt g api path verb) (opAt g api' path verb))
    (st : Resources × RefsArray) :
    scanVerb g api path resource st verb = scanVerb g api' path resource st verb := by
  rw [scanVerb_of_opAt g api, scanVerb_of_opAt g api']
  cases ha : opAt g api path verb with
  | error e =>
    cases hb : opAt g api' path verb with
    | error e' =>
      rw [ha, hb] at hop
      simp only [SameOperation] at hop
      simp only [hop]
    | ok op' =>
      rw [ha, hb] at hop
      simp only [SameOperation] at hop
  | ok op =>
    cases hb : opAt g api' path verb with
    | error e' =>
      rw [ha, hb] at hop
      simp only [SameOperation] at hop
    | ok op' =>
      rw [ha, hb] at hop
      simp only [SameOperation] at hop
      obtain ⟨ht, hrest⟩ := hop
      simp only
      by_cases hto : truthy op = true
      · obtain ⟨hpar, h200, hdefault⟩ := hrest hto
        have hto' : truthy op' = true := ht ▸ hto
        simp only [hto, hto', if_true, scanParameters_congr g api api' op op' hd hpar]
        cases pushRoute g st.1 resource ⟨verb, g.convertToSwiftParameterFormat path⟩ with
        | error e => rfl
        | ok resources =>
          simp only
          cases scanParameters g api' op' st.2 with
          | error e => rfl
          | ok refs1 =>
            simp only
            rw [forEach_congr (scanResponse g api op) (scanResponse g api' op')
              ["200", "default"]
              (fun rt hrt s => by
                simp only [List.mem_cons, List.mem_singleton, List.mem_nil_iff,
                  or_false] at hrt
                rcases hrt with rfl | rfl
                · exact scanResponse_congr g api api' op op' hd "200" h200 s
                · exact scanResponse_congr g api api' op op' hd "default" hdefault s)
              refs1]
      · have hto' : ¬ truthy op' = true := ht ▸ hto
        simp only [hto, hto', Bool.false_eq_true, if_false]

theorem walkPaths_congr (g : GenUtils) (api api' : Val)
    (hd : get api "definitions" = get api' "definitions")
    (hk : pathKeysOf api = pathKeysOf api')
    (hops : ∀ ks, pathKeysOf api = .ok ks → ∀ path ∈ ks, ∀ verb ∈ g.verbs,
      SameOperation (opAt g api path verb) (opAt g api' path verb)) :
    walkPaths g api = walkPaths g api' := by
  have hw : ∀ a : Val, walkPaths g a =
      match pathKeysOf a with
      | .error e => .error e
      | .ok ks => forEach ks (scanPath g a) ([], emptyRefs) := by
    intro a
    cases hp : get a "paths" with
    | error e => simp only [walkPaths, pathKeysOf, bind, Except.bind, hp]
    | ok paths =>
      cases hks : keys paths with
      | error e => simp only [walkPaths, pathKeysOf, bind, Except.bind, hp, hks]
      | ok ks => simp only [walkPaths, pathKeysOf, bind, Except.bind, hp, hks]
  rw [hw api, hw api', ← hk]
  cases hks : pathKeysOf api with
  | error e => rfl
  | ok ks =>
    simp only
    exact forEach_congr _ _ ks
      (fun path hpath s =>
        forEach_congr _ _ g.verbs
          (fun verb hverb a =>
            scanVerb_congr g api api' hd path _ verb (hops ks hks path hpath verb hverb) a)
          s)
      ([], emptyRefs)

theorem closure_congr (g : GenUtils) (api api' : Val)
    (hd : get api "definitions" = get api' "definitions") (fuel : Nat) (refs : RefsArray) :
    closure g api fuel refs = closure g api' fuel refs := by
  have hadd : addIfMissing g api = addIfMissing g api' := by
    funext st name
    simp only [addIfMissing, record_congr g api api' hd]
  have hprop : scanProperty g api = scanProperty g api' := by
    funext properties st property
    simp only [scanProperty, hadd]
  have hschema : scanSchema g api = scanSchema g api' := by
    funext st schema
    simp only [scanSchema, hprop]
  have hpass : closurePass g api = closurePass g api' := by
    funext r
    simp only [closurePass, hschema]
  induction fuel generalizing refs with
  | zero => rfl
  | succ n ih =>
    simp only [closure, hpass]
    cases closurePass g api' refs with
    | error e => rfl
    | ok st =>
      obtain ⟨refs', found⟩ := st
      cases found with
      | true => simpa using ih refs'
      | false => rfl

/-- Two documents with the same base path, the same walk over the paths and the same
definitions have the same outcome. -/
theorem parseSwagger_of_parts (g : GenUtils) (fuel : Nat) (api api' : Val)
    (hb : get api "basePath" = get api' "basePath")
    (hd : get api "definitions" = get api' "definitions")
    (hw : walkPaths g api = walkPaths g api') :
    parseSwagger g fuel api = parseSwagger g fuel api' := by
  have hbase : basePathOf api = basePathOf api' := by simp only [basePathOf, hb]
  simp only [parseSwagger, hbase, hw, closure_congr g api api' hd]
theorem sameOperation_of_eq (a b : Except Err Val) (h : a = b) : SameOperation a b := by
  subst h
  cases a with
  | error e => simp only [SameOperation]
  | ok op => exact ⟨rfl, fun _ => ⟨rfl, rfl, rfl⟩⟩

/-- Responses under codes other than `200` and `default` are not read (the second sentence
of C17). Two documents that agree on the base path, the definitions, the path keys and, for
every path and supported verb, on what the extractor reads of the operation (its
truthiness, its `parameters`, its `200` response and its `default` response) have the same
outcome: the responses under other codes can be changed or deleted without changing the
Parsed Result, so a definition that only such a response refers to is recorded in neither
or in both. -/
theorem other_response_codes_ignored (g : GenUtils) (fuel : Nat) (api api' : Val)
    (hb : get api "basePath" = get api' "basePath")
    (hd : get api "definitions" = get api' "definitions")
    (hk : pathKeysOf api = pathKeysOf api')
    (hops : ∀ ks, pathKeysOf api = .ok ks → ∀ path ∈ ks, ∀ verb ∈ g.verbs,
      SameOperation (opAt g api path verb) (opAt g api' path verb)) :
    parseSwagger g fuel api = parseSwagger g fuel api' :=
  parseSwagger_of_parts g fuel api api' hb hd (walkPaths_congr g api api' hd hk hops)

theorem widgetDocAlt_sameOperations (ks : List String)
    (hks : pathKeysOf widgetDoc = .ok ks) :
    ∀ path ∈ ks, ∀ verb ∈ genUtils.verbs,
      SameOperation (opAt genUtils widgetDoc path verb) (opAt genUtils widgetDocAlt path verb) := by
  have hkeys : pathKeysOf widgetDoc = .ok ["/widgets", "/widgets/{id}"] := rfl
  rw [hkeys] at hks
  cases hks
  intro path hpath verb hverb
  simp only [List.mem_cons, List.mem_singleton, List.mem_nil_iff, or_false] at hpath
  simp only [genUtils, verbs, List.mem_cons, List.mem_singleton, List.mem_nil_iff,
    or_false] at hverb
  rcases hpath with rfl | rfl <;> rcases hverb with rfl | rfl | rfl | rfl | rfl | rfl | rfl <;>
    exact ⟨rfl, fun _ => ⟨rfl, rfl, rfl⟩⟩

theorem other_response_codes_ignored_witness :
    get widgetDoc "basePath" = get widgetDocAlt "basePath" ∧
    get widgetDoc "definitions" = get widgetDocAlt "definitions" ∧
    pathKeysOf widgetDoc = pathKeysOf widgetDocAlt ∧
    responseAt createWidgetOp "404" ≠ responseAt createWidgetOpAlt "404" ∧
    parseSwagger genUtils 2 widgetDoc = parseSwagger genUtils 2 widgetDocAlt :=
  ⟨rfl, rfl, rfl, (by intro h; cases h),
    other_response_codes_ignored genUtils 2 widgetDoc widgetDocAlt rfl rfl rfl
      widgetDocAlt_sameOperations⟩

/-- C18. Two documents that agree on the base path, the definitions, the ordered path keys
and the value under every supported verb of every path have the same outcome, whatever the
path items hold under other keys (unrecognised verbs, path-level `parameters`, vendor
extensions). -/
theorem unsupported_keys_ignored (g : GenUtils) (fuel : Nat) (api api' : Val)
    (hb : get api "basePath" = get api' "basePath")
    (hd : get api "definitions" = get api' "definitions")
    (hk : pathKeysOf api = pathKeysOf api')
    (hops : ∀ ks, pathKeysOf api = .ok ks → ∀ path ∈ ks, ∀ verb ∈ g.verbs,
      opAt g api path verb = opAt g api' path verb) :
    parseSwagger g fuel api = parseSwagger g fuel api' :=
  parseSwagger_of_parts g fuel api api' hb hd
    (walkPaths_congr g api api' hd hk
      (fun ks hks path hpath verb hverb =>
        sameOperation_of_eq _ _ (hops ks hks path hpath verb hverb)))

theorem widgetDocExtra_operations (ks : List String)
    (hks : pathKeysOf widgetDoc = .ok ks) :
    ∀ path ∈ ks, ∀ verb ∈ genUtils.verbs,
      opAt genUtils widgetDoc path verb = opAt genUtils widgetDocExtra path verb := by
  have hkeys : pathKeysOf widgetDoc = .ok ["/widgets", "/widgets/{id}"] := rfl
  rw [hkeys] at hks
  cases hks
  intro path hpath verb hverb
  simp only [List.mem_cons, List.mem_singleton, List.mem_nil_iff, or_false] at hpath
  simp only [genUtils, verbs, List.mem_cons, List.mem_singleton, List.mem_nil_iff,
    or_false] at hverb
  rcases hpath with rfl | rfl <;> rcases hverb with rfl | rfl | rfl | rfl | rfl | rfl | rfl <;>
    rfl

theorem unsupported_keys_ignored_witness :
    get widgetDoc "basePath" = get widgetDocExtra "basePath" ∧
    get widgetDoc "definitions" = get widgetDocExtra "definitions" ∧
    pathKeysOf widgetDoc = pathKeysOf widgetDocExtra ∧
    opAt genUtils widgetDoc "/widgets" "trace" ≠
      opAt genUtils widgetDocExtra "/widgets" "trace" ∧
    parseSwagger genUtils 2 widgetDoc = parseSwagger genUtils 2 widgetDocExtra :=
  ⟨rfl, rfl, rfl, (by intro h; cases h),
    unsupported_keys_ignored genUtils 2 widgetDoc widgetDocExtra rfl rfl rfl
      widgetDocExtra_operations⟩

theorem isOperation_otherCodeDoc (op : Val)
    (h : IsOperation genUtils otherCodeDoc op) : op = otherCodeOp := by
  obtain ⟨paths, ks, path, item, verb, hp, hk, hpath, hi, hverb, ho, ht⟩ := h
  simp only [otherCodeDoc, get, lookup, if_true, Except.ok.injEq] at hp
  subst hp
  simp only [keys, List.map_cons, List.map_nil, Except.ok.injEq] at hk
  subst hk
  simp only [List.mem_singleton] at hpath
  subst hpath
  simp only [get, lookup, if_true, Except.ok.injEq] at hi
  subst hi
  simp only [genUtils, verbs, List.mem_cons, List.mem_singleton, List.mem_nil_iff,
    or_false] at hverb
  have e1 : readProp engine (.obj [("post", otherCodeOp)]) "get" = .ok .undefined := by rfl
  have e2 : readProp engine (.obj [("post", otherCodeOp)]) "post" = .ok otherCodeOp := by rfl
  have e3 : readProp engine (.obj [("post", otherCodeOp)]) "put" = .ok .undefined := by rfl
  have e4 : readProp engine (.obj [("post", otherCodeOp)]) "delete" = .ok .undefined := by rfl
  have e5 : readProp engine (.obj [("post", otherCodeOp)]) "head" = .ok .undefined := by rfl
  have e6 : readProp engine (.obj [("post", otherCodeOp)]) "options" = .ok .undefined := by
    rfl
  have e7 : readProp engine (.obj [("post", otherCodeOp)]) "patch" = .ok .undefined := by rfl
  rcases hverb with rfl | rfl | rfl | rfl | rfl | rfl | rfl
  · rw [show genUtils.engine = engine from rfl, e1] at ho; cases ho; simp [truthy] at ht
  · rw [show genUtils.engine = engine from rfl, e2] at ho; cases ho; rfl
  · rw [show genUtils.engine = engine from rfl, e3] at ho; cases ho; simp [truthy] at ht
  · rw [show genUtils.engine = engine from rfl, e4] at ho; cases ho; simp [truthy] at ht
  · rw [show genUtils.engine = engine from rfl, e5] at ho; cases ho; simp [truthy] at ht
  · rw [show genUtils.engine = engine from rfl, e6] at ho; cases ho; simp [truthy] at ht
  · rw [show genUtils.engine = engine from rfl, e7] at ho; cases ho; simp [truthy] at ht

/-- The only definition name that the operations of `otherCodeDoc` reach through a parameter,
a `200` or `default` response or the properties of a reached definition is `Pet`. -/
theorem reachable_otherCodeDoc (name : String)
    (h : Reachable genUtils otherCodeDoc name) : name = "Pet" := by
  have e1 : get otherCodeOp "parameters" = .ok (.arr [addPetsParameter]) := rfl
  have e2 : get addPetsParameter "schema" = .ok petArraySchema := rfl
  have e3 : get petArraySchema "$ref" = .ok .undefined := rfl
  have e4 : get otherCodeOp "responses" =
      .ok (.obj [("404", .obj [("schema", refTo "#/definitions/undefined")])]) := rfl
  have e4a : get (.obj [("404", .obj [("schema", refTo "#/definitions/undefined")])]) "200" =
      .ok .undefined := rfl
  have e4b : get (.obj [("404", .obj [("schema", refTo "#/definitions/undefined")])])
      "default" = .ok .undefined := rfl
  have e5 : get petArraySchema "items" = .ok (refTo "#/definitions/Pet") := rfl
  have e6 : get (refTo "#/definitions/Pet") "$ref" = .ok (.str "#/definitions/Pet") := rfl
  have e7 : genUtils.getRefName (.str "#/definitions/Pet") = .ok "Pet" := rfl
  have e8 : get otherCodeDoc "definitions" = .ok otherCodeDefinitions := rfl
  have e9 : get otherCodeDefinitions "Pet" = .ok (.obj [("type", .str "object")]) := rfl
  have e10 : get (.obj [("type", .str "object")]) "properties" = .ok .undefined := rfl
  induction h with
  | used op name hop hd =>
    have := isOperation_otherCodeDoc op hop
    subst this
    cases hd with
    | parameterRef ps parameter schema rv _ h1 h2 h3 h4 h5 h6 =>
      rw [e1] at h1; cases h1
      simp only [List.mem_singleton] at h2
      subst h2
      rw [e2] at h3; cases h3
      rw [e3] at h4; cases h4
      simp [truthy] at h5
    | responseRef responseType responses response schema rv _ hrt h1 h2 h3 h4 h5 h6 =>
      rw [e4] at h1; cases h1
      rcases hrt with rfl | rfl
      · rw [e4a] at h2; cases h2
        simp [get] at h3
      · rw [e4b] at h2; cases h2
        simp [get] at h3
    | responseItemsRef responseType responses response schema rv items ir _ hrt h1 h2 h3 =>
      rw [e4] at h1; cases h1
      rcases hrt with rfl | rfl
      · rw [e4a] at h2; cases h2
        simp [get] at h3
      · rw [e4b] at h2; cases h2
        simp [get] at h3
  | parameterItems op ps parameter schema rv items ir name hop h1 h2 h3 h4 h5 h6 h7 h8 h9 =>
    have := isOperation_otherCodeDoc op hop
    subst this
    rw [e1] at h1; cases h1
    simp only [List.mem_singleton] at h2
    subst h2
    rw [e2] at h3; cases h3
    rw [e5] at h6; cases h6
    rw [e6] at h7; cases h7
    rw [e7] at h9; cases h9
    rfl
  | property source name defs d _ h1 h2 h3 ih =>
    subst ih
    rw [e8] at h1; cases h1
    rw [e9] at h2; cases h2
    obtain ⟨properties, _, _, _, a, b, _⟩ := h3
    rw [e10] at a; cases a
    simp [truthy] at b

/-- C17, the failing case. In `otherCodeDoc` the definition named `undefined` is referred to
by the `404` response only, and nothing reaches it through a parameter, a `200` or `default`
response or the properties of a reached definition. The operation also has a parameter whose
schema is an array of `Pet`: line 114 records under the unassigned variable `ref`, that is
under the key `undefined`, so the returned `refs` has the key `undefined`, holding that
definition. -/
theorem other_code_definition_recorded :
    ∃ r, parseSwagger genUtils 1 otherCodeDoc = some (.ok r) ∧
      responseAt otherCodeOp "404" =
        .ok (.obj [("schema", refTo "#/definitions/undefined")]) ∧
      ¬ Reachable genUtils otherCodeDoc "undefined" ∧
      "undefined" ∈ r.refs.map Prod.fst ∧
      lookup "undefined" r.refs = peek otherCodeDefinitions "undefined" ∧
      lookup "undefined" r.refs = .obj [("type", .str "string")] :=
  ⟨⟨.undefined, [("pets", [⟨"post", "/pets"⟩])],
      [("undefined", .obj [("type", .str "string")])], 0, .builtin "Array.prototype"⟩,
    by rfl, by rfl,
    fun h => absurd (reachable_otherCodeDoc "undefined" h) (by decide),
    by decide, by rfl, by rfl⟩
/-! ## C14 and C15: the two loaders -/

theorem joinWords_keeps (words : List (List Char)) (a : List Char) (h : a ∈ words) :
    a <:+: joinWords words := by
  induction words with
  | nil => simp at h
  | cons b rest ih =>
    cases rest with
    | nil =>
      simp only [List.mem_singleton] at h
      subst h
      exact List.infix_refl _
    | cons c rest' =>
      rcases List.mem_cons.mp h with rfl | h'
      · exact ⟨[], ' ' :: joinWords (c :: rest'), by simp [joinWords]⟩
      · obtain ⟨s, t, hst⟩ := ih h'
        exact ⟨b ++ ' ' :: s, t, by simp [joinWords, ← hst]⟩

theorem plainRed_keepsText : KeepsText plainRed := by
  intro args a ha
  exact joinWords_keeps _ _ (List.mem_map_of_mem String.data ha)

/-- C14. A response is accepted exactly when its status code is 200, and then the body is
returned unchanged; any other status code fails with the message that `chalk.red` makes of
the fixed text, the URI, `status:` and the code; a transport failure fails with the message
made of the fixed text, the URI, `err:` and the message of the cause. With a colouring that
keeps the text of its arguments, those messages contain the URI and the status code, or the
URI and the message of the cause. -/
theorem http_success_is_200 (w : World) (uri : String) (hred : KeepsText w.red) :
    (∀ statusCode body, w.request uri = .response statusCode body →
      (statusCode = 200 → loadHttpAsync w uri = .ok body) ∧
      (statusCode ≠ 200 → ∃ text,
        loadHttpAsync w uri = .error (.message text) ∧
        text = w.red ["failed to load swagger from:", uri, "status:", toString statusCode] ∧
        uri.data <:+: text.data ∧ (toString statusCode).data <:+: text.data)) ∧
    (∀ message, w.request uri = .failure message → ∃ text,
      loadHttpAsync w uri = .error (.message text) ∧
      text = w.red ["failed to load swagger from:", uri, "err:", message] ∧
      uri.data <:+: text.data ∧ message.data <:+: text.data) := by
  refine ⟨fun statusCode body hreq => ⟨fun h200 => ?_, fun hne => ?_⟩, fun message hreq => ?_⟩
  · simp [loadHttpAsync, hreq, h200]
  · exact ⟨_, by simp [loadHttpAsync, hreq, hne], rfl, hred _ _ (by simp),
      hred _ _ (by simp)⟩
  · exact ⟨_, by simp [loadHttpAsync, hreq], rfl, hred _ _ (by simp), hred _ _ (by simp)⟩

theorem http_success_is_200_witness :
    KeepsText (sampleWorld widgetDoc).red ∧
    loadHttpAsync (sampleWorld widgetDoc) "http://example.test/orders.json" =
      .ok (.str "orders.json text") ∧
    loadHttpAsync (sampleWorld widgetDoc) "http://example.test/gone.json" =
      .error (.message
        "failed to load swagger from: http://example.test/gone.json status: 404") ∧
    ((∀ statusCode body,
        (sampleWorld widgetDoc).request "http://example.test/gone.json" =
          .response statusCode body →
        (statusCode = 200 →
          loadHttpAsync (sampleWorld widgetDoc) "http://example.test/gone.json" = .ok body) ∧
        (statusCode ≠ 200 → ∃ text,
          loadHttpAsync (sampleWorld widgetDoc) "http://example.test/gone.json" =
            .error (.message text) ∧
          text = (sampleWorld widgetDoc).red ["failed to load swagger from:",
            "http://example.test/gone.json", "status:", toString statusCode] ∧
          "http://example.test/gone.json".data <:+: text.data ∧
          (toString statusCode).data <:+: text.data)) ∧
      (∀ message,
        (sampleWorld widgetDoc).request "http://example.test/gone.json" = .failure message →
        ∃ text,
          loadHttpAsync (sampleWorld widgetDoc) "http://example.test/gone.json" =
            .error (.message text) ∧
          text = (sampleWorld widgetDoc).red ["failed to load swagger from:",
            "http://example.test/gone.json", "err:", message] ∧
          "http://example.test/gone.json".data <:+: text.data ∧
          message.data <:+: text.data)) :=
  ⟨plainRed_keepsText, by rfl, by rfl,
    http_success_is_200 (sampleWorld widgetDoc) "http://example.test/gone.json"
      plainRed_keepsText⟩

/-- C15. `loadFileAsync` fails exactly when the read throws, with the message made of the
fixed text, the path and the message of the cause, or returns `undefined`, with the message
made of the fixed text and the path alone; every other returned value, the empty string
included, is returned unchanged. With a colouring that keeps the text of its arguments the
messages contain the path, and the message of the cause when there is one. -/
theorem file_load_outcome (w : World) (filePath : String) (hred : KeepsText w.red) :
    (∀ message, w.read filePath = .thrown message → ∃ text,
      loadFileAsync w filePath = .error (.message text) ∧
      text = w.red ["failed to load swagger from:", filePath, message] ∧
      filePath.data <:+: text.data ∧ message.data <:+: text.data) ∧
    (w.read filePath = .returned .undefined → ∃ text,
      loadFileAsync w filePath = .error (.message text) ∧
      text = w.red ["failed to load swagger from:", filePath] ∧
      filePath.data <:+: text.data) ∧
    (∀ data, w.read filePath = .returned data → data ≠ .undefined →
      loadFileAsync w filePath = .ok data) := by
  refine ⟨fun message hread => ?_, fun hread => ?_, fun data hread hdef => ?_⟩
  · exact ⟨_, by simp [loadFileAsync, hread], rfl, hred _ _ (by simp), hred _ _ (by simp)⟩
  · exact ⟨_, by simp [loadFileAsync, hread, isUndefined], rfl, hred _ _ (by simp)⟩
  · have hu : isUndefined data = false := by
      cases data <;> first | rfl | exact absurd rfl hdef
    simp [loadFileAsync, hread, hu]

theorem file_load_outcome_witness :
    KeepsText (sampleWorld widgetDoc).red ∧
    loadFileAsync (sampleWorld widgetDoc) "empty.json" = .ok (.str "") ∧
    loadFileAsync (sampleWorld widgetDoc) "unreadable.json" =
      .error (.message "failed to load swagger from: unreadable.json") ∧
    loadFileAsync (sampleWorld widgetDoc) "missing.json" =
      .error (.message "failed to load swagger from: missing.json ENOENT: no such file") ∧
    ((∀ message, (sampleWorld widgetDoc).read "missing.json" = .thrown message → ∃ text,
        loadFileAsync (sampleWorld widgetDoc) "missing.json" = .error (.message text) ∧
        text = (sampleWorld widgetDoc).red
          ["failed to load swagger from:", "missing.json", message] ∧
        "missing.json".data <:+: text.data ∧ message.data <:+: text.data) ∧
      ((sampleWorld widgetDoc).read "missing.json" = .returned .undefined → ∃ text,
        loadFileAsync (sampleWorld widgetDoc) "missing.json" = .error (.message text) ∧
        text = (sampleWorld widgetDoc).red ["failed to load swagger from:", "missing.json"] ∧
        "missing.json".data <:+: text.data) ∧
      (∀ data, (sampleWorld widgetDoc).read "missing.json" = .returned data →
        data ≠ .undefined → loadFileAsync (sampleWorld widgetDoc) "missing.json" = .ok data)) :=
  ⟨plainRed_keepsText, by rfl, by rfl, by rfl,
    file_load_outcome (sampleWorld widgetDoc) "missing.json" plainRed_keepsText⟩
/-! ## C16 and C20: the format and the kind of the source -/

theorem isYaml_iff (path : String) :
    isYaml path = true ↔ ".yaml".data <:+ path.data ∨ ".yml".data <:+ path.data := by
  simp [isYaml, endsWith]

/-- C16. The loaded text is parsed by `YAML.load` exactly when the source ends with `.yaml`
or `.yml`, compared character by character, and by `JSON.parse` otherwise; the choice looks
neither at the kind of the source nor at the text. -/
theorem format_by_ending (w : World) (path : String) (data : Val)
    (hsrc : loadSource w path = .ok data) :
    ((".yaml".data <:+ path.data ∨ ".yml".data <:+ path.data) →
      loadAsync w path = w.yamlLoad data) ∧
    (¬ (".yaml".data <:+ path.data ∨ ".yml".data <:+ path.data) →
      loadAsync w path = w.jsonParse data) := by
  constructor
  · intro h
    have hy := (isYaml_iff path).mpr h
    simp [loadAsync, hsrc, hy]
  · intro h
    have hy : isYaml path = false := by
      cases hb : isYaml path with
      | false => rfl
      | true => exact absurd ((isYaml_iff path).mp hb) h
    simp [loadAsync, hsrc, hy]

/-- The endings that the claim lists: only the two lower-case endings select YAML. -/
theorem isYaml_examples :
    isYaml "api.yaml" = true ∧ isYaml "api.yml" = true ∧ isYaml "api.YAML" = false ∧
    isYaml "api.json" = false ∧ isYaml "api" = false ∧
    isYaml "http://example.test/api.yaml?download=1" = false ∧
    isYaml "http://example.test/api.yml" = true := by
  decide

theorem format_by_ending_witness :
    loadSource (sampleWorld widgetDoc) "orders.json" = .ok (.str "orders.json text") ∧
    ((".yaml".data <:+ "orders.json".data ∨ ".yml".data <:+ "orders.json".data) →
      loadAsync (sampleWorld widgetDoc) "orders.json" =
        (sampleWorld widgetDoc).yamlLoad (.str "orders.json text")) ∧
    (¬ (".yaml".data <:+ "orders.json".data ∨ ".yml".data <:+ "orders.json".data) →
      loadAsync (sampleWorld widgetDoc) "orders.json" =
        (sampleWorld widgetDoc).jsonParse (.str "orders.json text")) ∧
    loadAsync (sampleWorld widgetDoc) "orders.json" = .ok widgetDoc :=
  ⟨by rfl,
    (format_by_ending (sampleWorld widgetDoc) "orders.json" (.str "orders.json text")
      (by rfl)).1,
    (format_by_ending (sampleWorld widgetDoc) "orders.json" (.str "orders.json text")
      (by rfl)).2,
    by rfl⟩

theorem startsWithNonSpace_iff (cs : List Char) :
    startsWithNonSpace cs = true ↔ ∃ c rest, cs = c :: rest ∧ isWhiteSpace c = false := by
  cases cs with
  | nil => simp [startsWithNonSpace]
  | cons c rest => simp [startsWithNonSpace]

theorem isHttp_iff (path : String) :
    isHttp path = true ↔
      ∃ c rest, isWhiteSpace c = false ∧
        (path.data = "http://".data ++ c :: rest ∨ path.data = "https://".data ++ c :: rest) := by
  have h8 : "https://".data.length = 8 := rfl
  have h7 : "http://".data.length = 7 := rfl
  simp only [isHttp, Bool.or_eq_true, Bool.and_eq_true, List.isPrefixOf_iff_prefix,
    startsWithNonSpace_iff]
  constructor
  · rintro (⟨⟨t, ht⟩, c, rest, hd, hc⟩ | ⟨⟨t, ht⟩, c, rest, hd, hc⟩)
    · refine ⟨c, rest, hc, Or.inr ?_⟩
      rw [← ht, ← h8, List.drop_left] at hd
      rw [← ht, hd]
    · refine ⟨c, rest, hc, Or.inl ?_⟩
      rw [← ht, ← h7, List.drop_left] at hd
      rw [← ht, hd]
  · rintro ⟨c, rest, hc, h | h⟩
    · refine Or.inr ⟨⟨c :: rest, h.symm⟩, c, rest, ?_, hc⟩
      rw [h, ← h7, List.drop_left]
    · refine Or.inl ⟨⟨c :: rest, h.symm⟩, c, rest, ?_, hc⟩
      rw [h, ← h8, List.drop_left]

/-- C20, as the code has it. `loadAsync` loads over HTTP exactly when the source begins with
`http://` or `https://` followed by at least one character that is not white space; every
other source, a bare scheme included, is read through the file access. -/
theorem http_dispatch (w : World) (path : String) :
    ((∃ c rest, isWhiteSpace c = false ∧
        (path.data = "http://".data ++ c :: rest ∨
          path.data = "https://".data ++ c :: rest)) →
      loadSource w path = loadHttpAsync w path) ∧
    (¬ (∃ c rest, isWhiteSpace c = false ∧
        (path.data = "http://".data ++ c :: rest ∨
          path.data = "https://".data ++ c :: rest)) →
      loadSource w path = loadFileAsync w path) := by
  constructor
  · intro h
    simp [loadSource, (isHttp_iff path).mpr h]
  · intro h
    have hn : isHttp path = false := by
      cases hb : isHttp path with
      | false => rfl
      | true => exact absurd ((isHttp_iff path).mp hb) h
    simp [loadSource, hn]

/-- C20 fails as stated: the source `http://` begins with `http://`, yet it is read through
the file access, whose outcome here differs from that of a request. -/
theorem bare_scheme_is_read_as_file :
    "http://".data <+: "http://".data ∧
    loadSource (sampleWorld widgetDoc) "http://" =
      loadFileAsync (sampleWorld widgetDoc) "http://" ∧
    loadSource (sampleWorld widgetDoc) "http://" =
      .error (.message "failed to load swagger from: http:// ENOENT: no such file") ∧
    loadHttpAsync (sampleWorld widgetDoc) "http://" =
      .error (.message "failed to load swagger from: http:// err: getaddrinfo ENOTFOUND") :=
  ⟨List.prefix_refl _, by rfl, by rfl, by rfl⟩
/-! ## C12 and C13: the entry point -/

/-- The runs of `parse`, case by case. -/
theorem parse_load_error (w : World) (g : GenUtils) (fuel : Nat) (path : String) (e : Failure)
    (h : loadAsync w path = .error e) : parse w g fuel path = ⟨[.load], some (.error e)⟩ := by
  simp only [parse, h]

theorem parse_rejected (w : World) (g : GenUtils) (fuel : Nat) (path : String) (d : Val)
    (diag : String) (h : loadAsync w path = .ok d) (hv : (w.validate d).2 = some diag) :
    parse w g fuel path = ⟨[.load, .validate], some (.error
      (.message (w.red [path, "does not conform to swagger specification"])))⟩ := by
  cases hval : w.validate d with
  | mk after verdict =>
    rw [hval] at hv
    simp only at hv
    subst hv
    simp only [parse, h, ensureValidAsync, hval]

theorem parse_accepted (w : World) (g : GenUtils) (fuel : Nat) (path : String) (d : Val)
    (h : loadAsync w path = .ok d) (hv : (w.validate d).2 = none) :
    parse w g fuel path =
      match w.jsonParse (w.stringify d) with
      | .error e => ⟨[.load, .validate], some (.error e)⟩
      | .ok restored =>
        match parseSwagger g fuel restored with
        | none => ⟨[.load, .validate, .extract], none⟩
        | some (.error e) => ⟨[.load, .validate, .extract], some (.error (.extractor e))⟩
        | some (.ok parsed) =>
          ⟨[.load, .validate, .extract], some (.ok ⟨restored, parsed⟩)⟩ := by
  cases hval : w.validate d with
  | mk after verdict =>
    rw [hval] at hv
    simp only at hv
    subst hv
    simp only [parse, h, ensureValidAsync, hval]

/-- C12. Whatever a validator that accepts the loaded document `d` leaves in place of it,
`parse` resolves to the snapshot taken before validation, the result of `JSON.parse` on
`JSON.stringify(d)`, as `loaded`, and to `parseSwagger` of that snapshot as `parsed`. -/
theorem pristine_snapshot (w : World) (g : GenUtils) (fuel : Nat) (path : String)
    (validate : Val → Val × Option String) (d snapshot : Val) (parsed : Parsed)
    (hload : loadAsync w path = .ok d) (haccept : (validate d).2 = none)
    (hsnap : w.jsonParse (w.stringify d) = .ok snapshot)
    (hparsed : parseSwagger g fuel snapshot = some (.ok parsed)) :
    (parse { w with validate := validate } g fuel path).outcome =
      some (.ok ⟨snapshot, parsed⟩) := by
  have hload' : loadAsync { w with validate := validate } path = .ok d := hload
  rw [parse_accepted { w with validate := validate } g fuel path d hload' haccept]
  simp only [hsnap, hparsed]

theorem pristine_snapshot_witness :
    loadAsync (sampleWorld widgetDoc) "orders.json" = .ok widgetDoc ∧
    ((fun _ => (Val.str "overwritten", none)) widgetDoc : Val × Option String).2 = none ∧
    (parse { sampleWorld widgetDoc with validate := fun _ => (Val.str "overwritten", none) }
      genUtils 2 "orders.json").outcome = some (.ok ⟨widgetDoc, widgetParsed⟩) :=
  ⟨by rfl, rfl,
    pristine_snapshot (sampleWorld widgetDoc) genUtils 2 "orders.json"
      (fun _ => (Val.str "overwritten", none)) widgetDoc widgetDoc widgetParsed
      (by rfl) rfl (by rfl) (by rfl)⟩

/-- C13, as the code has it. `parse` resolves to a Load Result exactly when loading and
format parsing succeed, the validator accepts, the snapshot is parsed back and the extractor
returns. When loading or format parsing fails, `parse` fails with that very error and only
the load stage ran. When the validator rejects, whatever its diagnostic, `parse` fails with
the message that `chalk.red` makes of the source and the fixed text
`does not conform to swagger specification`, and the extractor did not run. -/
theorem parse_fail_fast (w : World) (g : GenUtils) (fuel : Nat) (path : String) :
    (∀ result, (parse w g fuel path).outcome = some (.ok result) ↔
      ∃ d, loadAsync w path = .ok d ∧ (w.validate d).2 = none ∧
        w.jsonParse (w.stringify d) = .ok result.loaded ∧
        parseSwagger g fuel result.loaded = some (.ok result.parsed)) ∧
    (∀ e, loadAsync w path = .error e →
      parse w g fuel path = ⟨[.load], some (.error e)⟩) ∧
    (∀ d diag, loadAsync w path = .ok d → (w.validate d).2 = some diag →
      parse w g fuel path = ⟨[.load, .validate], some (.error
        (.message (w.red [path, "does not conform to swagger specification"])))⟩) := by
  refine ⟨fun result => ?_, fun e h => parse_load_error w g fuel path e h,
    fun d diag h hv => parse_rejected w g fuel path d diag h hv⟩
  constructor
  · intro h
    cases hload : loadAsync w path with
    | error e => rw [parse_load_error w g fuel path e hload] at h; simp at h
    | ok d =>
      cases hv : (w.validate d).2 with
      | some diag => rw [parse_rejected w g fuel path d diag hload hv] at h; simp at h
      | none =>
        rw [parse_accepted w g fuel path d hload hv] at h
        cases hsnap : w.jsonParse (w.stringify d) with
        | error e => rw [hsnap] at h; simp at h
        | ok restored =>
          rw [hsnap] at h
          simp only at h
          cases hparsed : parseSwagger g fuel restored with
          | none => rw [hparsed] at h; simp at h
          | some out =>
            cases out with
            | error e => rw [hparsed] at h; simp at h
            | ok parsed =>
              rw [hparsed] at h
              simp only [Option.some.injEq, Except.ok.injEq] at h
              subst h
              exact ⟨d, rfl, hv, hsnap, hparsed⟩
  · rintro ⟨d, hload, hv, hsnap, hparsed⟩
    rw [parse_accepted w g fuel path d hload hv]
    simp only [hsnap, hparsed]

/-- C13 fails as stated: on `vendorModelsDoc` loading, format parsing and validation all
succeed, and `parse` still fails, with the `TypeError` that the extractor raises at line 109
for want of a `definitions` section. -/
theorem valid_document_can_fail :
    loadAsync (sampleWorld vendorModelsDoc) "orders.json" = .ok vendorModelsDoc ∧
    ((sampleWorld vendorModelsDoc).validate vendorModelsDoc).2 = none ∧
    parse (sampleWorld vendorModelsDoc) genUtils 1 "orders.json" =
      ⟨[.load, .validate, .extract], some (.error (.extractor .typeError))⟩ :=
  ⟨by rfl, rfl, by rfl⟩

/-- The three ways in which `parse` ends before the extractor, on the sample world. -/
theorem parse_failures_sample :
    parse (sampleWorld widgetDoc) genUtils 2 "missing.json" =
      ⟨[.load], some (.error (.message
        "failed to load swagger from: missing.json ENOENT: no such file"))⟩ ∧
    parse (sampleWorld widgetDoc) genUtils 2 "empty.json" =
      ⟨[.load], some (.error (.format "Unexpected token"))⟩ ∧
    parse { sampleWorld widgetDoc with validate := fun d => (d, some "missing info") }
        genUtils 2 "orders.json" =
      ⟨[.load, .validate], some (.error (.message
        "orders.json does not conform to swagger specification"))⟩ :=
  ⟨by rfl, by rfl, by rfl⟩


end Swaggerize
